import Mathlib

/-!
# Game of Life: lookup table, rolling neighbour keys, column stripes

A shallow embedding of `src/src/life.c`.

* A board buffer (`char*`) is a `List Nat`; the cell in row `i`, column `j` lives at
  offset `i + LDA * j` (column major, `LDA = nrows`).  Every access is checked: a read
  or write outside the buffer, or outside the lookup table, makes the enclosing
  computation return `none`.  The offset is an `int` in the source (`LDA`, `i`, `j` are
  `int`, lines 62 and 97-98): when `i + LDA * j` exceeds `INT_MAX = 2 ^ 31 - 1` the
  expression overflows; C defines no result for it, and whatever value an implementation
  gives it is not the offset of cell `(i, j)`, so the access returns `none` as well.  The
  theorems that need an access to succeed carry the hypothesis `n * n <= 2 ^ 31`, which
  says that every offset below `n * n` is an `int`.
* A C `int` that can grow (the keys and the `shared` accumulator) is kept as its 32-bit
  two's-complement pattern, a natural number below `2 ^ 32`; `<<` and `+` reduce modulo
  `2 ^ 32`, `&` is bitwise and on the pattern.
* The two buffers handed to `game_of_life` are distinct and do not overlap.  They are
  named by the pointer the caller passed (`BoardPtr.inb` for `inboard`, `BoardPtr.outb`
  for `outboard`);
  the local pointer variables of a worker are values of that type and `SWAP_BOARDS`
  exchanges them.
* The four workers are run generation by generation, stripe after stripe; this is the
  schedule the barrier at the end of every generation allows.  Thread creation is
  assumed to succeed.
* `thread_life` is entered with `nrows >= 32` only; row and column counts inside it are
  natural numbers.
* The functions whose names end in `_log` are the worker functions with a record added:
  per row, the values of the four keys, the four table indices used and the four offsets
  stored, each offset being the one the store itself computed.  They are proved to return
  what the plain functions return.
-/

namespace Life

/-! ## Machine integers -/

/-- The 32-bit pattern of an `int` value. -/
def int32 (x : Nat) : Nat := x % 2 ^ 32

/-- The C expression `x << k` on `int`. -/
def shl (x k : Nat) : Nat := int32 (x <<< k)

/-- The C expression `x + y` on `int`. -/
def add (x y : Nat) : Nat := int32 (x + y)

/-! ## Lookup table (life.c lines 245-259) -/

/-- The macro `KEY_LENGTH`. -/
def KEY_LENGTH : Nat := 9

/-- Modelled from the spec: `alivep` comes from `util.h`, which is not among the sources.
The spec gives it as: alive iff `neighborCount == 3` or (`selfAlive` and
`neighborCount == 2`).  The result is a C truth value, 0 or 1. -/
def alivep (count state : Nat) : Nat :=
  if count = 3 ∨ (state ≠ 0 ∧ count = 2) then 1 else 0

/-- The inner loop over `j` of the table construction: returns `(alive, neighbor_count)`
for index `i`. -/
def scan_bits (i : Nat) : Nat × Nat :=
  (List.range KEY_LENGTH).foldl
    (fun (st : Nat × Nat) (j : Nat) =>
      if (i >>> j) &&& 1 ≠ 0 then
        (if j = 4 then (1, st.2) else (st.1, st.2 + 1))
      else st)
    (0, 0)

/-- The value stored in `lookup[i]`. -/
def lookup_entry (i : Nat) : Nat := alivep (scan_bits i).2 (scan_bits i).1

/-- The table after the loop `for (i=0; i<512; i++)`. -/
def build_lookup : List Nat := (List.range 512).map lookup_entry

/-! ## Board access -/

/-- The index expression `(i) + LDA*(j)` of the macro `BOARD`, evaluated in `int` as the
source does (`LDA`, `i` and `j` are `int`, lines 97-98): `none` when the value exceeds
`INT_MAX = 2 ^ 31 - 1`.  The operands are never negative, so the product `LDA*(j)` fits
whenever the sum does. -/
def board_offset (LDA i j : Nat) : Option Nat :=
  if i + LDA * j < 2 ^ 31 then some (i + LDA * j) else none

/-- The macro `BOARD(board, i, j)` used as an rvalue. -/
def BOARD (board : List Nat) (LDA i j : Nat) : Option Nat := do
  let k ← board_offset LDA i j
  board[k]?

/-- The macro `BOARD(board, i, j)` used as an lvalue: `BOARD(board, i, j) = v`. -/
def BOARD_set (board : List Nat) (LDA i j v : Nat) : Option (List Nat) := do
  let k ← board_offset LDA i j
  if k < board.length then some (board.set k v) else none

/-- The four rolling keys of a column group. -/
structure Keys where
  key_1 : Nat
  key_2 : Nat
  key_3 : Nat
  key_4 : Nat
deriving DecidableEq

/-- Lines 127-134: load the row `inorth` into bits 8..6 of the keys. -/
def load_north (inboard : List Nat) (LDA inorth j jwest jeast jeastmost : Nat) :
    Option Keys := do
  let c0 ← BOARD inboard LDA inorth j
  let c1 ← BOARD inboard LDA inorth jeast
  let shared := add (shl c0 7) (shl c1 6)
  let w ← BOARD inboard LDA inorth jwest
  let key_1 := add (shl w 8) shared
  let c2 ← BOARD inboard LDA inorth (jeast + 1)
  let shared := add (shl shared 1) (shl c2 6)
  let key_2 := shared
  let c3 ← BOARD inboard LDA inorth (jeast + 2)
  let shared := add (shl shared 1) (shl c3 6)
  let key_3 := shared &&& 511
  let c4 ← BOARD inboard LDA inorth jeastmost
  let shared := add (shl shared 1) (shl c4 6)
  let key_4 := shared &&& 511
  pure ⟨key_1, key_2, key_3, key_4⟩

/-- Lines 137-144: add the row `i` (row 0) into bits 5..3 of the keys. -/
def load_middle (inboard : List Nat) (LDA i j jwest jeast jeastmost : Nat) (k : Keys) :
    Option Keys := do
  let c0 ← BOARD inboard LDA i j
  let c1 ← BOARD inboard LDA i jeast
  let shared := add (shl c0 4) (shl c1 3)
  let w ← BOARD inboard LDA i jwest
  let key_1 := add k.key_1 (add (shl w 5) shared)
  let c2 ← BOARD inboard LDA 0 (jeast + 1)
  let shared := add (shl shared 1) (shl c2 3)
  let key_2 := add k.key_2 (shared &&& 63)
  let c3 ← BOARD inboard LDA 0 (jeast + 2)
  let shared := add (shl shared 1) (shl c3 3)
  let key_3 := add k.key_3 (shared &&& 63)
  let c4 ← BOARD inboard LDA 0 jeastmost
  let shared := add (shl shared 1) (shl c4 3)
  let key_4 := add k.key_4 (shared &&& 63)
  pure ⟨key_1, key_2, key_3, key_4⟩

/-- Lines 147-154, 173-180 and 196-203 (the same statements three times): add the row
`isouth` into bits 2..0 of the keys. -/
def load_south (inboard : List Nat) (LDA isouth j jwest jeast jeastmost : Nat) (k : Keys) :
    Option Keys := do
  let c0 ← BOARD inboard LDA isouth j
  let c1 ← BOARD inboard LDA isouth jeast
  let shared := add (shl c0 1) c1
  let w ← BOARD inboard LDA isouth jwest
  let key_1 := add k.key_1 (add (shl w 2) shared)
  let c2 ← BOARD inboard LDA isouth (jeast + 1)
  let shared := add (shl shared 1) c2
  let key_2 := add k.key_2 shared
  let c3 ← BOARD inboard LDA isouth (jeast + 2)
  let shared := add (shl shared 1) c3
  let key_3 := add k.key_3 (shared &&& 7)
  let c4 ← BOARD inboard LDA isouth jeastmost
  let shared := add (shl shared 1) c4
  let key_4 := add k.key_4 (shared &&& 7)
  pure ⟨key_1, key_2, key_3, key_4⟩

/-- Lines 156-159, 183-186 and 205-208: four table lookups at the given indices, stored
in row `i`, columns `j`, `jeast`, `jeast+1`, `jeast+2` of `outboard`. -/
def store_row (lookup outboard : List Nat) (LDA i j jeast : Nat) (x1 x2 x3 x4 : Nat) :
    Option (List Nat) := do
  let v1 ← lookup[x1]?
  let outboard ← BOARD_set outboard LDA i j v1
  let v2 ← lookup[x2]?
  let outboard ← BOARD_set outboard LDA i jeast v2
  let v3 ← lookup[x3]?
  let outboard ← BOARD_set outboard LDA i (jeast + 1) v3
  let v4 ← lookup[x4]?
  BOARD_set outboard LDA i (jeast + 2) v4

/-- Lines 162-188: the loop `for (i = 1; i < nrows-1; i+=1)`; the first argument is the
number of iterations left, the second the current `i`. -/
def row_loop (lookup inboard : List Nat) (LDA j jwest jeast jeastmost : Nat) :
    Nat → Nat → Keys → List Nat → Option (Keys × List Nat)
  | 0, _, k, outboard => some (k, outboard)
  | cnt + 1, i, k, outboard => do
    let isouth := i + 1
    let k : Keys := ⟨shl k.key_1 3, shl k.key_2 3, shl k.key_3 3, shl k.key_4 3⟩
    let k ← load_south inboard LDA isouth j jwest jeast jeastmost k
    let outboard ← store_row lookup outboard LDA i j jeast
      (k.key_1 &&& 511) (k.key_2 &&& 511) (k.key_3 &&& 511) (k.key_4 &&& 511)
    row_loop lookup inboard LDA j jwest jeast jeastmost cnt (i + 1) k outboard

/-- Lines 103-208: the body of the loop over `j`, one group of four columns. -/
def column_group (lookup inboard outboard : List Nat) (nrows j : Nat) :
    Option (List Nat) := do
  let ncols := nrows
  let LDA := nrows
  let jwest := if j = 0 then ncols - 1 else j - 1
  let jeast := j + 1
  let jeastmost := if j ≥ ncols - 4 then 0 else j + 4
  let inorth := nrows - 1
  let k ← load_north inboard LDA inorth j jwest jeast jeastmost
  let k ← load_middle inboard LDA 0 j jwest jeast jeastmost k
  let k ← load_south inboard LDA 1 j jwest jeast jeastmost k
  let outboard ← store_row lookup outboard LDA 0 j jeast k.key_1 k.key_2 k.key_3 k.key_4
  let (k, outboard) ← row_loop lookup inboard LDA j jwest jeast jeastmost
    (nrows - 2) 1 k outboard
  let i := 1 + (nrows - 2)
  let k : Keys :=
    ⟨shl k.key_1 3 &&& 511, shl k.key_2 3 &&& 511, shl k.key_3 3 &&& 511,
      shl k.key_4 3 &&& 511⟩
  let k ← load_south inboard LDA 0 j jwest jeast jeastmost k
  store_row lookup outboard LDA i j jeast k.key_1 k.key_2 k.key_3 k.key_4

/-- Line 102: the loop `for (j = cindex; j < endCol; j += 4)`; the first argument is the
number of iterations left, the second the current `j`. -/
def column_loop (lookup inboard : List Nat) (nrows : Nat) :
    Nat → Nat → List Nat → Option (List Nat)
  | 0, _, outboard => some outboard
  | cnt + 1, j, outboard => do
    let outboard ← column_group lookup inboard outboard nrows j
    column_loop lookup inboard nrows cnt (j + 4) outboard

/-- Lines 102-209: one iteration of the generation loop of `thread_life` for the stripe
`[cindex, endCol)`, on the contents of the buffers its local pointers name.  The loop
over `j` runs `ceil((endCol - cindex) / 4)` times. -/
def stripe_pass (lookup inboard outboard : List Nat) (nrows cindex endCol : Nat) :
    Option (List Nat) :=
  column_loop lookup inboard nrows ((endCol - cindex + 3) / 4) cindex outboard

/-! ## Buffers, workers, orchestrator -/

/-- The two buffer pointers passed to `game_of_life`. -/
inductive BoardPtr where
  | inb
  | outb
deriving DecidableEq

/-- Contents of the two buffers. -/
structure Memory where
  inboard : List Nat
  outboard : List Nat
deriving DecidableEq

/-- Contents of the buffer a pointer names. -/
def Memory.load (m : Memory) : BoardPtr → List Nat
  | .inb => m.inboard
  | .outb => m.outboard

/-- Replace the contents of the buffer a pointer names. -/
def Memory.store (m : Memory) (p : BoardPtr) (b : List Nat) : Memory :=
  match p with
  | .inb => { m with inboard := b }
  | .outb => { m with outboard := b }

/-- The fields of `struct tdata` that differ between workers. -/
structure tdata where
  cindex : Nat
  colsToUse : Nat
deriving DecidableEq

/-- One generation of one worker: the worker reads through its local `inboard` pointer
and writes through its local `outboard` pointer. -/
def thread_life_generation (lookup : List Nat) (nrows : Nat) (inboard outboard : BoardPtr)
    (m : Memory) (d : tdata) : Option Memory := do
  let out ← stripe_pass lookup (m.load inboard) (m.load outboard) nrows d.cindex d.colsToUse
  pure (m.store outboard out)

/-- One generation of all workers, in list order. -/
def workers_generation (lookup : List Nat) (nrows : Nat) (inboard outboard : BoardPtr) :
    List tdata → Memory → Option Memory
  | [], m => some m
  | d :: ds, m => do
    let m ← thread_life_generation lookup nrows inboard outboard m d
    workers_generation lookup nrows inboard outboard ds m

/-- Lines 101-214: the generation loop `for (k=0; k<generations; k++)` of the workers;
the first argument is the number of generations left.  Returns the final values of the
local pointers `inboard` and `outboard` and the memory. -/
def thread_life (lookup : List Nat) (nrows : Nat) (workers : List tdata) :
    Nat → BoardPtr → BoardPtr → Memory → Option (BoardPtr × BoardPtr × Memory)
  | 0, inboard, outboard, m => some (inboard, outboard, m)
  | k + 1, inboard, outboard, m => do
    let m ← workers_generation lookup nrows inboard outboard workers m
    -- SWAP_BOARDS(inboard, outboard)
    thread_life lookup nrows workers k outboard inboard m

/-- Lines 263-273: the four `struct tdata` for a board of `nrows` rows. -/
def TDATA (nrows : Nat) : List tdata :=
  let quartile := nrows / 4
  (List.range 4).map (fun i => ⟨i * quartile, (i + 1) * quartile⟩)

/-- Result type of `game_of_life` and of the sequential routine: the returned pointer
and the memory after the call; `none` when an access leaves a buffer or its offset
overflows `int`. -/
abbrev Outcome := Option (BoardPtr × Memory)

/-- Lines 222-302: `game_of_life (outboard, inboard, nrows, ncols, gens_max)`.  The
routine `sequential_game_of_life` is external and passed as `sequential`. -/
def game_of_life (sequential : Memory → Int → Int → Int → Outcome)
    (m : Memory) (nrows ncols gens_max : Int) : Outcome :=
  if nrows < 32 then
    sequential m nrows ncols gens_max
  else do
    let lookup := build_lookup
    let (_, _, m) ← thread_life lookup nrows.toNat (TDATA nrows.toNat) gens_max.toNat
      BoardPtr.inb BoardPtr.outb m
    if gens_max.tmod 2 ≠ 0 then
      pure (BoardPtr.outb, m)
    else
      pure (BoardPtr.inb, m)

/-! ## The rule stated directly (toroidal Conway step) -/

/-- Cell in row `i`, column `j` of a board with `rows` rows (0 outside the buffer). -/
def cellAt (b : List Nat) (rows i j : Nat) : Nat := b.getD (i + rows * j) 0

/-- Row or column index before `i` on a ring of `n` indices. -/
def ringPred (n i : Nat) : Nat := (i + n - 1) % n

/-- Row or column index after `i` on a ring of `n` indices. -/
def ringSucc (n i : Nat) : Nat := (i + 1) % n

/-- Number of live cells among the eight wrap-around neighbours of `(i, j)`. -/
def liveNeighbours (b : List Nat) (rows cols i j : Nat) : Nat :=
  cellAt b rows (ringPred rows i) (ringPred cols j) + cellAt b rows (ringPred rows i) j
    + cellAt b rows (ringPred rows i) (ringSucc cols j)
    + cellAt b rows i (ringPred cols j) + cellAt b rows i (ringSucc cols j)
    + cellAt b rows (ringSucc rows i) (ringPred cols j) + cellAt b rows (ringSucc rows i) j
    + cellAt b rows (ringSucc rows i) (ringSucc cols j)

/-- Next state of cell `(i, j)`: alive iff its neighbours number 3, or number 2 and it is
alive. -/
def conwayCell (b : List Nat) (rows cols i j : Nat) : Nat :=
  if liveNeighbours b rows cols i j = 3
      ∨ (liveNeighbours b rows cols i j = 2 ∧ cellAt b rows i j ≠ 0) then 1 else 0

/-- One generation of the whole board. -/
def conwayStep (rows cols : Nat) (b : List Nat) : List Nat :=
  (List.range (rows * cols)).map (fun k => conwayCell b rows cols (k % rows) (k / rows))

/-- The board after `g` generations. -/
def conwayGens (rows cols g : Nat) (b : List Nat) : List Nat :=
  (conwayStep rows cols)^[g] b

/-- A buffer of `rows * cols` cells, each 0 or 1. -/
def IsBinaryBoard (rows cols : Nat) (b : List Nat) : Prop :=
  b.length = rows * cols ∧ ∀ x ∈ b, x = 0 ∨ x = 1

/-- The nine-bit key of the toroidal 3x3 neighbourhood of `(i, c)` on an `n x n` board:
north row in bits 8..6, middle row in bits 5..3, south row in bits 2..0. -/
def neighbourKey (b : List Nat) (n i c : Nat) : Nat :=
  256 * cellAt b n (ringPred n i) (ringPred n c) + 128 * cellAt b n (ringPred n i) c
    + 64 * cellAt b n (ringPred n i) (ringSucc n c)
    + 32 * cellAt b n i (ringPred n c) + 16 * cellAt b n i c
    + 8 * cellAt b n i (ringSucc n c)
    + 4 * cellAt b n (ringSucc n i) (ringPred n c) + 2 * cellAt b n (ringSucc n i) c
    + cellAt b n (ringSucc n i) (ringSucc n c)

/-- Bit `j` of `k`. -/
def bitAt (k j : Nat) : Nat := k / 2 ^ j % 2

/-- Number of 1-bits of `k` among bits 0..3 and 5..8. -/
def neighbourBits (k : Nat) : Nat :=
  bitAt k 0 + bitAt k 1 + bitAt k 2 + bitAt k 3 + bitAt k 5 + bitAt k 6 + bitAt k 7
    + bitAt k 8

/-- The table contract: entry `k` as the rule prescribes it. -/
def tableSpec (k : Nat) : Nat :=
  if (bitAt k 4 = 1 ∧ (neighbourBits k = 2 ∨ neighbourBits k = 3))
      ∨ (bitAt k 4 = 0 ∧ neighbourBits k = 3) then 1 else 0

/-- The generation loop of the sequential routine: write the next generation through
`outboard`, swap the pointers. -/
def sequential_loop (rows cols : Nat) :
    Nat → BoardPtr → BoardPtr → Memory → BoardPtr × Memory
  | 0, inboard, _, m => (inboard, m)
  | k + 1, inboard, outboard, m =>
    sequential_loop rows cols k outboard inboard
      (m.store outboard (conwayStep rows cols (m.load inboard)))

/-- Modelled from the spec: `sequential_game_of_life` is the external sequential
reference, not among the sources.  The spec gives it as
`sequentialGameOfLife(outboard, inboard, rows, cols, generations) -> finalBoard`, same
toroidal topology and rule: the returned buffer holds the board after `generations`
steps. -/
def sequential_game_of_life (m : Memory) (nrows ncols gens_max : Int) : Outcome :=
  some (sequential_loop nrows.toNat ncols.toNat gens_max.toNat BoardPtr.inb BoardPtr.outb m)

/-! ## Vocabulary of the proofs -/

/-- The three samples of row `r` around column `c`, as a 3-bit number. -/
def rowBits (b : List Nat) (n r c : Nat) : Nat :=
  4 * cellAt b n r (ringPred n c) + 2 * cellAt b n r c + cellAt b n r (ringSucc n c)

/-- The value the worker stores for cell `(r, c)`. -/
def tableAt (lookup b : List Nat) (n r c : Nat) : Nat :=
  lookup.getD (neighbourKey b n r c) 0

/-- The four keys agree, modulo 512, with the neighbourhood keys of row `i`. -/
def KeysAt (b : List Nat) (n i j : Nat) (k : Keys) : Prop :=
  k.key_1 % 512 = neighbourKey b n i j ∧ k.key_2 % 512 = neighbourKey b n i (j + 1)
    ∧ k.key_3 % 512 = neighbourKey b n i (j + 2) ∧ k.key_4 % 512 = neighbourKey b n i (j + 3)

/-- A stripe the worker loop handles: bounds are multiples of 4 inside the board. -/
def ValidStripe (n : Nat) (d : tdata) : Prop :=
  d.cindex % 4 = 0 ∧ d.colsToUse % 4 = 0 ∧ d.cindex ≤ d.colsToUse ∧ d.colsToUse ≤ n

/-- Column `c` belongs to the stripe of some worker of the list. -/
def Covered (ds : List tdata) (c : Nat) : Prop :=
  ∃ d ∈ ds, d.cindex ≤ c ∧ c < d.colsToUse

/-- The stripes of the list cover every column of the board. -/
def CoversBoard (n : Nat) (ds : List tdata) : Prop :=
  (∀ d ∈ ds, ValidStripe n d) ∧ ∀ c, c < n → Covered ds c

/-- The stripes of the list cut `[a, n)` into contiguous pieces, in order, every bound
after `a` a multiple of 4. -/
def StripeCut (n : Nat) : Nat → List tdata → Prop
  | a, [] => a = n
  | a, d :: ds => d.cindex = a ∧ a ≤ d.colsToUse ∧ d.colsToUse % 4 = 0
      ∧ StripeCut n d.colsToUse ds

/-- Indicator of the index `r`. -/
def single (r i : Nat) : Nat := if i = r then 1 else 0

/-- Indicator of the two ring-adjacent indices starting at `r`. -/
def pair (n r i : Nat) : Nat := if i = r ∨ i = ringSucc n r then 1 else 0

/-- Indicator of the three ring-adjacent indices starting at `r`. -/
def triple (n r i : Nat) : Nat :=
  if i = r ∨ i = ringSucc n r ∨ i = ringSucc n (ringSucc n r) then 1 else 0

/-- The board whose cell `(i, j)` is `a i * b j`. -/
def productBoard (n : Nat) (a b : Nat → Nat) : List Nat :=
  (List.range (n * n)).map (fun k => a (k % n) * b (k / n))

/-- The rule on a cell whose neighbourhood is the product of row values `a0 a1 a2` and
column values `b0 b1 b2`. -/
def stepRule (a0 a1 a2 b0 b1 b2 : Nat) : Nat :=
  if a0 * b0 + a0 * b1 + a0 * b2 + a1 * b0 + a1 * b2 + a2 * b0 + a2 * b1 + a2 * b2 = 3
      ∨ (a0 * b0 + a0 * b1 + a0 * b2 + a1 * b0 + a1 * b2 + a2 * b0 + a2 * b1 + a2 * b2 = 2
        ∧ a1 * b1 ≠ 0) then 1 else 0

/-- Distance from `c` forward to `j` on the ring of `n` indices. -/
def ringDiff (n c j : Nat) : Nat := if c ≤ j then j - c else j + n - c

/-- A single live cell at `(r, c)`. -/
def isolatedBoard (n r c : Nat) : List Nat := productBoard n (single r) (single c)

/-- A 2x2 block of live cells with top-left corner `(r, c)`, wrapping at the edges. -/
def blockBoard (n r c : Nat) : List Nat := productBoard n (pair n r) (pair n c)

/-- Three adjacent collinear live cells starting at `(r, c)`: in column `c`, rows `r`,
`r+1`, `r+2` when `vertical`, else in row `r`, columns `c`, `c+1`, `c+2`; indices wrap. -/
def blinkerBoard (n : Nat) (vertical : Bool) (r c : Nat) : List Nat :=
  if vertical then productBoard n (triple n r) (single c)
  else productBoard n (single r) (triple n c)

/-! ## The worker with a record of what each row did -/

/-- What the worker did for one row of one column group: the row `i`, the group start
`j`, the values of `key_1 .. key_4` after the row's update, the four table indices it
used, and the offsets at which its four stores wrote. -/
structure RowEvent where
  row : Nat
  col : Nat
  keys : Keys
  index : Keys
  writes : List Nat
deriving DecidableEq

/-- The offsets of the four cells of row `i` in columns `j`, `jeast`, `jeast + 1`,
`jeast + 2`. -/
def store_row_offsets (LDA i j jeast : Nat) : List Nat :=
  [i + LDA * j, i + LDA * jeast, i + LDA * (jeast + 1), i + LDA * (jeast + 2)]

/-- The lvalue `BOARD(board, i, j) = v` as in `BOARD_set`, also returning the offset
stored. -/
def BOARD_set_log (board : List Nat) (LDA i j v : Nat) : Option (List Nat × Nat) := do
  let k ← board_offset LDA i j
  if k < board.length then some (board.set k v, k) else none

/-- The statements of `store_row`, also returning the offsets of the four stores, in the
order of the stores. -/
def store_row_log (lookup outboard : List Nat) (LDA i j jeast : Nat) (x1 x2 x3 x4 : Nat) :
    Option (List Nat × List Nat) := do
  let v1 ← lookup[x1]?
  let (outboard, k1) ← BOARD_set_log outboard LDA i j v1
  let v2 ← lookup[x2]?
  let (outboard, k2) ← BOARD_set_log outboard LDA i jeast v2
  let v3 ← lookup[x3]?
  let (outboard, k3) ← BOARD_set_log outboard LDA i (jeast + 1) v3
  let v4 ← lookup[x4]?
  let (outboard, k4) ← BOARD_set_log outboard LDA i (jeast + 2) v4
  pure (outboard, [k1, k2, k3, k4])

/-- The loop `row_loop`, also returning one event per iteration. -/
def row_loop_log (lookup inboard : List Nat) (LDA j jwest jeast jeastmost : Nat) :
    Nat → Nat → Keys → List Nat → Option (Keys × List Nat × List RowEvent)
  | 0, _, k, outboard => some (k, outboard, [])
  | cnt + 1, i, k, outboard => do
    let isouth := i + 1
    let k : Keys := ⟨shl k.key_1 3, shl k.key_2 3, shl k.key_3 3, shl k.key_4 3⟩
    let k ← load_south inboard LDA isouth j jwest jeast jeastmost k
    let x : Keys := ⟨k.key_1 &&& 511, k.key_2 &&& 511, k.key_3 &&& 511, k.key_4 &&& 511⟩
    let (outboard, ws) ←
      store_row_log lookup outboard LDA i j jeast x.key_1 x.key_2 x.key_3 x.key_4
    let (k1, outboard, log) ←
      row_loop_log lookup inboard LDA j jwest jeast jeastmost cnt (i + 1) k outboard
    pure (k1, outboard, ⟨i, j, k, x, ws⟩ :: log)

/-- The body `column_group`, also returning one event per row, in the order the rows
are processed. -/
def column_group_log (lookup inboard outboard : List Nat) (nrows j : Nat) :
    Option (List Nat × List RowEvent) := do
  let ncols := nrows
  let LDA := nrows
  let jwest := if j = 0 then ncols - 1 else j - 1
  let jeast := j + 1
  let jeastmost := if j ≥ ncols - 4 then 0 else j + 4
  let inorth := nrows - 1
  let k ← load_north inboard LDA inorth j jwest jeast jeastmost
  let k ← load_middle inboard LDA 0 j jwest jeast jeastmost k
  let k ← load_south inboard LDA 1 j jwest jeast jeastmost k
  let (outboard, ws) ←
    store_row_log lookup outboard LDA 0 j jeast k.key_1 k.key_2 k.key_3 k.key_4
  let first : RowEvent := ⟨0, j, k, k, ws⟩
  let (k, outboard, log) ← row_loop_log lookup inboard LDA j jwest jeast jeastmost
    (nrows - 2) 1 k outboard
  let i := 1 + (nrows - 2)
  let k : Keys :=
    ⟨shl k.key_1 3 &&& 511, shl k.key_2 3 &&& 511, shl k.key_3 3 &&& 511,
      shl k.key_4 3 &&& 511⟩
  let k ← load_south inboard LDA 0 j jwest jeast jeastmost k
  let (outboard, ws) ←
    store_row_log lookup outboard LDA i j jeast k.key_1 k.key_2 k.key_3 k.key_4
  pure (outboard, first :: log ++ [⟨i, j, k, k, ws⟩])

/-- The loop `column_loop`, also returning the events of its groups. -/
def column_loop_log (lookup inboard : List Nat) (nrows : Nat) :
    Nat → Nat → List Nat → Option (List Nat × List RowEvent)
  | 0, _, outboard => some (outboard, [])
  | cnt + 1, j, outboard => do
    let (outboard, log) ← column_group_log lookup inboard outboard nrows j
    let (outboard, rest) ← column_loop_log lookup inboard nrows cnt (j + 4) outboard
    pure (outboard, log ++ rest)

/-- The pass `stripe_pass`, also returning its events. -/
def stripe_pass_log (lookup inboard outboard : List Nat) (nrows cindex endCol : Nat) :
    Option (List Nat × List RowEvent) :=
  column_loop_log lookup inboard nrows ((endCol - cindex + 3) / 4) cindex outboard

/-- One generation of all workers `workers_generation`, also returning the events of all
stripes. -/
def workers_generation_log (lookup : List Nat) (nrows : Nat) (inboard outboard : BoardPtr) :
    List tdata → Memory → Option (Memory × List RowEvent)
  | [], m => some (m, [])
  | d :: ds, m => do
    let (out, log) ←
      stripe_pass_log lookup (m.load inboard) (m.load outboard) nrows d.cindex d.colsToUse
    let (m, rest) ←
      workers_generation_log lookup nrows inboard outboard ds (m.store outboard out)
    pure (m, log ++ rest)

/-- All offsets stored by the events of a record, in order. -/
def writes_of : List RowEvent → List Nat
  | [] => []
  | e :: es => e.writes ++ writes_of es

/-- The four neighbourhood keys of row `i` for the group starting at column `j`. -/
def groupKeys (b : List Nat) (n i j : Nat) : Keys :=
  ⟨neighbourKey b n i j, neighbourKey b n i (j + 1), neighbourKey b n i (j + 2),
    neighbourKey b n i (j + 3)⟩

/-- The event of row `i` of the group starting at `j` is as the key layout prescribes:
the keys agree modulo 512 with the neighbourhood keys, the table indices are the
neighbourhood keys, the stored cells are those of row `i`, columns `j .. j+3`. -/
def RowEventOk (b : List Nat) (n j i : Nat) (e : RowEvent) : Prop :=
  e.row = i ∧ e.col = j ∧ KeysAt b n i j e.keys ∧ e.index = groupKeys b n i j
    ∧ e.writes = store_row_offsets n i j (j + 1)

/-- Component `m` of a key tuple: `key_1` for 0, `key_2` for 1, `key_3` for 2, `key_4`
otherwise. -/
def Keys.nth (k : Keys) (m : Nat) : Nat :=
  match m with
  | 0 => k.key_1
  | 1 => k.key_2
  | 2 => k.key_3
  | _ => k.key_4

/-- The key tuple after the mask `& 511`. -/
def Keys.masked (k : Keys) : Keys :=
  ⟨k.key_1 &&& 511, k.key_2 &&& 511, k.key_3 &&& 511, k.key_4 &&& 511⟩

/-- A 4 x 4 board (column major) holding the neighbourhood of the header comment around
cell (1, 1): rows `D D A`, `D D D`, `A A D` in columns 0..2. -/
def headerBoard : List Nat := [0, 0, 1, 0, 0, 0, 1, 0, 1, 0, 0, 0, 0, 0, 0, 0]

/-- The table indices of an event are taken as the code takes them: the keys themselves
in rows 0 and `n - 1`, the keys masked with 511 in the rows between. -/
def IndexAsCode (n : Nat) (e : RowEvent) : Prop :=
  ((e.row = 0 ∨ e.row = n - 1) → e.index = e.keys)
    ∧ ((0 < e.row ∧ e.row < n - 1) → e.index = e.keys.masked)

/-! ## Lookup table: proofs -/

set_option maxRecDepth 1000000 in
set_option maxHeartbeats 4000000 in
theorem lookup_entry_spec_all :
    (List.range 512).all (fun k => lookup_entry k == tableSpec k) = true := by
  decide

theorem lookup_entry_spec (k : Nat) (h : k < 512) : lookup_entry k = tableSpec k := by
  have hall := lookup_entry_spec_all
  rw [List.all_eq_true] at hall
  simpa using hall k (List.mem_range.mpr h)

theorem build_lookup_length : build_lookup.length = 512 := by
  simp [build_lookup]

theorem build_lookup_get (k : Nat) (h : k < 512) :
    build_lookup[k]? = some (lookup_entry k) := by
  simp [build_lookup, List.getElem?_range, h]

/-- C2: for every index k below 512 the table entry built by game_of_life is 1 iff
(bit 4 of k is 1 and the number of 1-bits among the other eight bits is 2 or 3) or
(bit 4 of k is 0 and that number is exactly 3), and 0 otherwise. -/
theorem C2_lookup_table_contract (k : Nat) (hk : k < 512) :
    build_lookup[k]? = some
      (if (bitAt k 4 = 1 ∧ (neighbourBits k = 2 ∨ neighbourBits k = 3))
          ∨ (bitAt k 4 = 0 ∧ neighbourBits k = 3) then 1 else 0) := by
  rw [build_lookup_get k hk, lookup_entry_spec k hk]
  rfl

theorem C2_lookup_table_contract_witness :
    (70 : Nat) < 512 ∧ build_lookup[70]? = some
      (if (bitAt 70 4 = 1 ∧ (neighbourBits 70 = 2 ∨ neighbourBits 70 = 3))
          ∨ (bitAt 70 4 = 0 ∧ neighbourBits 70 = 3) then 1 else 0) :=
  ⟨by decide, C2_lookup_table_contract 70 (by decide)⟩

/-! ## Arithmetic helpers -/

theorem land_511 (x : Nat) : x &&& 511 = x % 512 := Nat.and_pow_two_sub_one_eq_mod x 9
theorem land_63 (x : Nat) : x &&& 63 = x % 64 := Nat.and_pow_two_sub_one_eq_mod x 6
theorem land_7 (x : Nat) : x &&& 7 = x % 8 := Nat.and_pow_two_sub_one_eq_mod x 3

theorem shl_eq (x k : Nat) : shl x k = x * 2 ^ k % 4294967296 := by
  simp [shl, int32, Nat.shiftLeft_eq]

theorem add_eq (x y : Nat) : add x y = (x + y) % 4294967296 := by
  simp [add, int32]

theorem offset_lt {n i j : Nat} (hi : i < n) (hj : j < n) : i + n * j < n * n := by
  have h1 : n * j + n ≤ n * n := by
    have : n * (j + 1) ≤ n * n := Nat.mul_le_mul_left n hj
    simpa [Nat.mul_add] using this
  omega

theorem offset_inj {n i j r c : Nat} (hi : i < n) (hr : r < n) :
    r + n * c = i + n * j ↔ r = i ∧ c = j := by
  constructor
  · intro h
    have h1 : (r + n * c) % n = (i + n * j) % n := by rw [h]
    have h2 : (r + n * c) / n = (i + n * j) / n := by rw [h]
    have hn : 0 < n := by omega
    rw [Nat.add_mul_mod_self_left, Nat.add_mul_mod_self_left, Nat.mod_eq_of_lt hr,
      Nat.mod_eq_of_lt hi] at h1
    rw [Nat.add_mul_div_left _ _ hn, Nat.add_mul_div_left _ _ hn, Nat.div_eq_of_lt hr,
      Nat.div_eq_of_lt hi] at h2
    omega
  · rintro ⟨rfl, rfl⟩
    rfl

theorem ringPred_eq {n i : Nat} (hi : i < n) :
    ringPred n i = if i = 0 then n - 1 else i - 1 := by
  unfold ringPred
  split
  · subst i
    rw [Nat.zero_add]
    exact Nat.mod_eq_of_lt (by omega)
  · have : i + n - 1 = (i - 1) + n := by omega
    rw [this, Nat.add_mod_right]
    exact Nat.mod_eq_of_lt (by omega)

theorem ringSucc_eq {n i : Nat} (hi : i < n) :
    ringSucc n i = if i + 1 = n then 0 else i + 1 := by
  unfold ringSucc
  split
  · rename_i h
    rw [h, Nat.mod_self]
  · exact Nat.mod_eq_of_lt (by omega)

theorem ringPred_lt {n i : Nat} (hn : 0 < n) : ringPred n i < n := Nat.mod_lt _ hn
theorem ringSucc_lt {n i : Nat} (hn : 0 < n) : ringSucc n i < n := Nat.mod_lt _ hn

/-! ## Reads, writes and the rolling keys -/

theorem board_offset_eq {n i j : Nat} (hN : n * n ≤ 2 ^ 31) (hi : i < n) (hj : j < n) :
    board_offset n i j = some (i + n * j) := by
  have h0 : i + n * j < n * n := offset_lt hi hj
  unfold board_offset
  rw [if_pos (by omega)]

theorem BOARD_eq {b : List Nat} {n i j : Nat} (hN : n * n ≤ 2 ^ 31) (hlen : b.length = n * n)
    (hi : i < n) (hj : j < n) : BOARD b n i j = some (cellAt b n i j) := by
  have h : i + n * j < b.length := by rw [hlen]; exact offset_lt hi hj
  simp [BOARD, board_offset_eq hN hi hj, cellAt, List.getD_eq_getElem?_getD,
    List.getElem?_eq_getElem h]

theorem cellAt_le_one {b : List Nat} {n : Nat} (hb : IsBinaryBoard n n b) (i j : Nat) :
    cellAt b n i j ≤ 1 := by
  unfold cellAt
  rw [List.getD_eq_getElem?_getD]
  by_cases h : i + n * j < b.length
  · rw [List.getElem?_eq_getElem h]
    have := hb.2 _ (List.getElem_mem h)
    simp only [Option.getD_some]
    omega
  · rw [List.getElem?_eq_none (by omega)]
    simp

theorem BOARD_set_eq {b : List Nat} {n i j : Nat}
    (hN : n * n ≤ 2 ^ 31) (v : Nat) (hlen : b.length = n * n)
    (hi : i < n) (hj : j < n) :
    BOARD_set b n i j v = some (b.set (i + n * j) v) := by
  have h : i + n * j < b.length := by rw [hlen]; exact offset_lt hi hj
  simp [BOARD_set, board_offset_eq hN hi hj, h]

theorem cellAt_set {b : List Nat} {n i j r c : Nat} (v : Nat) (hlen : b.length = n * n)
    (hi : i < n) (hj : j < n) (hr : r < n) :
    cellAt (b.set (i + n * j) v) n r c = if r = i ∧ c = j then v else cellAt b n r c := by
  have h : i + n * j < b.length := by rw [hlen]; exact offset_lt hi hj
  unfold cellAt
  rw [List.getD_eq_getElem?_getD, List.getD_eq_getElem?_getD, List.getElem?_set]
  by_cases e : r = i ∧ c = j
  · obtain ⟨rfl, rfl⟩ := e
    simp [h]
  · have : ¬ (i + n * j = r + n * c) := by
      intro h'
      exact e ((offset_inj hi hr).1 h'.symm)
    simp [this, e]

theorem rowBits_le {b : List Nat} {n : Nat} (hb : IsBinaryBoard n n b) (r c : Nat) :
    rowBits b n r c ≤ 7 := by
  unfold rowBits
  have h1 := cellAt_le_one hb r (ringPred n c)
  have h2 := cellAt_le_one hb r c
  have h3 := cellAt_le_one hb r (ringSucc n c)
  omega

theorem neighbourKey_eq (b : List Nat) (n i c : Nat) :
    neighbourKey b n i c
      = 64 * rowBits b n (ringPred n i) c + 8 * rowBits b n i c
        + rowBits b n (ringSucc n i) c := by
  unfold neighbourKey rowBits
  ring

theorem jwest_eq {n j : Nat} (h : j + 4 ≤ n) :
    (if j = 0 then n - 1 else j - 1) = ringPred n j := by
  rw [ringPred_eq (by omega)]

theorem jeastmost_eq_of_le {n j : Nat} (h : j + 4 ≤ n) :
    (if j ≥ n - 4 then 0 else j + 4) = ringSucc n (j + 3) := by
  rw [ringSucc_eq (by omega)]
  by_cases e : j + 4 = n
  · have : j ≥ n - 4 := by omega
    simp [this, e]
  · have : ¬ j ≥ n - 4 := by omega
    have e' : ¬ (j + 3 + 1 = n) := by omega
    simp [this, e']

theorem jeastmost_eq {n j : Nat} (h : j + 4 ≤ n) (_h4 : n % 4 = 0) (_hj4 : j % 4 = 0) :
    (if j ≥ n - 4 then 0 else j + 4) = ringSucc n (j + 3) :=
  jeastmost_eq_of_le h

theorem load_south_eq {b : List Nat} {n r j : Nat} (hN : n * n ≤ 2 ^ 31)
    (hb : IsBinaryBoard n n b)
    (hr : r < n) (h : j + 4 ≤ n) (k : Keys) :
    load_south b n r j (ringPred n j) (j + 1) (ringSucc n (j + 3)) k
      = some ⟨add k.key_1 (rowBits b n r j), add k.key_2 (rowBits b n r (j + 1)),
          add k.key_3 (rowBits b n r (j + 2)), add k.key_4 (rowBits b n r (j + 3))⟩ := by
  have hn : 0 < n := by omega
  have e1 : ringSucc n j = j + 1 := by rw [ringSucc_eq (by omega)]; simp; omega
  have e2 : ringPred n (j + 1) = j := by rw [ringPred_eq (by omega)]; simp
  have e3 : ringSucc n (j + 1) = j + 2 := by rw [ringSucc_eq (by omega)]; simp; omega
  have e4 : ringPred n (j + 2) = j + 1 := by rw [ringPred_eq (by omega)]; simp
  have e5 : ringSucc n (j + 2) = j + 3 := by rw [ringSucc_eq (by omega)]; simp; omega
  have e6 : ringPred n (j + 3) = j + 2 := by rw [ringPred_eq (by omega)]; simp
  simp only [load_south, BOARD_eq hN hb.1 hr (show j < n by omega),
    BOARD_eq hN hb.1 hr (show j + 1 < n by omega),
    BOARD_eq hN hb.1 hr (show j + 1 + 1 < n by omega),
    BOARD_eq hN hb.1 hr (show j + 1 + 2 < n by omega),
    BOARD_eq hN hb.1 hr (ringPred_lt hn : ringPred n j < n),
    BOARD_eq hN hb.1 hr (ringSucc_lt hn : ringSucc n (j + 3) < n), Option.bind_eq_bind,
    Option.some_bind, Option.pure_def, rowBits, e1, e2, e3, e4, e5, e6]
  have hw := cellAt_le_one hb r (ringPred n j)
  have h0 := cellAt_le_one hb r j
  have h1 := cellAt_le_one hb r (j + 1)
  have h2 := cellAt_le_one hb r (j + 2)
  have h3 := cellAt_le_one hb r (j + 3)
  have h4 := cellAt_le_one hb r (ringSucc n (j + 3))
  have a1 : j + 1 + 1 = j + 2 := rfl
  have a2 : j + 1 + 2 = j + 3 := rfl
  simp only [a1, a2]
  generalize cellAt b n r (ringPred n j) = w at *
  generalize cellAt b n r j = c0 at *
  generalize cellAt b n r (j + 1) = c1 at *
  generalize cellAt b n r (j + 2) = c2 at *
  generalize cellAt b n r (j + 3) = c3 at *
  generalize cellAt b n r (ringSucc n (j + 3)) = c4 at *
  simp only [shl_eq, add_eq, land_7]
  norm_num
  refine ⟨?_, ?_, ?_, ?_⟩ <;> congr 1 <;> omega

theorem load_north_eq {b : List Nat} {n r j : Nat} (hN : n * n ≤ 2 ^ 31)
    (hb : IsBinaryBoard n n b)
    (hr : r < n) (h : j + 4 ≤ n) :
    load_north b n r j (ringPred n j) (j + 1) (ringSucc n (j + 3))
      = some ⟨64 * rowBits b n r j, 64 * rowBits b n r (j + 1),
          64 * rowBits b n r (j + 2), 64 * rowBits b n r (j + 3)⟩ := by
  have hn : 0 < n := by omega
  have e1 : ringSucc n j = j + 1 := by rw [ringSucc_eq (by omega)]; simp; omega
  have e2 : ringPred n (j + 1) = j := by rw [ringPred_eq (by omega)]; simp
  have e3 : ringSucc n (j + 1) = j + 2 := by rw [ringSucc_eq (by omega)]; simp; omega
  have e4 : ringPred n (j + 2) = j + 1 := by rw [ringPred_eq (by omega)]; simp
  have e5 : ringSucc n (j + 2) = j + 3 := by rw [ringSucc_eq (by omega)]; simp; omega
  have e6 : ringPred n (j + 3) = j + 2 := by rw [ringPred_eq (by omega)]; simp
  simp only [load_north, BOARD_eq hN hb.1 hr (show j < n by omega),
    BOARD_eq hN hb.1 hr (show j + 1 < n by omega),
    BOARD_eq hN hb.1 hr (show j + 1 + 1 < n by omega),
    BOARD_eq hN hb.1 hr (show j + 1 + 2 < n by omega),
    BOARD_eq hN hb.1 hr (ringPred_lt hn : ringPred n j < n),
    BOARD_eq hN hb.1 hr (ringSucc_lt hn : ringSucc n (j + 3) < n), Option.bind_eq_bind,
    Option.some_bind, Option.pure_def, rowBits, e1, e2, e3, e4, e5, e6]
  have hw := cellAt_le_one hb r (ringPred n j)
  have h0 := cellAt_le_one hb r j
  have h1 := cellAt_le_one hb r (j + 1)
  have h2 := cellAt_le_one hb r (j + 2)
  have h3 := cellAt_le_one hb r (j + 3)
  have h4 := cellAt_le_one hb r (ringSucc n (j + 3))
  have a1 : j + 1 + 1 = j + 2 := rfl
  have a2 : j + 1 + 2 = j + 3 := rfl
  simp only [a1, a2]
  generalize cellAt b n r (ringPred n j) = w at *
  generalize cellAt b n r j = c0 at *
  generalize cellAt b n r (j + 1) = c1 at *
  generalize cellAt b n r (j + 2) = c2 at *
  generalize cellAt b n r (j + 3) = c3 at *
  generalize cellAt b n r (ringSucc n (j + 3)) = c4 at *
  simp only [shl_eq, add_eq, land_511]
  norm_num
  refine ⟨?_, ?_, ?_, ?_⟩ <;> omega

theorem load_middle_eq {b : List Nat} {n j : Nat} (hN : n * n ≤ 2 ^ 31) (hb : IsBinaryBoard n n b)
    (h : j + 4 ≤ n) (k : Keys) :
    load_middle b n 0 j (ringPred n j) (j + 1) (ringSucc n (j + 3)) k
      = some ⟨add k.key_1 (8 * rowBits b n 0 j), add k.key_2 (8 * rowBits b n 0 (j + 1)),
          add k.key_3 (8 * rowBits b n 0 (j + 2)),
          add k.key_4 (8 * rowBits b n 0 (j + 3))⟩ := by
  have hn : 0 < n := by omega
  have hr : 0 < n := hn
  have e1 : ringSucc n j = j + 1 := by rw [ringSucc_eq (by omega)]; simp; omega
  have e2 : ringPred n (j + 1) = j := by rw [ringPred_eq (by omega)]; simp
  have e3 : ringSucc n (j + 1) = j + 2 := by rw [ringSucc_eq (by omega)]; simp; omega
  have e4 : ringPred n (j + 2) = j + 1 := by rw [ringPred_eq (by omega)]; simp
  have e5 : ringSucc n (j + 2) = j + 3 := by rw [ringSucc_eq (by omega)]; simp; omega
  have e6 : ringPred n (j + 3) = j + 2 := by rw [ringPred_eq (by omega)]; simp
  simp only [load_middle, BOARD_eq hN hb.1 hr (show j < n by omega),
    BOARD_eq hN hb.1 hr (show j + 1 < n by omega),
    BOARD_eq hN hb.1 hr (show j + 1 + 1 < n by omega),
    BOARD_eq hN hb.1 hr (show j + 1 + 2 < n by omega),
    BOARD_eq hN hb.1 hr (ringPred_lt hn : ringPred n j < n),
    BOARD_eq hN hb.1 hr (ringSucc_lt hn : ringSucc n (j + 3) < n), Option.bind_eq_bind,
    Option.some_bind, Option.pure_def, rowBits, e1, e2, e3, e4, e5, e6]
  have hw := cellAt_le_one hb 0 (ringPred n j)
  have h0 := cellAt_le_one hb 0 j
  have h1 := cellAt_le_one hb 0 (j + 1)
  have h2 := cellAt_le_one hb 0 (j + 2)
  have h3 := cellAt_le_one hb 0 (j + 3)
  have h4 := cellAt_le_one hb 0 (ringSucc n (j + 3))
  have a1 : j + 1 + 1 = j + 2 := rfl
  have a2 : j + 1 + 2 = j + 3 := rfl
  simp only [a1, a2]
  generalize cellAt b n 0 (ringPred n j) = w at *
  generalize cellAt b n 0 j = c0 at *
  generalize cellAt b n 0 (j + 1) = c1 at *
  generalize cellAt b n 0 (j + 2) = c2 at *
  generalize cellAt b n 0 (j + 3) = c3 at *
  generalize cellAt b n 0 (ringSucc n (j + 3)) = c4 at *
  simp only [shl_eq, add_eq, land_63]
  norm_num
  refine ⟨?_, ?_, ?_, ?_⟩ <;> congr 1 <;> omega

theorem neighbourKey_lt {b : List Nat} {n : Nat} (hb : IsBinaryBoard n n b) (i c : Nat) :
    neighbourKey b n i c < 512 := by
  rw [neighbourKey_eq]
  have h1 := rowBits_le hb (ringPred n i) c
  have h2 := rowBits_le hb i c
  have h3 := rowBits_le hb (ringSucc n i) c
  omega

theorem store_row_eq {lookup b out : List Nat} {n i j : Nat}
    (hN : n * n ≤ 2 ^ 31) (hl : lookup.length = 512)
    (hb : IsBinaryBoard n n b) (hout : out.length = n * n) (hi : i < n) (h : j + 4 ≤ n) :
    ∃ out1, store_row lookup out n i j (j + 1) (neighbourKey b n i j)
        (neighbourKey b n i (j + 1)) (neighbourKey b n i (j + 2))
        (neighbourKey b n i (j + 3)) = some out1
      ∧ out1.length = n * n
      ∧ ∀ r c, r < n → cellAt out1 n r c
          = if r = i ∧ j ≤ c ∧ c < j + 4 then tableAt lookup b n r c else cellAt out n r c := by
  have g : ∀ c, lookup[neighbourKey b n i c]? = some (tableAt lookup b n i c) := by
    intro c
    have : neighbourKey b n i c < lookup.length := by rw [hl]; exact neighbourKey_lt hb i c
    simp [tableAt, List.getD_eq_getElem?_getD, List.getElem?_eq_getElem this]
  have a1 : j + 1 + 1 = j + 2 := rfl
  have a2 : j + 1 + 2 = j + 3 := rfl
  have l1 : (out.set (i + n * j) (tableAt lookup b n i j)).length = n * n := by
    rw [List.length_set, hout]
  have l2 : ((out.set (i + n * j) (tableAt lookup b n i j)).set (i + n * (j + 1))
      (tableAt lookup b n i (j + 1))).length = n * n := by
    rw [List.length_set, l1]
  have l3 : (((out.set (i + n * j) (tableAt lookup b n i j)).set (i + n * (j + 1))
      (tableAt lookup b n i (j + 1))).set (i + n * (j + 2))
      (tableAt lookup b n i (j + 2))).length = n * n := by
    rw [List.length_set, l2]
  refine ⟨(((out.set (i + n * j) (tableAt lookup b n i j)).set (i + n * (j + 1))
      (tableAt lookup b n i (j + 1))).set (i + n * (j + 2))
      (tableAt lookup b n i (j + 2))).set (i + n * (j + 3))
      (tableAt lookup b n i (j + 3)), ?_, ?_, ?_⟩
  · simp only [store_row, g, a1, a2, Option.bind_eq_bind, Option.some_bind,
      BOARD_set_eq hN _ hout hi (show j < n by omega),
      BOARD_set_eq hN _ l1 hi (show j + 1 < n by omega),
      BOARD_set_eq hN _ l2 hi (show j + 2 < n by omega),
      BOARD_set_eq hN _ l3 hi (show j + 3 < n by omega)]
  · rw [List.length_set, l3]
  · intro r c hr
    rw [cellAt_set _ l3 hi (show j + 3 < n by omega) hr,
      cellAt_set _ l2 hi (show j + 2 < n by omega) hr,
      cellAt_set _ l1 hi (show j + 1 < n by omega) hr,
      cellAt_set _ hout hi (show j < n by omega) hr]
    by_cases e : r = i
    · subst e
      by_cases c3 : c = j + 3
      · subst c3; simp
      by_cases c2 : c = j + 2
      · subst c2; simp
      by_cases c1 : c = j + 1
      · subst c1; simp
      by_cases c0 : c = j
      · subst c0; simp
      have : ¬ (j ≤ c ∧ c < j + 4) := by omega
      simp [c0, c1, c2, c3, this]
    · simp [e]

theorem key_roll {k A B C D : Nat} (hk : k % 512 = 64 * A + 8 * B + C)
    (hB : B ≤ 7) (hC : C ≤ 7) (hD : D ≤ 7) :
    add (shl k 3) D % 512 = 64 * B + 8 * C + D := by
  simp only [shl_eq, add_eq]
  norm_num
  omega

theorem key_roll_masked {k A B C D : Nat} (hk : k % 512 = 64 * A + 8 * B + C)
    (hB : B ≤ 7) (hC : C ≤ 7) (hD : D ≤ 7) :
    add (shl k 3 &&& 511) D = 64 * B + 8 * C + D := by
  simp only [shl_eq, add_eq, land_511]
  norm_num
  omega

theorem row_loop_spec {lookup b : List Nat} {n j : Nat}
    (hN : n * n ≤ 2 ^ 31) (hl : lookup.length = 512)
    (hb : IsBinaryBoard n n b) (h : j + 4 ≤ n) :
    ∀ (cnt i : Nat) (k : Keys) (out : List Nat), 1 ≤ i → i + cnt + 1 = n →
      out.length = n * n → KeysAt b n (i - 1) j k →
      ∃ k1 out1, row_loop lookup b n j (ringPred n j) (j + 1) (ringSucc n (j + 3)) cnt i k out
          = some (k1, out1)
        ∧ out1.length = n * n ∧ KeysAt b n (i + cnt - 1) j k1
        ∧ ∀ r c, r < n → cellAt out1 n r c
            = if (i ≤ r ∧ r < i + cnt) ∧ j ≤ c ∧ c < j + 4 then tableAt lookup b n r c
              else cellAt out n r c := by
  intro cnt
  induction cnt with
  | zero =>
    intro i k out hi hin hout hk
    refine ⟨k, out, rfl, hout, by simpa using hk, ?_⟩
    intro r c hr
    have : ¬ ((i ≤ r ∧ r < i + 0) ∧ j ≤ c ∧ c < j + 4) := by omega
    rw [if_neg this]
  | succ cnt ih =>
    intro i k out hi hin hout hk
    have hi1 : i + 1 < n := by omega
    have hilt : i < n := by omega
    have ep : ringPred n i = i - 1 := by rw [ringPred_eq hilt]; simp; omega
    have es : ringSucc n i = i + 1 := by rw [ringSucc_eq hilt]; simp; omega
    have es1 : ringSucc n (i - 1) = i := by
      rw [ringSucc_eq (by omega)]
      have : ¬ (i - 1 + 1 = n) := by omega
      simp [this]; omega
    have roll : ∀ c x, x % 512 = neighbourKey b n (i - 1) c →
        add (shl x 3) (rowBits b n (i + 1) c) % 512 = neighbourKey b n i c := by
      intro c x hx
      rw [neighbourKey_eq] at hx
      rw [neighbourKey_eq, ep, es]
      rw [es1] at hx
      exact key_roll hx (rowBits_le hb _ _) (rowBits_le hb _ _) (rowBits_le hb _ _)
    obtain ⟨hk1, hk2, hk3, hk4⟩ := hk
    have r1 := roll j _ hk1
    have r2 := roll (j + 1) _ hk2
    have r3 := roll (j + 2) _ hk3
    have r4 := roll (j + 3) _ hk4
    obtain ⟨out2, hs, hlen2, hcell2⟩ := store_row_eq hN (i := i) hl hb hout hilt h
    have hk' : KeysAt b n (i + 1 - 1) j
        ⟨add (shl k.key_1 3) (rowBits b n (i + 1) j),
          add (shl k.key_2 3) (rowBits b n (i + 1) (j + 1)),
          add (shl k.key_3 3) (rowBits b n (i + 1) (j + 2)),
          add (shl k.key_4 3) (rowBits b n (i + 1) (j + 3))⟩ := by
      simpa [KeysAt] using ⟨r1, r2, r3, r4⟩
    obtain ⟨k1, out1, hrun, hlen1, hkeys1, hcell1⟩ :=
      ih (i + 1) _ out2 (by omega) (by omega) hlen2 hk'
    refine ⟨k1, out1, ?_, hlen1, ?_, ?_⟩
    · simp only [row_loop, load_south_eq hN hb hi1 h, Option.bind_eq_bind, Option.some_bind,
        land_511, r1, r2, r3, r4, hs]
      exact hrun
    · have : i + 1 + cnt - 1 = i + (cnt + 1) - 1 := by omega
      rw [← this]
      exact hkeys1
    · intro r c hr
      rw [hcell1 r c hr, hcell2 r c hr]
      by_cases hc : j ≤ c ∧ c < j + 4
      · by_cases e1 : r = i
        · subst e1
          have : ¬ ((r + 1 ≤ r ∧ r < r + 1 + cnt)) := by omega
          simp [hc, this]
        · by_cases e2 : (i + 1 ≤ r ∧ r < i + 1 + cnt)
          · have : (i ≤ r ∧ r < i + (cnt + 1)) := by omega
            simp [hc, e2, this]
          · have : ¬ (i ≤ r ∧ r < i + (cnt + 1)) := by omega
            simp [hc, e1, e2, this]
      · simp [hc]

theorem column_group_spec_of_le {lookup b out : List Nat} {n j : Nat}
    (hN : n * n ≤ 2 ^ 31) (hl : lookup.length = 512) (hb : IsBinaryBoard n n b)
    (hout : out.length = n * n)
    (h : j + 4 ≤ n) :
    ∃ out1, column_group lookup b out n j = some out1 ∧ out1.length = n * n
      ∧ ∀ r c, r < n → cellAt out1 n r c
          = if j ≤ c ∧ c < j + 4 then tableAt lookup b n r c else cellAt out n r c := by
  have hn : 4 ≤ n := by omega
  have ep0 : ringPred n 0 = n - 1 := by rw [ringPred_eq (by omega)]; rfl
  have es0 : ringSucc n 0 = 1 := by rw [ringSucc_eq (by omega)]; simp; omega
  have epl : ringPred n (n - 1) = n - 2 := by rw [ringPred_eq (by omega)]; split <;> omega
  have esl : ringSucc n (n - 1) = 0 := by
    rw [ringSucc_eq (by omega)]
    have : n - 1 + 1 = n := by omega
    simp [this]
  have esl2 : ringSucc n (n - 2) = n - 1 := by
    rw [ringSucc_eq (by omega)]
    have : ¬ (n - 2 + 1 = n) := by omega
    simp [this]; omega
  -- keys of row 0
  have key0 : ∀ c, add (add (64 * rowBits b n (n - 1) c) (8 * rowBits b n 0 c))
      (rowBits b n 1 c) = neighbourKey b n 0 c := by
    intro c
    rw [neighbourKey_eq, ep0, es0]
    have h1 := rowBits_le hb (n - 1) c
    have h2 := rowBits_le hb 0 c
    have h3 := rowBits_le hb 1 c
    simp only [add_eq]
    omega
  obtain ⟨out0, hs0, hlen0, hcell0⟩ := store_row_eq hN (i := 0) hl hb hout (by omega) h
  have hk0 : KeysAt b n (1 - 1) j
      ⟨neighbourKey b n 0 j, neighbourKey b n 0 (j + 1), neighbourKey b n 0 (j + 2),
        neighbourKey b n 0 (j + 3)⟩ := by
    refine ⟨?_, ?_, ?_, ?_⟩ <;> exact Nat.mod_eq_of_lt (neighbourKey_lt hb _ _)
  obtain ⟨k1, out1, hrun, hlen1, hkeys1, hcell1⟩ :=
    row_loop_spec hN hl hb h (n - 2) 1 _ out0 (le_refl 1) (by omega) hlen0 hk0
  have hlast : 1 + (n - 2) - 1 = n - 2 := by omega
  rw [hlast] at hkeys1
  have rollm : ∀ c x, x % 512 = neighbourKey b n (n - 2) c →
      add (shl x 3 &&& 511) (rowBits b n 0 c) = neighbourKey b n (n - 1) c := by
    intro c x hx
    rw [neighbourKey_eq] at hx
    rw [neighbourKey_eq, epl, esl]
    rw [esl2] at hx
    exact key_roll_masked hx (rowBits_le hb _ _) (rowBits_le hb _ _) (rowBits_le hb _ _)
  obtain ⟨hk1, hk2, hk3, hk4⟩ := hkeys1
  obtain ⟨out2, hs2, hlen2, hcell2⟩ :=
    store_row_eq hN (i := n - 1) hl hb hlen1 (by omega) h
  have hi : 1 + (n - 2) = n - 1 := by omega
  refine ⟨out2, ?_, hlen2, ?_⟩
  · simp only [column_group, jwest_eq h, jeastmost_eq_of_le h,
      load_north_eq hN hb (show n - 1 < n by omega) h, load_middle_eq hN hb h,
      load_south_eq hN hb (show 1 < n by omega) h, load_south_eq hN hb (show 0 < n by omega) h,
      Option.bind_eq_bind, Option.some_bind, key0, hs0, hrun, hi,
      rollm _ _ hk1, rollm _ _ hk2, rollm _ _ hk3, rollm _ _ hk4]
    exact hs2
  · intro r c hr
    rw [hcell2 r c hr, hcell1 r c hr, hcell0 r c hr]
    by_cases hc : j ≤ c ∧ c < j + 4
    · by_cases e1 : r = n - 1
      · simp [hc, e1]
      · by_cases e0 : r = 0
        · have : ¬ ((1 ≤ r ∧ r < 1 + (n - 2))) := by omega
          simp [hc, e0]
        · have : (1 ≤ r ∧ r < 1 + (n - 2)) := by omega
          simp [hc, this]
    · simp [hc]

theorem column_group_spec {lookup b out : List Nat} {n j : Nat}
    (hN : n * n ≤ 2 ^ 31) (hl : lookup.length = 512)
    (hb : IsBinaryBoard n n b) (hout : out.length = n * n) (_h4 : n % 4 = 0)
    (_hj4 : j % 4 = 0) (h : j + 4 ≤ n) :
    ∃ out1, column_group lookup b out n j = some out1 ∧ out1.length = n * n
      ∧ ∀ r c, r < n → cellAt out1 n r c
          = if j ≤ c ∧ c < j + 4 then tableAt lookup b n r c else cellAt out n r c :=
  column_group_spec_of_le hN hl hb hout h

theorem column_loop_spec_of_le {lookup b : List Nat} {n : Nat}
    (hN : n * n ≤ 2 ^ 31) (hl : lookup.length = 512)
    (hb : IsBinaryBoard n n b) :
    ∀ (cnt j : Nat) (out : List Nat), j + 4 * cnt ≤ n → out.length = n * n →
      ∃ out1, column_loop lookup b n cnt j out = some out1 ∧ out1.length = n * n
        ∧ ∀ r c, r < n → cellAt out1 n r c
            = if j ≤ c ∧ c < j + 4 * cnt then tableAt lookup b n r c else cellAt out n r c := by
  intro cnt
  induction cnt with
  | zero =>
    intro j out _ hout
    refine ⟨out, rfl, hout, ?_⟩
    intro r c _
    have : ¬ (j ≤ c ∧ c < j + 4 * 0) := by omega
    rw [if_neg this]
  | succ cnt ih =>
    intro j out hjn hout
    obtain ⟨out1, hg, hlen1, hcell1⟩ :=
      column_group_spec_of_le hN hl hb hout (show j + 4 ≤ n by omega)
    obtain ⟨out2, hrun, hlen2, hcell2⟩ :=
      ih (j + 4) out1 (by omega) hlen1
    refine ⟨out2, ?_, hlen2, ?_⟩
    · simp only [column_loop, hg, Option.bind_eq_bind, Option.some_bind]
      exact hrun
    · intro r c hr
      rw [hcell2 r c hr, hcell1 r c hr]
      by_cases e1 : j + 4 ≤ c ∧ c < j + 4 + 4 * cnt
      · have : j ≤ c ∧ c < j + 4 * (cnt + 1) := by omega
        simp [e1, this]
      · by_cases e2 : j ≤ c ∧ c < j + 4
        · have : j ≤ c ∧ c < j + 4 * (cnt + 1) := by omega
          simp [e1, e2, this]
        · have : ¬ (j ≤ c ∧ c < j + 4 * (cnt + 1)) := by omega
          simp [e1, e2, this]

theorem column_loop_spec {lookup b : List Nat} {n : Nat}
    (hN : n * n ≤ 2 ^ 31) (hl : lookup.length = 512)
    (hb : IsBinaryBoard n n b) (_h4 : n % 4 = 0) :
    ∀ (cnt j : Nat) (out : List Nat), j % 4 = 0 → j + 4 * cnt ≤ n → out.length = n * n →
      ∃ out1, column_loop lookup b n cnt j out = some out1 ∧ out1.length = n * n
        ∧ ∀ r c, r < n → cellAt out1 n r c
            = if j ≤ c ∧ c < j + 4 * cnt then tableAt lookup b n r c else cellAt out n r c :=
  fun cnt j out _ hjn hout => column_loop_spec_of_le hN hl hb cnt j out hjn hout

theorem stripe_pass_spec_of_le {lookup b out : List Nat} {n start stop : Nat}
    (hN : n * n ≤ 2 ^ 31) (hl : lookup.length = 512) (hb : IsBinaryBoard n n b)
    (hout : out.length = n * n)
    (hs : start % 4 = 0) (he : stop % 4 = 0) (hse : start ≤ stop) (hen : stop ≤ n) :
    ∃ out1, stripe_pass lookup b out n start stop = some out1 ∧ out1.length = n * n
      ∧ ∀ r c, r < n → cellAt out1 n r c
          = if start ≤ c ∧ c < stop then tableAt lookup b n r c else cellAt out n r c := by
  have hc : start + 4 * ((stop - start + 3) / 4) = stop := by omega
  obtain ⟨out1, hrun, hlen, hcell⟩ :=
    column_loop_spec_of_le hN hl hb ((stop - start + 3) / 4) start out (by omega) hout
  refine ⟨out1, hrun, hlen, ?_⟩
  intro r c hr
  rw [hcell r c hr, hc]

theorem stripe_pass_spec {lookup b out : List Nat} {n start stop : Nat}
    (hN : n * n ≤ 2 ^ 31) (hl : lookup.length = 512) (hb : IsBinaryBoard n n b)
    (hout : out.length = n * n)
    (_h4 : n % 4 = 0) (hs : start % 4 = 0) (he : stop % 4 = 0) (hse : start ≤ stop)
    (hen : stop ≤ n) :
    ∃ out1, stripe_pass lookup b out n start stop = some out1 ∧ out1.length = n * n
      ∧ ∀ r c, r < n → cellAt out1 n r c
          = if start ≤ c ∧ c < stop then tableAt lookup b n r c else cellAt out n r c :=
  stripe_pass_spec_of_le hN hl hb hout hs he hse hen

theorem bitAt_key {a0 a1 a2 a3 a4 a5 a6 a7 a8 : Nat} (h0 : a0 ≤ 1) (h1 : a1 ≤ 1)
    (h2 : a2 ≤ 1) (h3 : a3 ≤ 1) (h4 : a4 ≤ 1) (h5 : a5 ≤ 1) (h6 : a6 ≤ 1) (h7 : a7 ≤ 1)
    (h8 : a8 ≤ 1) :
    bitAt (256 * a8 + 128 * a7 + 64 * a6 + 32 * a5 + 16 * a4 + 8 * a3 + 4 * a2 + 2 * a1 + a0) 4
        = a4
      ∧ neighbourBits
          (256 * a8 + 128 * a7 + 64 * a6 + 32 * a5 + 16 * a4 + 8 * a3 + 4 * a2 + 2 * a1 + a0)
        = a8 + a7 + a6 + a5 + a3 + a2 + a1 + a0 := by
  have b0 : bitAt (256 * a8 + 128 * a7 + 64 * a6 + 32 * a5 + 16 * a4 + 8 * a3 + 4 * a2
      + 2 * a1 + a0) 0 = a0 := by unfold bitAt; norm_num; omega
  have b1 : bitAt (256 * a8 + 128 * a7 + 64 * a6 + 32 * a5 + 16 * a4 + 8 * a3 + 4 * a2
      + 2 * a1 + a0) 1 = a1 := by unfold bitAt; norm_num; omega
  have b2 : bitAt (256 * a8 + 128 * a7 + 64 * a6 + 32 * a5 + 16 * a4 + 8 * a3 + 4 * a2
      + 2 * a1 + a0) 2 = a2 := by unfold bitAt; norm_num; omega
  have b3 : bitAt (256 * a8 + 128 * a7 + 64 * a6 + 32 * a5 + 16 * a4 + 8 * a3 + 4 * a2
      + 2 * a1 + a0) 3 = a3 := by unfold bitAt; norm_num; omega
  have b4 : bitAt (256 * a8 + 128 * a7 + 64 * a6 + 32 * a5 + 16 * a4 + 8 * a3 + 4 * a2
      + 2 * a1 + a0) 4 = a4 := by unfold bitAt; norm_num; omega
  have b5 : bitAt (256 * a8 + 128 * a7 + 64 * a6 + 32 * a5 + 16 * a4 + 8 * a3 + 4 * a2
      + 2 * a1 + a0) 5 = a5 := by unfold bitAt; norm_num; omega
  have b6 : bitAt (256 * a8 + 128 * a7 + 64 * a6 + 32 * a5 + 16 * a4 + 8 * a3 + 4 * a2
      + 2 * a1 + a0) 6 = a6 := by unfold bitAt; norm_num; omega
  have b7 : bitAt (256 * a8 + 128 * a7 + 64 * a6 + 32 * a5 + 16 * a4 + 8 * a3 + 4 * a2
      + 2 * a1 + a0) 7 = a7 := by unfold bitAt; norm_num; omega
  have b8 : bitAt (256 * a8 + 128 * a7 + 64 * a6 + 32 * a5 + 16 * a4 + 8 * a3 + 4 * a2
      + 2 * a1 + a0) 8 = a8 := by unfold bitAt; norm_num; omega
  refine ⟨b4, ?_⟩
  unfold neighbourBits
  rw [b0, b1, b2, b3, b5, b6, b7, b8]
  omega

theorem lookup_key_conway {b : List Nat} {n : Nat} (hb : IsBinaryBoard n n b) (i c : Nat) :
    tableAt build_lookup b n i c = conwayCell b n n i c := by
  have hlt := neighbourKey_lt hb i c
  unfold tableAt
  rw [List.getD_eq_getElem?_getD, build_lookup_get _ hlt, Option.getD_some,
    lookup_entry_spec _ hlt]
  unfold tableSpec conwayCell
  clear hlt
  have hk := bitAt_key (cellAt_le_one hb (ringSucc n i) (ringSucc n c))
    (cellAt_le_one hb (ringSucc n i) c) (cellAt_le_one hb (ringSucc n i) (ringPred n c))
    (cellAt_le_one hb i (ringSucc n c)) (cellAt_le_one hb i c)
    (cellAt_le_one hb i (ringPred n c)) (cellAt_le_one hb (ringPred n i) (ringSucc n c))
    (cellAt_le_one hb (ringPred n i) c) (cellAt_le_one hb (ringPred n i) (ringPred n c))
  have e : neighbourKey b n i c = 256 * cellAt b n (ringPred n i) (ringPred n c)
      + 128 * cellAt b n (ringPred n i) c + 64 * cellAt b n (ringPred n i) (ringSucc n c)
      + 32 * cellAt b n i (ringPred n c) + 16 * cellAt b n i c
      + 8 * cellAt b n i (ringSucc n c) + 4 * cellAt b n (ringSucc n i) (ringPred n c)
      + 2 * cellAt b n (ringSucc n i) c + cellAt b n (ringSucc n i) (ringSucc n c) := rfl
  rw [e, hk.1, hk.2]
  have hself := cellAt_le_one hb i c
  have hcnt : liveNeighbours b n n i c = cellAt b n (ringPred n i) (ringPred n c)
      + cellAt b n (ringPred n i) c + cellAt b n (ringPred n i) (ringSucc n c)
      + cellAt b n i (ringPred n c) + cellAt b n i (ringSucc n c)
      + cellAt b n (ringSucc n i) (ringPred n c) + cellAt b n (ringSucc n i) c
      + cellAt b n (ringSucc n i) (ringSucc n c) := rfl
  rw [hcnt]
  generalize cellAt b n (ringPred n i) (ringPred n c)
      + cellAt b n (ringPred n i) c + cellAt b n (ringPred n i) (ringSucc n c)
      + cellAt b n i (ringPred n c) + cellAt b n i (ringSucc n c)
      + cellAt b n (ringSucc n i) (ringPred n c) + cellAt b n (ringSucc n i) c
      + cellAt b n (ringSucc n i) (ringSucc n c) = cnt
  generalize cellAt b n i c = s at hself
  have hs : s = 0 ∨ s = 1 := by omega
  rcases hs with rfl | rfl
  · simp
  · simp only [true_and, one_ne_zero, false_and, or_false, ne_eq, not_false_eq_true, and_true]
    by_cases h2 : cnt = 2
    · simp [h2]
    · by_cases h3 : cnt = 3
      · simp [h3]
      · simp [h2, h3]

/-! ## Memory -/

theorem Memory.load_store_same (m : Memory) (p : BoardPtr) (b : List Nat) :
    (m.store p b).load p = b := by
  cases p <;> rfl

theorem Memory.load_store_other (m : Memory) {p q : BoardPtr} (h : p ≠ q) (b : List Nat) :
    (m.store q b).load p = m.load p := by
  cases p <;> cases q <;> first | rfl | exact absurd rfl h

theorem Memory.store_store (m : Memory) (p : BoardPtr) (b c : List Nat) :
    (m.store p b).store p c = m.store p c := by
  cases p <;> rfl

theorem Memory.store_load (m : Memory) (p : BoardPtr) : m.store p (m.load p) = m := by
  cases p <;> rfl

/-! ## One generation of a list of workers -/

theorem workers_generation_spec {lookup : List Nat} {n : Nat} {p q : BoardPtr}
    (hN : n * n ≤ 2 ^ 31) (hl : lookup.length = 512) (h4 : n % 4 = 0) (hpq : p ≠ q) :
    ∀ (ds : List tdata) (m : Memory), (∀ d ∈ ds, ValidStripe n d) →
      IsBinaryBoard n n (m.load p) → (m.load q).length = n * n →
      ∃ out1, workers_generation lookup n p q ds m = some (m.store q out1)
        ∧ out1.length = n * n
        ∧ ∀ r c, r < n → (Covered ds c → cellAt out1 n r c = tableAt lookup (m.load p) n r c)
            ∧ (¬ Covered ds c → cellAt out1 n r c = cellAt (m.load q) n r c) := by
  intro ds
  induction ds with
  | nil =>
    intro m _ _ hq
    refine ⟨m.load q, ?_, hq, ?_⟩
    · simp [workers_generation, Memory.store_load]
    · intro r c _
      refine ⟨?_, fun _ => rfl⟩
      rintro ⟨d, hd, _⟩
      cases hd
  | cons d ds ih =>
    intro m hv hb hq
    obtain ⟨v1, v2, v3, v4⟩ := hv d (List.mem_cons_self d ds)
    obtain ⟨out1, hrun1, hlen1, hcell1⟩ := stripe_pass_spec hN hl hb hq h4 v1 v2 v3 v4
    have hb' : IsBinaryBoard n n ((m.store q out1).load p) := by
      rw [Memory.load_store_other m hpq]; exact hb
    have hq' : ((m.store q out1).load q).length = n * n := by
      rw [Memory.load_store_same]; exact hlen1
    obtain ⟨out2, hrun2, hlen2, hcell2⟩ :=
      ih (m.store q out1) (fun e he => hv e (List.mem_cons_of_mem d he)) hb' hq'
    rw [Memory.store_store] at hrun2
    rw [Memory.load_store_other m hpq, Memory.load_store_same] at hcell2
    refine ⟨out2, ?_, hlen2, ?_⟩
    · simp only [workers_generation, thread_life_generation, hrun1, Option.bind_eq_bind,
        Option.some_bind, Option.pure_def]
      exact hrun2
    · intro r c hr
      obtain ⟨hc2a, hc2b⟩ := hcell2 r c hr
      have hc1 := hcell1 r c hr
      constructor
      · intro hcov
        by_cases hin : Covered ds c
        · exact hc2a hin
        · rw [hc2b hin, hc1]
          obtain ⟨e, he, hec⟩ := hcov
          rcases List.mem_cons.1 he with rfl | he'
          · rw [if_pos hec]
          · exact absurd ⟨e, he', hec⟩ hin
      · intro hcov
        have hin : ¬ Covered ds c := fun ⟨e, he, hec⟩ => hcov ⟨e, List.mem_cons_of_mem d he, hec⟩
        have hd : ¬ (d.cindex ≤ c ∧ c < d.colsToUse) :=
          fun hec => hcov ⟨d, List.mem_cons_self d ds, hec⟩
        rw [hc2b hin, hc1, if_neg hd]

theorem conwayStep_length (rows cols : Nat) (b : List Nat) :
    (conwayStep rows cols b).length = rows * cols := by
  simp [conwayStep]

theorem conwayCell_le_one (b : List Nat) (rows cols i j : Nat) :
    conwayCell b rows cols i j = 0 ∨ conwayCell b rows cols i j = 1 := by
  unfold conwayCell
  split
  · exact Or.inr rfl
  · exact Or.inl rfl

theorem conwayStep_binary (rows cols : Nat) (b : List Nat) :
    IsBinaryBoard rows cols (conwayStep rows cols b) := by
  refine ⟨conwayStep_length rows cols b, ?_⟩
  intro x hx
  simp only [conwayStep, List.mem_map] at hx
  obtain ⟨k, _, rfl⟩ := hx
  exact conwayCell_le_one b rows cols _ _

theorem cellAt_conwayStep {n i j : Nat} (b : List Nat) (hi : i < n) (hj : j < n) :
    cellAt (conwayStep n n b) n i j = conwayCell b n n i j := by
  have h : i + n * j < n * n := offset_lt hi hj
  have hn : 0 < n := by omega
  unfold cellAt conwayStep
  rw [List.getD_eq_getElem?_getD, List.getElem?_map, List.getElem?_range h]
  simp only [Option.map_some', Option.getD_some]
  rw [Nat.add_mul_mod_self_left, Nat.mod_eq_of_lt hi, Nat.add_mul_div_left _ _ hn,
    Nat.div_eq_of_lt hi, Nat.zero_add]

/-- A buffer of `n * n` cells is determined by its cells. -/
theorem board_ext {n : Nat} {a b : List Nat} (ha : a.length = n * n) (hb : b.length = n * n)
    (h : ∀ r c, r < n → c < n → cellAt a n r c = cellAt b n r c) : a = b := by
  apply List.ext_getElem (by rw [ha, hb])
  intro k h1 h2
  have hk : k < n * n := by rw [← ha]; exact h1
  have hn : 0 < n := by
    rcases Nat.eq_zero_or_pos n with rfl | h0
    · simp at hk
    · exact h0
  have hr : k % n < n := Nat.mod_lt _ hn
  have hc : k / n < n := Nat.div_lt_of_lt_mul hk
  have e : k % n + n * (k / n) = k := Nat.mod_add_div k n
  have := h (k % n) (k / n) hr hc
  unfold cellAt at this
  rw [e, List.getD_eq_getElem?_getD, List.getD_eq_getElem?_getD,
    List.getElem?_eq_getElem h1, List.getElem?_eq_getElem h2] at this
  simpa using this

theorem workers_generation_conway {n : Nat} {p q : BoardPtr} {ds : List tdata}
    (hN : n * n ≤ 2 ^ 31) (h4 : n % 4 = 0) (hpq : p ≠ q) (hds : CoversBoard n ds) (m : Memory)
    (hb : IsBinaryBoard n n (m.load p)) (hq : (m.load q).length = n * n) :
    workers_generation build_lookup n p q ds m
      = some (m.store q (conwayStep n n (m.load p))) := by
  obtain ⟨out1, hrun, hlen, hcell⟩ :=
    workers_generation_spec hN build_lookup_length h4 hpq ds m hds.1 hb hq
  have : out1 = conwayStep n n (m.load p) := by
    apply board_ext hlen (conwayStep_length n n _)
    intro r c hr hc
    rw [(hcell r c hr).1 (hds.2 c hc), lookup_key_conway hb, cellAt_conwayStep _ hr hc]
  rw [hrun, this]

theorem thread_life_eq_sequential_loop {n : Nat} {ds : List tdata}
    (hN : n * n ≤ 2 ^ 31) (h4 : n % 4 = 0)
    (hds : CoversBoard n ds) :
    ∀ (g : Nat) (p q : BoardPtr) (m : Memory), p ≠ q → IsBinaryBoard n n (m.load p) →
      (m.load q).length = n * n →
      ∃ q1, thread_life build_lookup n ds g p q m
        = some ((sequential_loop n n g p q m).1, q1, (sequential_loop n n g p q m).2) := by
  intro g
  induction g with
  | zero =>
    intro p q m _ _ _
    exact ⟨q, rfl⟩
  | succ g ih =>
    intro p q m hpq hb hq
    have hb' : IsBinaryBoard n n ((m.store q (conwayStep n n (m.load p))).load q) := by
      rw [Memory.load_store_same]; exact conwayStep_binary n n _
    have hq' : ((m.store q (conwayStep n n (m.load p))).load p).length = n * n := by
      rw [Memory.load_store_other m hpq]; exact hb.1
    obtain ⟨q1, hrun⟩ := ih q p (m.store q (conwayStep n n (m.load p))) (Ne.symm hpq) hb' hq'
    refine ⟨q1, ?_⟩
    simp only [thread_life, workers_generation_conway hN h4 hpq hds m hb hq,
      Option.bind_eq_bind, Option.some_bind, sequential_loop]
    exact hrun

theorem sequential_loop_spec (rows cols : Nat) :
    ∀ (g : Nat) (p q : BoardPtr) (m : Memory), p ≠ q →
      (sequential_loop rows cols g p q m).1 = (if g % 2 = 1 then q else p)
      ∧ ((sequential_loop rows cols g p q m).2).load (sequential_loop rows cols g p q m).1
          = conwayGens rows cols g (m.load p) := by
  intro g
  induction g with
  | zero =>
    intro p q m _
    exact ⟨rfl, rfl⟩
  | succ g ih =>
    intro p q m hpq
    obtain ⟨h1, h2⟩ := ih q p (m.store q (conwayStep rows cols (m.load p))) (Ne.symm hpq)
    simp only [sequential_loop]
    constructor
    · rw [h1]
      by_cases e : g % 2 = 1
      · have : ¬ ((g + 1) % 2 = 1) := by omega
        simp [e, this]
      · have : (g + 1) % 2 = 1 := by omega
        simp [e, this]
    · rw [h2, Memory.load_store_same]
      simp [conwayGens, Function.iterate_succ_apply]

/-! ## The orchestrator -/

theorem TDATA_eq (n : Nat) :
    TDATA n = [⟨0 * (n / 4), (0 + 1) * (n / 4)⟩, ⟨1 * (n / 4), (1 + 1) * (n / 4)⟩,
      ⟨2 * (n / 4), (2 + 1) * (n / 4)⟩, ⟨3 * (n / 4), (3 + 1) * (n / 4)⟩] := by
  rfl

theorem TDATA_covers {n : Nat} (h16 : n % 16 = 0) : CoversBoard n (TDATA n) := by
  rw [TDATA_eq]
  constructor
  · intro d hd
    simp only [List.mem_cons, List.mem_singleton, List.not_mem_nil, or_false] at hd
    rcases hd with rfl | rfl | rfl | rfl <;> simp only [ValidStripe] <;> omega
  · intro c hc
    unfold Covered
    by_cases h1 : c < n / 4
    · exact ⟨_, List.mem_cons_self _ _, by simp only []; omega⟩
    by_cases h2 : c < 2 * (n / 4)
    · exact ⟨_, List.mem_cons_of_mem _ (List.mem_cons_self _ _), by simp only []; omega⟩
    by_cases h3 : c < 3 * (n / 4)
    · exact ⟨_, List.mem_cons_of_mem _ (List.mem_cons_of_mem _ (List.mem_cons_self _ _)),
        by simp only []; omega⟩
    · exact ⟨_, List.mem_cons_of_mem _ (List.mem_cons_of_mem _
        (List.mem_cons_of_mem _ (List.mem_cons_self _ _))), by simp only []; omega⟩

theorem single_stripe_covers {n : Nat} (h4 : n % 4 = 0) : CoversBoard n [⟨0, n⟩] := by
  constructor
  · intro d hd
    simp only [List.mem_singleton] at hd
    subst hd
    exact ⟨rfl, h4, Nat.zero_le n, le_refl n⟩
  · intro c hc
    exact ⟨_, List.mem_cons_self _ _, by simp only []; omega⟩

theorem pow_two_mod_16 {n e : Nat} (hpow : n = 2 ^ e) (h32 : 32 ≤ n) : n % 16 = 0 := by
  have he : 5 ≤ e := by
    by_contra hlt
    have : e ≤ 4 := by omega
    have := Nat.pow_le_pow_right (show 0 < 2 by decide) this
    omega
  obtain ⟨k, rfl⟩ : ∃ k, e = k + 5 := ⟨e - 5, by omega⟩
  have e5 : 2 ^ (k + 5) = 2 ^ k * 32 := by rw [pow_add]; norm_num
  rw [hpow, e5]
  omega

theorem tmod_two_natCast (g : Nat) : ((g : Int).tmod 2 ≠ 0) ↔ g % 2 = 1 := by
  have : (g : Int).tmod 2 = ((g % 2 : Nat) : Int) := by
    simp [Int.tmod]
  rw [this]
  omega

theorem game_of_life_large (seq : Memory → Int → Int → Int → Outcome) (m : Memory)
    (nrows ncols gens_max : Int) (h : 32 ≤ nrows) :
    game_of_life seq m nrows ncols gens_max
      = (thread_life build_lookup nrows.toNat (TDATA nrows.toNat) gens_max.toNat
          BoardPtr.inb BoardPtr.outb m).bind
        (fun r => some (if gens_max.tmod 2 ≠ 0 then BoardPtr.outb else BoardPtr.inb, r.2.2)) := by
  have hn : ¬ nrows < 32 := by omega
  unfold game_of_life
  rw [if_neg hn]
  dsimp only
  generalize thread_life build_lookup nrows.toNat (TDATA nrows.toNat) gens_max.toNat
      BoardPtr.inb BoardPtr.outb m = t
  cases t with
  | none => rfl
  | some r =>
    obtain ⟨a, b, c⟩ := r
    by_cases e : gens_max.tmod 2 ≠ 0
    · simp [e]
    · simp [e]

/-- The local pointers of a worker after `g` generations. -/
theorem thread_life_pointers (lookup : List Nat) (n : Nat) (ds : List tdata) :
    ∀ (g : Nat) (p q : BoardPtr) (m : Memory) (a b : BoardPtr) (m1 : Memory),
      thread_life lookup n ds g p q m = some (a, b, m1) →
      a = (if g % 2 = 1 then q else p) ∧ b = (if g % 2 = 1 then p else q) := by
  intro g
  induction g with
  | zero =>
    intro p q m a b m1 h
    simp only [thread_life, Option.some.injEq, Prod.mk.injEq] at h
    obtain ⟨rfl, rfl, _⟩ := h
    exact ⟨rfl, rfl⟩
  | succ g ih =>
    intro p q m a b m1 h
    simp only [thread_life, Option.bind_eq_bind] at h
    cases hw : workers_generation lookup n p q ds m with
    | none => rw [hw] at h; simp at h
    | some m2 =>
      rw [hw, Option.some_bind] at h
      obtain ⟨h1, h2⟩ := ih q p m2 a b m1 h
      by_cases e : g % 2 = 1
      · have : ¬ ((g + 1) % 2 = 1) := by omega
        rw [if_pos e] at h1 h2
        rw [if_neg this, if_neg this]
        exact ⟨h1, h2⟩
      · have : (g + 1) % 2 = 1 := by omega
        rw [if_neg e] at h1 h2
        rw [if_pos this, if_pos this]
        exact ⟨h1, h2⟩

theorem game_of_life_parallel (seq : Memory → Int → Int → Int → Outcome) (m : Memory)
    (n g : Nat) (ncols : Int) (h32 : 32 ≤ n) (h16 : n % 16 = 0) (hN : n * n ≤ 2 ^ 31)
    (hb : IsBinaryBoard n n m.inboard) (hout : m.outboard.length = n * n) :
    game_of_life seq m n ncols g
      = some (sequential_loop n n g BoardPtr.inb BoardPtr.outb m) := by
  have hpq : BoardPtr.inb ≠ BoardPtr.outb := by decide
  obtain ⟨q1, hrun⟩ := thread_life_eq_sequential_loop hN (by omega) (TDATA_covers h16) g
    BoardPtr.inb BoardPtr.outb m hpq hb hout
  have hsel := (sequential_loop_spec n n g BoardPtr.inb BoardPtr.outb m hpq).1
  rw [game_of_life_large seq m n ncols g (by omega)]
  simp only [Int.toNat_natCast, hrun, Option.some_bind]
  congr 1
  apply Prod.ext
  · simp only [hsel]
    by_cases e : g % 2 = 1
    · have := (tmod_two_natCast g).2 e
      simp [e, this]
    · have : ¬ ((g : Int).tmod 2 ≠ 0) := fun h => e ((tmod_two_natCast g).1 h)
      simp [e, this]
  · rfl

theorem StripeCut_covers {n : Nat} :
    ∀ (ds : List tdata) (a : Nat), StripeCut n a ds → a % 4 = 0 →
      a ≤ n ∧ (∀ d ∈ ds, ValidStripe n d) ∧ ∀ c, a ≤ c → c < n → Covered ds c := by
  intro ds
  induction ds with
  | nil =>
    intro a h _
    simp only [StripeCut] at h
    subst h
    refine ⟨le_refl _, ?_, ?_⟩
    · intro d hd; cases hd
    · intro c h1 h2; omega
  | cons d ds ih =>
    intro a h ha
    obtain ⟨h1, h2, h3, h4⟩ := h
    obtain ⟨i1, i2, i3⟩ := ih d.colsToUse h4 h3
    refine ⟨by omega, ?_, ?_⟩
    · intro e he
      rcases List.mem_cons.1 he with rfl | he'
      · exact ⟨by omega, h3, by omega, i1⟩
      · exact i2 e he'
    · intro c hc1 hc2
      by_cases hc : c < d.colsToUse
      · exact ⟨d, List.mem_cons_self _ _, by omega, hc⟩
      · obtain ⟨e, he, hec⟩ := i3 c (by omega) hc2
        exact ⟨e, List.mem_cons_of_mem _ he, hec⟩

theorem perm_cut_covers {n : Nat} {cut order : List tdata} (hc : StripeCut n 0 cut)
    (hp : order.Perm cut) : CoversBoard n order := by
  obtain ⟨_, h2, h3⟩ := StripeCut_covers cut 0 hc rfl
  constructor
  · intro d hd
    exact h2 d (hp.mem_iff.1 hd)
  · intro c hcn
    obtain ⟨d, hd, hdc⟩ := h3 c (Nat.zero_le c) hcn
    exact ⟨d, hp.mem_iff.2 hd, hdc⟩

/-! ## Offsets beyond `INT_MAX` -/

theorem zeros_binary (n : Nat) : IsBinaryBoard n n (List.replicate (n * n) 0) := by
  refine ⟨List.length_replicate _ _, ?_⟩
  intro x hx
  exact Or.inl (List.eq_of_mem_replicate hx)

theorem ones_binary (n : Nat) : IsBinaryBoard n n (List.replicate (n * n) 1) := by
  refine ⟨List.length_replicate _ _, ?_⟩
  intro x hx
  exact Or.inr (List.eq_of_mem_replicate hx)

theorem board_offset_overflow {LDA i j : Nat} (h : 2 ^ 31 ≤ i + LDA * j) :
    board_offset LDA i j = none := by
  unfold board_offset
  exact if_neg (by omega)

theorem BOARD_overflow (b : List Nat) {LDA i j : Nat} (h : 2 ^ 31 ≤ i + LDA * j) :
    BOARD b LDA i j = none := by
  simp [BOARD, board_offset_overflow h]

theorem BOARD_set_overflow (b : List Nat) {LDA i j : Nat} (v : Nat)
    (h : 2 ^ 31 ≤ i + LDA * j) : BOARD_set b LDA i j v = none := by
  simp [BOARD_set, board_offset_overflow h]

/-- The first read of `load_north` is at column `j`. -/
theorem load_north_overflow (b : List Nat) {LDA r j : Nat} (jw je jm : Nat)
    (h : 2 ^ 31 ≤ r + LDA * j) : load_north b LDA r j jw je jm = none := by
  simp only [load_north, BOARD_overflow b h, Option.bind_eq_bind, Option.none_bind]

/-- The third read of `load_north` is at the west column. -/
theorem load_north_overflow_west (b : List Nat) {LDA r jw : Nat} (j je jm : Nat)
    (h : 2 ^ 31 ≤ r + LDA * jw) : load_north b LDA r j jw je jm = none := by
  simp only [load_north, Option.bind_eq_bind]
  cases BOARD b LDA r j with
  | none => rfl
  | some c0 =>
    simp only [Option.some_bind]
    cases BOARD b LDA r je with
    | none => rfl
    | some c1 =>
      simp only [Option.some_bind, BOARD_overflow b h, Option.none_bind]

/-- A column group whose own column, in the last row, lies beyond `INT_MAX` has no
result. -/
theorem column_group_overflow (lookup b out : List Nat) {n j : Nat}
    (h : 2 ^ 31 ≤ (n - 1) + n * j) : column_group lookup b out n j = none := by
  simp only [column_group, load_north_overflow b _ _ _ h, Option.bind_eq_bind,
    Option.none_bind]

/-- The column group at column 0 reads row `n - 1` of the west column `n - 1`, the last
offset of the board: when that offset lies beyond `INT_MAX` the group has no result. -/
theorem column_group_overflow_west (lookup b out : List Nat) {n : Nat}
    (h : 2 ^ 31 ≤ (n - 1) + n * (n - 1)) : column_group lookup b out n 0 = none := by
  simp only [column_group, if_true, load_north_overflow_west b _ _ _ h,
    Option.bind_eq_bind, Option.none_bind]

theorem stripe_pass_first_none {lookup b out : List Nat} {n start stop : Nat}
    (hlt : start < stop) (h : column_group lookup b out n start = none) :
    stripe_pass lookup b out n start stop = none := by
  obtain ⟨cnt, hc⟩ : ∃ cnt, (stop - start + 3) / 4 = cnt + 1 :=
    ⟨(stop - start + 3) / 4 - 1, by omega⟩
  unfold stripe_pass
  rw [hc]
  simp only [column_loop, h, Option.bind_eq_bind, Option.none_bind]

theorem workers_generation_first_none {lookup : List Nat} {n : Nat} {p q : BoardPtr}
    {d : tdata} (ds : List tdata) {m : Memory}
    (h : stripe_pass lookup (m.load p) (m.load q) n d.cindex d.colsToUse = none) :
    workers_generation lookup n p q (d :: ds) m = none := by
  simp only [workers_generation, thread_life_generation, h, Option.bind_eq_bind,
    Option.none_bind]

theorem thread_life_first_none {lookup : List Nat} {n : Nat} {ds : List tdata}
    {p q : BoardPtr} {m : Memory} {g : Nat} (hg : 0 < g)
    (h : workers_generation lookup n p q ds m = none) :
    thread_life lookup n ds g p q m = none := by
  obtain ⟨k, rfl⟩ : ∃ k, g = k + 1 := ⟨g - 1, by omega⟩
  simp only [thread_life, h, Option.bind_eq_bind, Option.none_bind]

/-- On a board whose last offset lies beyond `INT_MAX` the first of the four stripes has
no result, whatever the buffers hold. -/
theorem workers_generation_overflow (lookup : List Nat) {n : Nat} (p q : BoardPtr)
    (m : Memory) (h4 : 4 ≤ n) (h : 2 ^ 31 ≤ (n - 1) + n * (n - 1)) :
    workers_generation lookup n p q (TDATA n) m = none := by
  rw [TDATA_eq]
  apply workers_generation_first_none
  have e0 : 0 * (n / 4) = 0 := Nat.zero_mul _
  apply stripe_pass_first_none
  · show 0 * (n / 4) < (0 + 1) * (n / 4)
    omega
  · show column_group lookup (m.load p) (m.load q) n (0 * (n / 4)) = none
    rw [e0]
    exact column_group_overflow_west _ _ _ h

theorem game_of_life_overflow (seq : Memory → Int → Int → Int → Outcome) (m : Memory)
    (n g : Nat) (ncols : Int) (h32 : 32 ≤ n) (hg : 0 < g)
    (h : 2 ^ 31 ≤ (n - 1) + n * (n - 1)) :
    game_of_life seq m n ncols g = none := by
  rw [game_of_life_large seq m n ncols g (by omega)]
  simp only [Int.toNat_natCast]
  rw [thread_life_first_none hg (workers_generation_overflow _ _ _ m (by omega) h)]
  rfl

/-- Beyond the bound `n * n <= 2 ^ 31` the last offset of the board, that of row `n - 1`
in column `n - 1`, is not an `int`. -/
theorem last_offset_overflow {n : Nat} (h : ¬ n * n ≤ 2 ^ 31) :
    2 ^ 31 ≤ (n - 1) + n * (n - 1) := by
  have hn : 0 < n := by
    rcases Nat.eq_zero_or_pos n with rfl | hn
    · exact absurd (Nat.zero_le _) h
    · exact hn
  obtain ⟨k, rfl⟩ : ∃ k, n = k + 1 := ⟨n - 1, by omega⟩
  have e : (k + 1) * (k + 1) = k + (k + 1) * k + 1 := by ring
  have e1 : k + 1 - 1 = k := by omega
  rw [e1]
  omega

/-- The bound `n * n <= 2 ^ 31` is needed: beyond it the column group at column 0 has no
result, whatever the buffers and the table hold. -/
theorem column_group_beyond_bound (lookup b out : List Nat) {n : Nat}
    (h : ¬ n * n ≤ 2 ^ 31) : column_group lookup b out n 0 = none :=
  column_group_overflow_west lookup b out (last_offset_overflow h)

/-- The bound `n * n <= 2 ^ 31` is needed: beyond it the parallel path has no result for
any positive number of generations. -/
theorem game_of_life_beyond_bound (seq : Memory → Int → Int → Int → Outcome) (m : Memory)
    (n g : Nat) (ncols : Int) (h32 : 32 ≤ n) (hg : 0 < g) (h : ¬ n * n ≤ 2 ^ 31) :
    game_of_life seq m n ncols g = none :=
  game_of_life_overflow seq m n g ncols h32 hg (last_offset_overflow h)

/-- Refutes C1 as stated: 65536 = 2^16 is a power of two, at least 32, and the board of
zeros is binary, but the first column group reads row 65535 of the west column 65535, at
offset 65535 + 65536*65535, which exceeds INT_MAX = 2^31 - 1: the `int` offset of the
source overflows and game_of_life has no result for one generation. -/
theorem C1_counterexample :
    65536 = 2 ^ 16 ∧ 32 ≤ 65536
      ∧ IsBinaryBoard 65536 65536 (List.replicate (65536 * 65536) 0)
      ∧ 2 ^ 31 - 1 < 65535 + 65536 * 65535
      ∧ BOARD (List.replicate (65536 * 65536) 0) 65536 65535 65535 = none
      ∧ game_of_life sequential_game_of_life
          ⟨List.replicate (65536 * 65536) 0, List.replicate (65536 * 65536) 0⟩
          (65536 : Nat) (65536 : Nat) (1 : Nat) = none :=
  ⟨by norm_num, by norm_num, zeros_binary 65536, by norm_num,
    BOARD_overflow _ (by norm_num),
    game_of_life_overflow _ _ 65536 1 _ (by norm_num) (by norm_num) (by norm_num)⟩

/-- C1 amended: for a square binary board whose side n is a power of two, n >= 32, with
n*n <= 2^31 (so that every offset below n*n is an int; for a power of two, n <= 32768),
and every generation count g, the buffer returned by game_of_life holds the board obtained
by applying the toroidal Conway step g times to the initial inboard, which is also what
the sequential reference returns. -/
theorem C1_equivalence_with_reference (seq : Memory → Int → Int → Int → Outcome)
    (m : Memory) (n e g : Nat) (hpow : n = 2 ^ e) (h32 : 32 ≤ n) (hN : n * n ≤ 2 ^ 31)
    (hb : IsBinaryBoard n n m.inboard) (hout : m.outboard.length = n * n) :
    ∃ p m1, game_of_life seq m n n g = some (p, m1)
      ∧ m1.load p = conwayGens n n g m.inboard
      ∧ ∃ ps ms, sequential_game_of_life m n n g = some (ps, ms)
          ∧ ms.load ps = m1.load p := by
  have h16 := pow_two_mod_16 hpow h32
  have hrun := game_of_life_parallel seq m n g n h32 h16 hN hb hout
  have hspec := sequential_loop_spec n n g BoardPtr.inb BoardPtr.outb m (by decide)
  refine ⟨(sequential_loop n n g BoardPtr.inb BoardPtr.outb m).1,
    (sequential_loop n n g BoardPtr.inb BoardPtr.outb m).2, hrun, hspec.2,
    (sequential_loop n n g BoardPtr.inb BoardPtr.outb m).1,
    (sequential_loop n n g BoardPtr.inb BoardPtr.outb m).2, ?_, rfl⟩
  simp [sequential_game_of_life]

theorem C1_equivalence_with_reference_witness :
    ∃ p m1, game_of_life sequential_game_of_life
        ⟨List.replicate (32 * 32) 0, List.replicate (32 * 32) 0⟩ (32 : Nat) (32 : Nat) (3 : Nat)
          = some (p, m1)
      ∧ m1.load p = conwayGens 32 32 3 (List.replicate (32 * 32) 0)
      ∧ ∃ ps ms, sequential_game_of_life
          ⟨List.replicate (32 * 32) 0, List.replicate (32 * 32) 0⟩ (32 : Nat) (32 : Nat)
            (3 : Nat) = some (ps, ms)
          ∧ ms.load ps = m1.load p :=
  C1_equivalence_with_reference sequential_game_of_life
    ⟨List.replicate (32 * 32) 0, List.replicate (32 * 32) 0⟩ 32 5 3 (by norm_num)
    (by norm_num) (by norm_num) (zeros_binary 32) (List.length_replicate _ _)

/-- Refutes C3 as stated: 65536 is a multiple of 4 and [0, 4) a stripe with bounds
multiples of 4, the board of zeros is binary, but the pass over the stripe has no result:
its first group reads the west column 65535 in row 65535, at an offset beyond INT_MAX. -/
theorem C3_counterexample :
    65536 % 4 = 0 ∧ 0 % 4 = 0 ∧ 4 % 4 = 0 ∧ 0 ≤ 4 ∧ 4 ≤ 65536
      ∧ IsBinaryBoard 65536 65536 (List.replicate (65536 * 65536) 0)
      ∧ (List.replicate (65536 * 65536) 1).length = 65536 * 65536
      ∧ 2 ^ 31 - 1 < 65535 + 65536 * 65535
      ∧ stripe_pass build_lookup (List.replicate (65536 * 65536) 0)
          (List.replicate (65536 * 65536) 1) 65536 0 4 = none :=
  ⟨by norm_num, by norm_num, by norm_num, by norm_num, by norm_num, zeros_binary 65536,
    List.length_replicate _ _, by norm_num,
    stripe_pass_first_none (by norm_num) (column_group_overflow_west _ _ _ (by norm_num))⟩

/-- C3 amended: for a square binary board of side n, n a multiple of 4 with
n*n <= 2^31 (every offset below n*n is an int), and a stripe
[start, stop) with bounds multiples of 4 and 0 <= start <= stop <= n, one pass of the
generation loop body of thread_life returns a next buffer in which, for every row i below
n and every column c of the stripe, the cell at offset i + n*c is the table entry of the
key of the toroidal 3x3 neighbourhood of (i, c) in the current buffer, and this is the
Conway next state of (i, c). -/
theorem C3_worker_one_generation (cur next : List Nat) (n start stop : Nat)
    (h4 : n % 4 = 0) (hN : n * n ≤ 2 ^ 31) (hs : start % 4 = 0) (he : stop % 4 = 0)
    (hse : start ≤ stop) (hen : stop ≤ n) (hb : IsBinaryBoard n n cur)
    (hnext : next.length = n * n) :
    ∃ next1, stripe_pass build_lookup cur next n start stop = some next1
      ∧ ∀ i c, i < n → start ≤ c → c < stop →
          next1[i + n * c]? = build_lookup[neighbourKey cur n i c]?
          ∧ next1[i + n * c]? = some (conwayCell cur n n i c) := by
  obtain ⟨next1, hrun, hlen, hcell⟩ :=
    stripe_pass_spec hN build_lookup_length hb hnext h4 hs he hse hen
  refine ⟨next1, hrun, ?_⟩
  intro i c hi hc1 hc2
  have hoff : i + n * c < next1.length := by
    rw [hlen]; exact offset_lt hi (by omega)
  have hval := hcell i c hi
  rw [if_pos ⟨hc1, hc2⟩] at hval
  unfold cellAt at hval
  rw [List.getD_eq_getElem?_getD, List.getElem?_eq_getElem hoff, Option.getD_some] at hval
  have hkey := neighbourKey_lt hb i c
  have htab : build_lookup[neighbourKey cur n i c]?
      = some (tableAt build_lookup cur n i c) := by
    have : neighbourKey cur n i c < build_lookup.length := by
      rw [build_lookup_length]; exact hkey
    simp [tableAt, List.getD_eq_getElem?_getD, List.getElem?_eq_getElem this]
  rw [List.getElem?_eq_getElem hoff, hval, htab]
  exact ⟨rfl, by rw [lookup_key_conway hb]⟩

theorem C3_worker_one_generation_witness :
    ∃ next1, stripe_pass build_lookup (List.replicate (8 * 8) 0) (List.replicate (8 * 8) 1)
        8 4 8 = some next1
      ∧ ∀ i c, i < 8 → 4 ≤ c → c < 8 →
          next1[i + 8 * c]? = build_lookup[neighbourKey (List.replicate (8 * 8) 0) 8 i c]?
          ∧ next1[i + 8 * c]? = some (conwayCell (List.replicate (8 * 8) 0) 8 8 i c) :=
  C3_worker_one_generation (List.replicate (8 * 8) 0) (List.replicate (8 * 8) 1) 8 4 8
    (by decide) (by norm_num) (by decide) (by decide) (by decide) (by decide) (zeros_binary 8)
    (List.length_replicate _ _)

/-- C4: for n >= 32 and gens_max >= 0, whenever game_of_life returns, it returns the
outboard pointer iff gens_max is odd and the inboard pointer iff gens_max is even, and
that pointer is the final value of the workers' local inboard pointer after one swap per
generation (the buffer the last generation wrote); on a binary board whose side n is a
multiple of 16 with n*n <= 2^31 (every offset below n*n is an int) the call does
return. -/
theorem C4_parity_selection (seq : Memory → Int → Int → Int → Outcome) (m : Memory)
    (n g : Nat) (ncols : Int) (h32 : 32 ≤ n) :
    (∀ p m1, game_of_life seq m n ncols g = some (p, m1) →
        (p = BoardPtr.outb ↔ g % 2 = 1) ∧ (p = BoardPtr.inb ↔ g % 2 = 0)
        ∧ ∃ q, thread_life build_lookup n (TDATA n) g BoardPtr.inb BoardPtr.outb m
            = some (p, q, m1))
      ∧ (n % 16 = 0 → n * n ≤ 2 ^ 31 → IsBinaryBoard n n m.inboard →
          m.outboard.length = n * n →
          ∃ p m1, game_of_life seq m n ncols g = some (p, m1)) := by
  constructor
  · intro p m1 h
    rw [game_of_life_large seq m n ncols g (by omega)] at h
    simp only [Int.toNat_natCast] at h
    cases ht : thread_life build_lookup n (TDATA n) g BoardPtr.inb BoardPtr.outb m with
    | none => rw [ht] at h; simp at h
    | some r =>
      obtain ⟨a, b, m2⟩ := r
      rw [ht, Option.some_bind] at h
      simp only [Option.some.injEq, Prod.mk.injEq] at h
      obtain ⟨hp, hm⟩ := h
      obtain ⟨ha, _⟩ := thread_life_pointers _ _ _ g _ _ _ a b m2 ht
      by_cases e : g % 2 = 1
      · have e' := (tmod_two_natCast g).2 e
        rw [if_pos e'] at hp
        rw [if_pos e] at ha
        subst hp hm ha
        exact ⟨by simp [e], by simp; omega, b, rfl⟩
      · have e' : ¬ ((g : Int).tmod 2 ≠ 0) := fun h => e ((tmod_two_natCast g).1 h)
        rw [if_neg e'] at hp
        rw [if_neg e] at ha
        subst hp hm ha
        exact ⟨by simp [e], by simp; omega, b, rfl⟩
  · intro h16 hN hb hout
    exact ⟨_, _, game_of_life_parallel seq m n g ncols h32 h16 hN hb hout⟩

theorem C4_parity_selection_witness :
    (32 : Nat) ≤ 32
      ∧ ∃ p m1, game_of_life sequential_game_of_life
            ⟨List.replicate (32 * 32) 0, List.replicate (32 * 32) 0⟩ (32 : Nat) 32 (5 : Nat)
            = some (p, m1)
          ∧ p = BoardPtr.outb
          ∧ ∃ q, thread_life build_lookup 32 (TDATA 32) 5 BoardPtr.inb BoardPtr.outb
              ⟨List.replicate (32 * 32) 0, List.replicate (32 * 32) 0⟩ = some (p, q, m1) := by
  have h := C4_parity_selection sequential_game_of_life
    ⟨List.replicate (32 * 32) 0, List.replicate (32 * 32) 0⟩ 32 5 32 (by decide)
  obtain ⟨p, m1, hrun⟩ :=
    h.2 (by decide) (by norm_num) (zeros_binary 32) (List.length_replicate _ _)
  exact ⟨by decide, p, m1, hrun, (h.1 p m1 hrun).1.2 (by decide), (h.1 p m1 hrun).2.2⟩

/-- C5: for n >= 32 and gens_max = 0, game_of_life returns the inboard pointer and the
contents of both buffers are what they were before the call. -/
theorem C5_zero_generations (seq : Memory → Int → Int → Int → Outcome) (m : Memory)
    (nrows ncols : Int) (h32 : 32 ≤ nrows) :
    game_of_life seq m nrows ncols 0 = some (BoardPtr.inb, m) := by
  rw [game_of_life_large seq m nrows ncols 0 h32]
  rfl

theorem C5_zero_generations_witness :
    game_of_life sequential_game_of_life ⟨[1, 2, 3], [4]⟩ 32 7 0
      = some (BoardPtr.inb, ⟨[1, 2, 3], [4]⟩) :=
  C5_zero_generations sequential_game_of_life ⟨[1, 2, 3], [4]⟩ 32 7 (by decide)

theorem thread_life_covers {n : Nat} {ds : List tdata} (hN : n * n ≤ 2 ^ 31) (h4 : n % 4 = 0)
    (hds : CoversBoard n ds) (g : Nat) (m : Memory)
    (hb : IsBinaryBoard n n m.inboard) (hout : m.outboard.length = n * n) :
    thread_life build_lookup n ds g BoardPtr.inb BoardPtr.outb m
      = some ((sequential_loop n n g BoardPtr.inb BoardPtr.outb m).1,
          (if g % 2 = 1 then BoardPtr.inb else BoardPtr.outb),
          (sequential_loop n n g BoardPtr.inb BoardPtr.outb m).2) := by
  obtain ⟨q1, hrun⟩ := thread_life_eq_sequential_loop hN h4 hds g BoardPtr.inb BoardPtr.outb m
    (by decide) hb hout
  obtain ⟨_, hq⟩ := thread_life_pointers _ _ _ g _ _ _ _ _ _ hrun
  rw [hrun, hq]

/-- Refutes C6 as stated: 65536 is a multiple of 16 and the board of zeros is binary, but
neither the run over the four stripes nor the run over the single stripe [0, 65536)
yields a board after one generation: in both the group at column 0 reads the west column
65535 in row 65535, at an offset beyond INT_MAX. -/
theorem C6_counterexample :
    65536 % 16 = 0 ∧ IsBinaryBoard 65536 65536 (List.replicate (65536 * 65536) 0)
      ∧ 2 ^ 31 - 1 < 65535 + 65536 * 65535
      ∧ thread_life build_lookup 65536 (TDATA 65536) 1 BoardPtr.inb BoardPtr.outb
          ⟨List.replicate (65536 * 65536) 0, List.replicate (65536 * 65536) 0⟩ = none
      ∧ thread_life build_lookup 65536 [⟨0, 65536⟩] 1 BoardPtr.inb BoardPtr.outb
          ⟨List.replicate (65536 * 65536) 0, List.replicate (65536 * 65536) 0⟩ = none :=
  ⟨by norm_num, zeros_binary 65536, by norm_num,
    thread_life_first_none (by norm_num)
      (workers_generation_overflow _ _ _ _ (by norm_num) (by norm_num)),
    thread_life_first_none (by norm_num)
      (workers_generation_first_none []
        (stripe_pass_first_none (by norm_num)
          (column_group_overflow_west _ _ _ (by norm_num))))⟩

/-- C6 amended: on a square binary board of side n, n a multiple of 16 with
n*n <= 2^31 (every offset below n*n is an int), running the worker
algorithm for g generations over the four stripes [i*n/4, (i+1)*n/4) gives the same
result as running it over the single stripe [0, n); and for one generation, any two cuts
of [0, n) into contiguous stripes with bounds multiples of 4, each processed in any
order, give the same memory. -/
theorem C6_partition_invariance (m : Memory) (n g : Nat) (h16 : n % 16 = 0)
    (hN : n * n ≤ 2 ^ 31) (hb : IsBinaryBoard n n m.inboard) (hout : m.outboard.length = n * n) :
    (∃ r, thread_life build_lookup n (TDATA n) g BoardPtr.inb BoardPtr.outb m = some r
        ∧ thread_life build_lookup n [⟨0, n⟩] g BoardPtr.inb BoardPtr.outb m = some r)
      ∧ ∀ cut1 cut2 order1 order2 : List tdata, StripeCut n 0 cut1 → StripeCut n 0 cut2 →
          order1.Perm cut1 → order2.Perm cut2 →
          ∃ m1, workers_generation build_lookup n BoardPtr.inb BoardPtr.outb order1 m = some m1
            ∧ workers_generation build_lookup n BoardPtr.inb BoardPtr.outb order2 m
              = some m1 := by
  have h4 : n % 4 = 0 := by omega
  constructor
  · exact ⟨_, thread_life_covers hN h4 (TDATA_covers h16) g m hb hout,
      thread_life_covers hN h4 (single_stripe_covers h4) g m hb hout⟩
  · intro cut1 cut2 order1 order2 hc1 hc2 hp1 hp2
    exact ⟨_, workers_generation_conway hN h4 (by decide) (perm_cut_covers hc1 hp1) m hb hout,
      workers_generation_conway hN h4 (by decide) (perm_cut_covers hc2 hp2) m hb hout⟩

theorem C6_partition_invariance_witness :
    16 % 16 = 0
      ∧ (∃ r, thread_life build_lookup 16 (TDATA 16) 3 BoardPtr.inb BoardPtr.outb
            ⟨List.replicate (16 * 16) 0, List.replicate (16 * 16) 1⟩ = some r
          ∧ thread_life build_lookup 16 [⟨0, 16⟩] 3 BoardPtr.inb BoardPtr.outb
            ⟨List.replicate (16 * 16) 0, List.replicate (16 * 16) 1⟩ = some r)
      ∧ ∃ m1, workers_generation build_lookup 16 BoardPtr.inb BoardPtr.outb
            [⟨4, 16⟩, ⟨0, 4⟩] ⟨List.replicate (16 * 16) 0, List.replicate (16 * 16) 1⟩
            = some m1
          ∧ workers_generation build_lookup 16 BoardPtr.inb BoardPtr.outb
            [⟨0, 8⟩, ⟨8, 8⟩, ⟨8, 16⟩] ⟨List.replicate (16 * 16) 0, List.replicate (16 * 16) 1⟩
            = some m1 :=
  have h := C6_partition_invariance
    ⟨List.replicate (16 * 16) 0, List.replicate (16 * 16) 1⟩ 16 3 (by decide)
    (by norm_num) (zeros_binary 16) (List.length_replicate _ _)
  ⟨by decide, h.1,
    h.2 [⟨0, 4⟩, ⟨4, 16⟩] [⟨0, 8⟩, ⟨8, 8⟩, ⟨8, 16⟩] [⟨4, 16⟩, ⟨0, 4⟩]
      [⟨0, 8⟩, ⟨8, 8⟩, ⟨8, 16⟩]
      ⟨rfl, by decide, by decide, rfl, by decide, by decide, rfl⟩
      ⟨rfl, by decide, by decide, rfl, by decide, by decide, rfl, by decide, by decide, rfl⟩
      (List.Perm.swap _ _ _) (List.Perm.refl _)⟩

/-! ## Ring distance and pattern boards -/

theorem ringPred_cases {n i : Nat} (hi : i < n) :
    (i = 0 ∧ ringPred n i = n - 1) ∨ (0 < i ∧ ringPred n i + 1 = i) := by
  rw [ringPred_eq hi]
  split <;> omega

theorem ringSucc_cases {n i : Nat} (hi : i < n) :
    (i + 1 = n ∧ ringSucc n i = 0) ∨ (i + 1 < n ∧ ringSucc n i = i + 1) := by
  rw [ringSucc_eq hi]
  split <;> omega

theorem ringDiff_lt {n c j : Nat} (hj : j < n) (hc : c < n) : ringDiff n c j < n := by
  unfold ringDiff
  split <;> omega

theorem ringDiff_pred {n c j : Nat} (hj : j < n) (hc : c < n) :
    ringDiff n c (ringPred n j) = ringPred n (ringDiff n c j) := by
  have h1 := ringPred_cases hj
  have h2 := ringPred_cases (ringDiff_lt hj hc)
  unfold ringDiff at h2 ⊢
  generalize ringPred n (if c ≤ j then j - c else j + n - c) = x at *
  generalize ringPred n j = jp at *
  split at h2 <;> split <;> omega

theorem ringDiff_succ {n c j : Nat} (hj : j < n) (hc : c < n) :
    ringDiff n c (ringSucc n j) = ringSucc n (ringDiff n c j) := by
  have h1 := ringSucc_cases hj
  have h2 := ringSucc_cases (ringDiff_lt hj hc)
  unfold ringDiff at h2 ⊢
  generalize ringSucc n (if c ≤ j then j - c else j + n - c) = x at *
  generalize ringSucc n j = jp at *
  split at h2 <;> split <;> omega

theorem single_eq {n c j : Nat} (_hj : j < n) (hc : c < n) :
    single c j = if ringDiff n c j = 0 then 1 else 0 := by
  unfold single ringDiff
  split <;> split <;> split <;> omega

theorem single_succ_eq {n c j : Nat} (hn : 8 ≤ n) (hj : j < n) (hc : c < n) :
    single (ringSucc n c) j = if ringDiff n c j = 1 then 1 else 0 := by
  have h1 := ringSucc_cases hc
  unfold single ringDiff
  generalize ringSucc n c = cs at *
  split <;> split <;> split <;> omega

theorem pair_eq {n c j : Nat} (hn : 8 ≤ n) (hj : j < n) (hc : c < n) :
    pair n c j = if ringDiff n c j < 2 then 1 else 0 := by
  have h1 := ringSucc_cases hc
  unfold pair ringDiff
  generalize ringSucc n c = cs at *
  split <;> split <;> split <;> omega

theorem triple_eq {n c j : Nat} (hn : 8 ≤ n) (hj : j < n) (hc : c < n) :
    triple n c j = if ringDiff n c j < 3 then 1 else 0 := by
  have h1 := ringSucc_cases hc
  have h2 := ringSucc_cases (ringSucc_lt (show 0 < n by omega) : ringSucc n c < n)
  unfold triple ringDiff
  generalize ringSucc n (ringSucc n c) = css at *
  generalize ringSucc n c = cs at *
  split <;> split <;> split <;> omega

theorem triple_pred_eq {n c j : Nat} (hn : 8 ≤ n) (hj : j < n) (hc : c < n) :
    triple n (ringPred n c) j
      = if ringDiff n c j < 2 ∨ ringDiff n c j = n - 1 then 1 else 0 := by
  have h0 := ringPred_cases hc
  have h1 := ringSucc_cases (ringPred_lt (show 0 < n by omega) : ringPred n c < n)
  have h2 := ringSucc_cases
    (ringSucc_lt (show 0 < n by omega) : ringSucc n (ringPred n c) < n)
  unfold triple ringDiff
  generalize ringSucc n (ringSucc n (ringPred n c)) = css at *
  generalize ringSucc n (ringPred n c) = cs at *
  generalize ringPred n c = cp at *
  split <;> split <;> split <;> omega

theorem ite_one {p : Prop} [Decidable p] (h : p) : (if p then 1 else 0) = 1 := if_pos h

theorem ite_zero {p : Prop} [Decidable p] (h : ¬ p) : (if p then 1 else 0) = 0 := if_neg h

theorem single_profile {n i r : Nat} (hn : 8 ≤ n) (hi : i < n) (hr : r < n) :
    (single r (ringPred n i) = 0 ∧ single r i = 1 ∧ single r (ringSucc n i) = 0
        ∧ triple n (ringPred n r) i = 1)
      ∨ (single r (ringPred n i) = 1 ∧ single r i = 0 ∧ single r (ringSucc n i) = 0
        ∧ triple n (ringPred n r) i = 1)
      ∨ (single r (ringPred n i) = 0 ∧ single r i = 0 ∧ single r (ringSucc n i) = 1
        ∧ triple n (ringPred n r) i = 1)
      ∨ (single r (ringPred n i) = 0 ∧ single r i = 0 ∧ single r (ringSucc n i) = 0
        ∧ triple n (ringPred n r) i = 0) := by
  have hn0 : 0 < n := by omega
  have hd := ringDiff_lt hi hr
  rw [single_eq (ringPred_lt hn0) hr, single_eq hi hr, single_eq (ringSucc_lt hn0) hr,
    triple_pred_eq hn hi hr, ringDiff_pred hi hr, ringDiff_succ hi hr]
  have h1 := ringPred_cases hd
  have h2 := ringSucc_cases hd
  generalize ringDiff n r i = d at *
  generalize ringPred n d = dp at *
  generalize ringSucc n d = ds at *
  by_cases e0 : d = 0
  · exact Or.inl ⟨ite_zero (by omega), ite_one (by omega), ite_zero (by omega), ite_one (by omega)⟩
  by_cases e1 : d = 1
  · exact Or.inr (Or.inl ⟨ite_one (by omega), ite_zero (by omega), ite_zero (by omega), ite_one (by omega)⟩)
  by_cases e2 : d = n - 1
  · exact Or.inr (Or.inr (Or.inl ⟨ite_zero (by omega), ite_zero (by omega), ite_one (by omega), ite_one (by omega)⟩))
  exact Or.inr (Or.inr (Or.inr (⟨ite_zero (by omega), ite_zero (by omega), ite_zero (by omega), ite_zero (by omega)⟩)))

theorem triple_profile {n j c : Nat} (hn : 8 ≤ n) (hj : j < n) (hc : c < n) :
    (triple n c (ringPred n j) = 0 ∧ triple n c j = 1 ∧ triple n c (ringSucc n j) = 1
        ∧ single (ringSucc n c) j = 0)
      ∨ (triple n c (ringPred n j) = 1 ∧ triple n c j = 1 ∧ triple n c (ringSucc n j) = 1
        ∧ single (ringSucc n c) j = 1)
      ∨ (triple n c (ringPred n j) = 1 ∧ triple n c j = 1 ∧ triple n c (ringSucc n j) = 0
        ∧ single (ringSucc n c) j = 0)
      ∨ (triple n c (ringPred n j) = 1 ∧ triple n c j = 0 ∧ triple n c (ringSucc n j) = 0
        ∧ single (ringSucc n c) j = 0)
      ∨ (triple n c (ringPred n j) = 0 ∧ triple n c j = 0 ∧ triple n c (ringSucc n j) = 1
        ∧ single (ringSucc n c) j = 0)
      ∨ (triple n c (ringPred n j) = 0 ∧ triple n c j = 0 ∧ triple n c (ringSucc n j) = 0
        ∧ single (ringSucc n c) j = 0) := by
  have hn0 : 0 < n := by omega
  have hd := ringDiff_lt hj hc
  rw [triple_eq hn (ringPred_lt hn0) hc, triple_eq hn hj hc, triple_eq hn (ringSucc_lt hn0) hc,
    single_succ_eq hn hj hc, ringDiff_pred hj hc, ringDiff_succ hj hc]
  have h1 := ringPred_cases hd
  have h2 := ringSucc_cases hd
  generalize ringDiff n c j = d at *
  generalize ringPred n d = dp at *
  generalize ringSucc n d = ds at *
  by_cases e0 : d = 0
  · exact Or.inl ⟨ite_zero (by omega), ite_one (by omega), ite_one (by omega), ite_zero (by omega)⟩
  by_cases e1 : d = 1
  · exact Or.inr (Or.inl ⟨ite_one (by omega), ite_one (by omega), ite_one (by omega), ite_one (by omega)⟩)
  by_cases e2 : d = 2
  · exact Or.inr (Or.inr (Or.inl ⟨ite_one (by omega), ite_one (by omega), ite_zero (by omega), ite_zero (by omega)⟩))
  by_cases e3 : d = 3
  · exact Or.inr (Or.inr (Or.inr (Or.inl ⟨ite_one (by omega), ite_zero (by omega), ite_zero (by omega), ite_zero (by omega)⟩)))
  by_cases e4 : d = n - 1
  · exact Or.inr (Or.inr (Or.inr (Or.inr (Or.inl ⟨ite_zero (by omega), ite_zero (by omega), ite_one (by omega), ite_zero (by omega)⟩))))
  exact Or.inr (Or.inr (Or.inr (Or.inr (Or.inr (⟨ite_zero (by omega), ite_zero (by omega), ite_zero (by omega), ite_zero (by omega)⟩)))))

theorem pair_profile {n j c : Nat} (hn : 8 ≤ n) (hj : j < n) (hc : c < n) :
    (pair n c (ringPred n j) = 0 ∧ pair n c j = 1 ∧ pair n c (ringSucc n j) = 1)
      ∨ (pair n c (ringPred n j) = 1 ∧ pair n c j = 1 ∧ pair n c (ringSucc n j) = 0)
      ∨ (pair n c (ringPred n j) = 1 ∧ pair n c j = 0 ∧ pair n c (ringSucc n j) = 0)
      ∨ (pair n c (ringPred n j) = 0 ∧ pair n c j = 0 ∧ pair n c (ringSucc n j) = 1)
      ∨ (pair n c (ringPred n j) = 0 ∧ pair n c j = 0 ∧ pair n c (ringSucc n j) = 0) := by
  have hn0 : 0 < n := by omega
  have hd := ringDiff_lt hj hc
  rw [pair_eq hn (ringPred_lt hn0) hc, pair_eq hn hj hc, pair_eq hn (ringSucc_lt hn0) hc,
    ringDiff_pred hj hc, ringDiff_succ hj hc]
  have h1 := ringPred_cases hd
  have h2 := ringSucc_cases hd
  generalize ringDiff n c j = d at *
  generalize ringPred n d = dp at *
  generalize ringSucc n d = ds at *
  by_cases e0 : d = 0
  · exact Or.inl ⟨ite_zero (by omega), ite_one (by omega), ite_one (by omega)⟩
  by_cases e1 : d = 1
  · exact Or.inr (Or.inl ⟨ite_one (by omega), ite_one (by omega), ite_zero (by omega)⟩)
  by_cases e2 : d = 2
  · exact Or.inr (Or.inr (Or.inl ⟨ite_one (by omega), ite_zero (by omega), ite_zero (by omega)⟩))
  by_cases e3 : d = n - 1
  · exact Or.inr (Or.inr (Or.inr (Or.inl ⟨ite_zero (by omega), ite_zero (by omega), ite_one (by omega)⟩)))
  exact Or.inr (Or.inr (Or.inr (Or.inr (⟨ite_zero (by omega), ite_zero (by omega), ite_zero (by omega)⟩))))

theorem single_le_one (r i : Nat) : single r i ≤ 1 := by
  unfold single; split <;> omega

theorem pair_le_one (n r i : Nat) : pair n r i ≤ 1 := by
  unfold pair; split <;> omega

theorem triple_le_one (n r i : Nat) : triple n r i ≤ 1 := by
  unfold triple; split <;> omega

theorem productBoard_length (n : Nat) (a b : Nat → Nat) :
    (productBoard n a b).length = n * n := by
  simp [productBoard]

theorem productBoard_binary (n : Nat) {a b : Nat → Nat} (ha : ∀ i, a i ≤ 1)
    (hb : ∀ i, b i ≤ 1) : IsBinaryBoard n n (productBoard n a b) := by
  refine ⟨productBoard_length n a b, ?_⟩
  intro x hx
  simp only [productBoard, List.mem_map] at hx
  obtain ⟨k, _, rfl⟩ := hx
  have h1 := ha (k % n)
  have h2 := hb (k / n)
  have : a (k % n) = 0 ∨ a (k % n) = 1 := by omega
  rcases this with e | e <;> rw [e] <;> omega

theorem cellAt_productBoard {n i j : Nat} (a b : Nat → Nat) (hi : i < n) (hj : j < n) :
    cellAt (productBoard n a b) n i j = a i * b j := by
  have h : i + n * j < n * n := offset_lt hi hj
  have hn : 0 < n := by omega
  unfold cellAt productBoard
  rw [List.getD_eq_getElem?_getD, List.getElem?_map, List.getElem?_range h]
  simp only [Option.map_some', Option.getD_some]
  rw [Nat.add_mul_mod_self_left, Nat.mod_eq_of_lt hi, Nat.add_mul_div_left _ _ hn,
    Nat.div_eq_of_lt hi, Nat.zero_add]

theorem conwayCell_productBoard {n i j : Nat} (a b : Nat → Nat) (hi : i < n) (hj : j < n) :
    conwayCell (productBoard n a b) n n i j
      = stepRule (a (ringPred n i)) (a i) (a (ringSucc n i)) (b (ringPred n j)) (b j)
          (b (ringSucc n j)) := by
  have hn : 0 < n := by omega
  unfold conwayCell liveNeighbours stepRule
  simp only [cellAt_productBoard a b hi hj,
    cellAt_productBoard a b (ringPred_lt hn) hj, cellAt_productBoard a b (ringSucc_lt hn) hj,
    cellAt_productBoard a b hi (ringPred_lt hn), cellAt_productBoard a b hi (ringSucc_lt hn),
    cellAt_productBoard a b (ringPred_lt hn) (ringPred_lt hn),
    cellAt_productBoard a b (ringPred_lt hn) (ringSucc_lt hn),
    cellAt_productBoard a b (ringSucc_lt hn) (ringPred_lt hn),
    cellAt_productBoard a b (ringSucc_lt hn) (ringSucc_lt hn)]

theorem conwayStep_productBoard {n : Nat} (a b a1 b1 : Nat → Nat)
    (h : ∀ i j, i < n → j < n →
      stepRule (a (ringPred n i)) (a i) (a (ringSucc n i)) (b (ringPred n j)) (b j)
          (b (ringSucc n j)) = a1 i * b1 j) :
    conwayStep n n (productBoard n a b) = productBoard n a1 b1 := by
  unfold conwayStep
  conv_rhs => unfold productBoard
  apply List.map_congr_left
  intro k hk
  have hk' : k < n * n := List.mem_range.1 hk
  have hn : 0 < n := by
    rcases Nat.eq_zero_or_pos n with rfl | h0
    · simp at hk'
    · exact h0
  have hr : k % n < n := Nat.mod_lt _ hn
  have hc : k / n < n := Nat.div_lt_of_lt_mul hk'
  rw [conwayCell_productBoard a b hr hc, h _ _ hr hc]

theorem block_step {n r c : Nat} (hn : 8 ≤ n) (hr : r < n) (hc : c < n) :
    conwayStep n n (blockBoard n r c) = blockBoard n r c := by
  unfold blockBoard
  apply conwayStep_productBoard
  intro i j hi hj
  rcases pair_profile hn hi hr with h | h | h | h | h <;>
    rcases pair_profile hn hj hc with g | g | g | g | g <;>
    rw [h.1, h.2.1, h.2.2, g.1, g.2.1, g.2.2] <;> rfl

theorem blinker_row_step {n r c : Nat} (hn : 8 ≤ n) (hr : r < n) (hc : c < n) :
    conwayStep n n (productBoard n (single r) (triple n c))
      = productBoard n (triple n (ringPred n r)) (single (ringSucc n c)) := by
  apply conwayStep_productBoard
  intro i j hi hj
  rcases single_profile hn hi hr with h | h | h | h <;>
    rcases triple_profile hn hj hc with g | g | g | g | g | g <;>
    rw [h.1, h.2.1, h.2.2.1, h.2.2.2, g.1, g.2.1, g.2.2.1, g.2.2.2] <;> rfl

theorem blinker_column_step {n r c : Nat} (hn : 8 ≤ n) (hr : r < n) (hc : c < n) :
    conwayStep n n (productBoard n (triple n r) (single c))
      = productBoard n (single (ringSucc n r)) (triple n (ringPred n c)) := by
  apply conwayStep_productBoard
  intro i j hi hj
  rcases triple_profile hn hi hr with h | h | h | h | h | h <;>
    rcases single_profile hn hj hc with g | g | g | g <;>
    rw [h.1, h.2.1, h.2.2.1, h.2.2.2, g.1, g.2.1, g.2.2.1, g.2.2.2] <;> rfl

theorem isolated_step {n r c : Nat} (hn : 8 ≤ n) (hr : r < n) (hc : c < n) :
    conwayStep n n (isolatedBoard n r c) = productBoard n (fun _ => 0) (fun _ => 0) := by
  unfold isolatedBoard
  apply conwayStep_productBoard
  intro i j hi hj
  rcases single_profile hn hi hr with h | h | h | h <;>
    rcases single_profile hn hj hc with g | g | g | g <;>
    rw [h.1, h.2.1, h.2.2.1, g.1, g.2.1, g.2.2.1] <;> rfl

theorem ringSucc_ringPred {n r : Nat} (hr : r < n) : ringSucc n (ringPred n r) = r := by
  have h3 := ringPred_cases hr
  have hrp : ringPred n r < n := ringPred_lt (by omega)
  have h4 := ringSucc_cases hrp
  omega

theorem ringPred_ringSucc {n r : Nat} (hr : r < n) : ringPred n (ringSucc n r) = r := by
  have h3 := ringSucc_cases hr
  have hrp : ringSucc n r < n := ringSucc_lt (by omega)
  have h4 := ringPred_cases hrp
  omega

theorem blinker_two_steps {n r c : Nat} (v : Bool) (hn : 8 ≤ n) (hr : r < n) (hc : c < n) :
    conwayStep n n (conwayStep n n (blinkerBoard n v r c)) = blinkerBoard n v r c := by
  have hn0 : 0 < n := by omega
  cases v with
  | true =>
    simp only [blinkerBoard, if_true]
    rw [blinker_column_step hn hr hc,
      blinker_row_step hn (ringSucc_lt hn0) (ringPred_lt hn0), ringPred_ringSucc hr,
      ringSucc_ringPred hc]
  | false =>
    simp only [blinkerBoard, Bool.false_eq_true, if_false]
    rw [blinker_row_step hn hr hc,
      blinker_column_step hn (ringPred_lt hn0) (ringSucc_lt hn0), ringSucc_ringPred hr,
      ringPred_ringSucc hc]

theorem blinker_one_step_ne {n r c : Nat} (v : Bool) (hn : 8 ≤ n) (hr : r < n) (hc : c < n) :
    conwayStep n n (blinkerBoard n v r c) ≠ blinkerBoard n v r c := by
  have hn0 : 0 < n := by omega
  intro h
  have hcell : cellAt (conwayStep n n (blinkerBoard n v r c)) n r c
      = cellAt (blinkerBoard n v r c) n r c := by rw [h]
  have hs : ringSucc n c ≠ c := by
    have := ringSucc_cases hc
    omega
  have hs' : ringSucc n r ≠ r := by
    have := ringSucc_cases hr
    omega
  cases v with
  | true =>
    simp only [blinkerBoard, if_true] at hcell
    rw [blinker_column_step hn hr hc, cellAt_productBoard _ _ hr hc,
      cellAt_productBoard _ _ hr hc] at hcell
    simp [single, triple, hs'.symm] at hcell
  | false =>
    simp only [blinkerBoard, Bool.false_eq_true, if_false] at hcell
    rw [blinker_row_step hn hr hc, cellAt_productBoard _ _ hr hc,
      cellAt_productBoard _ _ hr hc] at hcell
    simp [single, triple, hs.symm] at hcell

/-! ## Oscillator, still life, isolated cell -/

theorem game_of_life_reference (m : Memory) (n e g : Nat) (hpow : n = 2 ^ e)
    (hN : n * n ≤ 2 ^ 31) (hb : IsBinaryBoard n n m.inboard) (hout : m.outboard.length = n * n) :
    game_of_life sequential_game_of_life m n n g
      = some (sequential_loop n n g BoardPtr.inb BoardPtr.outb m) := by
  by_cases h32 : 32 ≤ n
  · exact game_of_life_parallel _ m n g n h32 (pow_two_mod_16 hpow h32) hN hb hout
  · have hlt : (n : Int) < 32 := by omega
    unfold game_of_life
    rw [if_pos hlt]
    simp [sequential_game_of_life]

theorem game_of_life_returns_gens (m : Memory) (n e g : Nat) (hpow : n = 2 ^ e)
    (hN : n * n ≤ 2 ^ 31) (hb : IsBinaryBoard n n m.inboard) (hout : m.outboard.length = n * n) :
    ∃ p m1, game_of_life sequential_game_of_life m n n g = some (p, m1)
      ∧ m1.load p = conwayGens n n g m.inboard :=
  ⟨_, _, game_of_life_reference m n e g hpow hN hb hout,
    (sequential_loop_spec n n g BoardPtr.inb BoardPtr.outb m (by decide)).2⟩

theorem blinkerBoard_binary (n : Nat) (v : Bool) (r c : Nat) :
    IsBinaryBoard n n (blinkerBoard n v r c) := by
  cases v with
  | true => exact productBoard_binary n (triple_le_one n r) (single_le_one c)
  | false => exact productBoard_binary n (single_le_one r) (triple_le_one n c)

/-- Refutes C7 as stated: 65536 = 2^16 is a power of two, at least 8, and a horizontal
blinker is placed at (0, 0), but game_of_life has no result after 2 generations, nor
after 1: the worker code runs (65536 >= 32) and its first column group reads the west
column 65535 in row 65535, at an offset beyond INT_MAX. -/
theorem C7_counterexample :
    65536 = 2 ^ 16 ∧ 8 ≤ 65536 ∧ 0 < 65536
      ∧ (List.replicate (65536 * 65536) 0).length = 65536 * 65536
      ∧ 2 ^ 31 - 1 < 65535 + 65536 * 65535
      ∧ game_of_life sequential_game_of_life
          ⟨blinkerBoard 65536 false 0 0, List.replicate (65536 * 65536) 0⟩
          (65536 : Nat) (65536 : Nat) (2 : Nat) = none
      ∧ game_of_life sequential_game_of_life
          ⟨blinkerBoard 65536 false 0 0, List.replicate (65536 * 65536) 0⟩
          (65536 : Nat) (65536 : Nat) (1 : Nat) = none :=
  ⟨by norm_num, by norm_num, by norm_num, List.length_replicate _ _, by norm_num,
    game_of_life_overflow _ _ 65536 2 _ (by norm_num) (by norm_num) (by norm_num),
    game_of_life_overflow _ _ 65536 1 _ (by norm_num) (by norm_num) (by norm_num)⟩

/-- C7 amended: on an n x n toroidal board, n a power of two, n >= 8, with n*n <= 2^31
(every offset below n*n is an int; for a power of two, n <= 32768), with three adjacent
collinear live cells placed anywhere, horizontally or vertically, wrapping included, and
all other cells dead, the buffer returned by game_of_life after 2 generations holds the
original board and the buffer returned after 1 generation does not. -/
theorem C7_blinker_oscillator (n e r c : Nat) (v : Bool) (out : List Nat) (hpow : n = 2 ^ e)
    (h8 : 8 ≤ n) (hN : n * n ≤ 2 ^ 31) (hr : r < n) (hc : c < n) (hout : out.length = n * n) :
    (∃ p m2, game_of_life sequential_game_of_life ⟨blinkerBoard n v r c, out⟩ n n 2
          = some (p, m2)
        ∧ m2.load p = blinkerBoard n v r c)
      ∧ ∃ p m1, game_of_life sequential_game_of_life ⟨blinkerBoard n v r c, out⟩ n n 1
          = some (p, m1)
        ∧ m1.load p ≠ blinkerBoard n v r c := by
  constructor
  · obtain ⟨p, m2, hrun, hval⟩ := game_of_life_returns_gens ⟨blinkerBoard n v r c, out⟩ n e 2
      hpow hN (blinkerBoard_binary n v r c) hout
    refine ⟨p, m2, by exact_mod_cast hrun, ?_⟩
    rw [hval]
    exact blinker_two_steps v h8 hr hc
  · obtain ⟨p, m1, hrun, hval⟩ := game_of_life_returns_gens ⟨blinkerBoard n v r c, out⟩ n e 1
      hpow hN (blinkerBoard_binary n v r c) hout
    refine ⟨p, m1, by exact_mod_cast hrun, ?_⟩
    rw [hval]
    exact blinker_one_step_ne v h8 hr hc

theorem C7_blinker_oscillator_witness :
    (32 = 2 ^ 5 ∧ 32 * 32 ≤ 2 ^ 31 ∧ 31 < 32
        ∧ (List.replicate (32 * 32) 0).length = 32 * 32)
      ∧ (∃ p m2, game_of_life sequential_game_of_life
            ⟨blinkerBoard 32 false 31 31, List.replicate (32 * 32) 0⟩ (32 : Nat) (32 : Nat) 2
            = some (p, m2)
          ∧ m2.load p = blinkerBoard 32 false 31 31)
      ∧ ∃ p m1, game_of_life sequential_game_of_life
            ⟨blinkerBoard 32 false 31 31, List.replicate (32 * 32) 0⟩ (32 : Nat) (32 : Nat) 1
            = some (p, m1)
          ∧ m1.load p ≠ blinkerBoard 32 false 31 31 :=
  ⟨⟨by decide, by norm_num, by decide, List.length_replicate _ _⟩,
    C7_blinker_oscillator 32 5 31 31 false (List.replicate (32 * 32) 0) (by decide)
      (by decide) (by norm_num) (by decide) (by decide) (List.length_replicate _ _)⟩

/-- Refutes C8 as stated: 65536 = 2^16 is a power of two, at least 8, and a 2x2 block is
placed at (0, 0), but game_of_life has no result after 1 generation: the worker code runs
and its first column group reads the west column 65535 in row 65535, at an offset beyond
INT_MAX. -/
theorem C8_counterexample :
    65536 = 2 ^ 16 ∧ 8 ≤ 65536 ∧ 0 < 65536
      ∧ (List.replicate (65536 * 65536) 0).length = 65536 * 65536
      ∧ 2 ^ 31 - 1 < 65535 + 65536 * 65535
      ∧ game_of_life sequential_game_of_life
          ⟨blockBoard 65536 0 0, List.replicate (65536 * 65536) 0⟩
          (65536 : Nat) (65536 : Nat) (1 : Nat) = none :=
  ⟨by norm_num, by norm_num, by norm_num, List.length_replicate _ _, by norm_num,
    game_of_life_overflow _ _ 65536 1 _ (by norm_num) (by norm_num) (by norm_num)⟩

/-- C8 amended: on an n x n toroidal board, n a power of two, n >= 8, with n*n <= 2^31
(every offset below n*n is an int; for a power of two, n <= 32768), with a 2x2 block of
live cells at any position, wrapping included, and all other cells dead, the buffer
returned by game_of_life after any number g of generations holds the original board. -/
theorem C8_still_life (n e r c g : Nat) (out : List Nat) (hpow : n = 2 ^ e) (h8 : 8 ≤ n)
    (hN : n * n ≤ 2 ^ 31) (hr : r < n) (hc : c < n) (hout : out.length = n * n) :
    ∃ p m1, game_of_life sequential_game_of_life ⟨blockBoard n r c, out⟩ n n g = some (p, m1)
      ∧ m1.load p = blockBoard n r c := by
  obtain ⟨p, m1, hrun, hval⟩ := game_of_life_returns_gens ⟨blockBoard n r c, out⟩ n e g
    hpow hN (productBoard_binary n (pair_le_one n r) (pair_le_one n c)) hout
  refine ⟨p, m1, hrun, ?_⟩
  rw [hval]
  exact Function.iterate_fixed (block_step h8 hr hc) g

theorem C8_still_life_witness :
    (32 = 2 ^ 5 ∧ 32 * 32 ≤ 2 ^ 31 ∧ 31 < 32 ∧ 7 < 32
        ∧ (List.replicate (32 * 32) 1).length = 32 * 32)
      ∧ ∃ p m1, game_of_life sequential_game_of_life
          ⟨blockBoard 32 31 7, List.replicate (32 * 32) 1⟩ (32 : Nat) (32 : Nat) (5 : Nat)
          = some (p, m1)
        ∧ m1.load p = blockBoard 32 31 7 :=
  ⟨⟨by decide, by norm_num, by decide, by decide, List.length_replicate _ _⟩,
    C8_still_life 32 5 31 7 5 (List.replicate (32 * 32) 1) (by decide) (by decide)
      (by norm_num) (by decide) (by decide) (List.length_replicate _ _)⟩

/-- Refutes C9 as stated: 65536 = 2^16 is a power of two, at least 8, and the only live
cell is (0, 0), but game_of_life has no result for gens_max = 1: the worker code runs and
its first column group reads the west column 65535 in row 65535, at an offset beyond
INT_MAX. -/
theorem C9_counterexample :
    65536 = 2 ^ 16 ∧ 8 ≤ 65536 ∧ 0 < 65536
      ∧ (List.replicate (65536 * 65536) 1).length = 65536 * 65536
      ∧ 2 ^ 31 - 1 < 65535 + 65536 * 65535
      ∧ game_of_life sequential_game_of_life
          ⟨isolatedBoard 65536 0 0, List.replicate (65536 * 65536) 1⟩
          (65536 : Nat) (65536 : Nat) (1 : Nat) = none :=
  ⟨by norm_num, by norm_num, by norm_num, List.length_replicate _ _, by norm_num,
    game_of_life_overflow _ _ 65536 1 _ (by norm_num) (by norm_num) (by norm_num)⟩

/-- C9 amended: on an n x n toroidal board, n a power of two, n >= 8, with n*n <= 2^31
(every offset below n*n is an int; for a power of two, n <= 32768), whose only live cell
is (r, c), the buffer returned by game_of_life with gens_max = 1 contains only 0
cells. -/
theorem C9_isolated_cell_dies (n e r c : Nat) (out : List Nat) (hpow : n = 2 ^ e)
    (h8 : 8 ≤ n) (hN : n * n ≤ 2 ^ 31) (hr : r < n) (hc : c < n) (hout : out.length = n * n) :
    ∃ p m1, game_of_life sequential_game_of_life ⟨isolatedBoard n r c, out⟩ n n 1
        = some (p, m1)
      ∧ (m1.load p).length = n * n ∧ ∀ x ∈ m1.load p, x = 0 := by
  obtain ⟨p, m1, hrun, hval⟩ := game_of_life_returns_gens ⟨isolatedBoard n r c, out⟩ n e 1
    hpow hN (productBoard_binary n (single_le_one r) (single_le_one c)) hout
  refine ⟨p, m1, by exact_mod_cast hrun, ?_, ?_⟩
  · rw [hval]
    exact conwayStep_length n n _
  · rw [hval]
    intro x hx
    have hstep : conwayGens n n 1 (isolatedBoard n r c)
        = productBoard n (fun _ => 0) (fun _ => 0) := isolated_step h8 hr hc
    rw [hstep] at hx
    simp only [productBoard, List.mem_map] at hx
    obtain ⟨k, _, rfl⟩ := hx
    rfl

theorem C9_isolated_cell_dies_witness :
    (32 = 2 ^ 5 ∧ 32 * 32 ≤ 2 ^ 31 ∧ 0 < 32 ∧ 31 < 32
        ∧ (List.replicate (32 * 32) 1).length = 32 * 32)
      ∧ ∃ p m1, game_of_life sequential_game_of_life
          ⟨isolatedBoard 32 0 31, List.replicate (32 * 32) 1⟩ (32 : Nat) (32 : Nat) 1
          = some (p, m1)
        ∧ (m1.load p).length = 32 * 32 ∧ ∀ x ∈ m1.load p, x = 0 :=
  ⟨⟨by decide, by norm_num, by decide, by decide, List.length_replicate _ _⟩,
    C9_isolated_cell_dies 32 5 0 31 (List.replicate (32 * 32) 1) (by decide) (by decide)
      (by norm_num) (by decide) (by decide) (List.length_replicate _ _)⟩

/-- C10: for nrows < 32 game_of_life returns exactly what the sequential routine returns
for the same arguments, whatever that routine is; for nrows >= 32 the outcome does not
depend on the sequential routine. -/
theorem C10_small_board_delegation (m : Memory) (nrows ncols gens_max : Int) :
    (nrows < 32 → ∀ seq : Memory → Int → Int → Int → Outcome,
        game_of_life seq m nrows ncols gens_max = seq m nrows ncols gens_max)
      ∧ (32 ≤ nrows → ∀ seq1 seq2 : Memory → Int → Int → Int → Outcome,
          game_of_life seq1 m nrows ncols gens_max
            = game_of_life seq2 m nrows ncols gens_max) := by
  constructor
  · intro h seq
    unfold game_of_life
    rw [if_pos h]
  · intro h seq1 seq2
    rw [game_of_life_large seq1 m nrows ncols gens_max h,
      game_of_life_large seq2 m nrows ncols gens_max h]

theorem C10_small_board_delegation_witness :
    ((31 : Int) < 32 ∧ game_of_life (fun _ _ _ _ => none) ⟨[], []⟩ 31 5 2 = none)
      ∧ ((32 : Int) ≤ 32 ∧ game_of_life (fun _ _ _ _ => none) ⟨[], []⟩ 32 5 0
          = game_of_life sequential_game_of_life ⟨[], []⟩ 32 5 0) :=
  ⟨⟨by decide, (C10_small_board_delegation ⟨[], []⟩ 31 5 2).1 (by decide) _⟩,
    ⟨by decide, (C10_small_board_delegation ⟨[], []⟩ 32 5 0).2 (by decide) _ _⟩⟩

/-! ## The instrumented worker computes what the worker computes -/

theorem BOARD_set_log_eq_map (b : List Nat) (LDA i j v : Nat) :
    BOARD_set_log b LDA i j v = (BOARD_set b LDA i j v).map (fun o => (o, i + LDA * j)) := by
  unfold BOARD_set_log BOARD_set board_offset
  split
  · simp only [Option.bind_eq_bind, Option.some_bind]
    split <;> rfl
  · rfl

/-- The stores of `store_row_log` are those of `store_row`, and the offsets it returns are
the offsets of row `i` in columns `j`, `jeast`, `jeast + 1`, `jeast + 2`. -/
theorem store_row_log_eq_map (lookup out : List Nat) (LDA i j jeast x1 x2 x3 x4 : Nat) :
    store_row_log lookup out LDA i j jeast x1 x2 x3 x4
      = (store_row lookup out LDA i j jeast x1 x2 x3 x4).map
          (fun o => (o, store_row_offsets LDA i j jeast)) := by
  simp only [store_row_log, store_row, BOARD_set_log_eq_map, Option.bind_eq_bind]
  cases lookup[x1]? with
  | none => rfl
  | some v1 =>
    simp only [Option.some_bind]
    cases BOARD_set out LDA i j v1 with
    | none => rfl
    | some o1 =>
      simp only [Option.map_some', Option.some_bind]
      cases lookup[x2]? with
      | none => rfl
      | some v2 =>
        simp only [Option.some_bind]
        cases BOARD_set o1 LDA i jeast v2 with
        | none => rfl
        | some o2 =>
          simp only [Option.map_some', Option.some_bind]
          cases lookup[x3]? with
          | none => rfl
          | some v3 =>
            simp only [Option.some_bind]
            cases BOARD_set o2 LDA i (jeast + 1) v3 with
            | none => rfl
            | some o3 =>
              simp only [Option.map_some', Option.some_bind]
              cases lookup[x4]? with
              | none => rfl
              | some v4 =>
                simp only [Option.some_bind]
                cases BOARD_set o3 LDA i (jeast + 2) v4 with
                | none => rfl
                | some o4 => rfl

theorem row_loop_log_erase (lookup inboard : List Nat) (LDA j jwest jeast jeastmost : Nat) :
    ∀ (cnt i : Nat) (k : Keys) (out : List Nat),
      (row_loop_log lookup inboard LDA j jwest jeast jeastmost cnt i k out).map
          (fun r => (r.1, r.2.1))
        = row_loop lookup inboard LDA j jwest jeast jeastmost cnt i k out := by
  intro cnt
  induction cnt with
  | zero => intro i k out; rfl
  | succ cnt ih =>
    intro i k out
    simp only [row_loop_log, row_loop, store_row_log_eq_map, Option.bind_eq_bind]
    cases load_south inboard LDA (i + 1) j jwest jeast jeastmost
        ⟨shl k.key_1 3, shl k.key_2 3, shl k.key_3 3, shl k.key_4 3⟩ with
    | none => rfl
    | some k2 =>
      simp only [Option.some_bind]
      cases store_row lookup out LDA i j jeast (k2.key_1 &&& 511) (k2.key_2 &&& 511)
          (k2.key_3 &&& 511) (k2.key_4 &&& 511) with
      | none => rfl
      | some out2 =>
        simp only [Option.map_some', Option.some_bind]
        rw [← ih (i + 1) k2 out2]
        cases row_loop_log lookup inboard LDA j jwest jeast jeastmost cnt (i + 1) k2 out2 with
        | none => rfl
        | some r => rfl

theorem column_group_log_erase (lookup inboard outboard : List Nat) (nrows j : Nat) :
    (column_group_log lookup inboard outboard nrows j).map Prod.fst
      = column_group lookup inboard outboard nrows j := by
  simp only [column_group_log, column_group, store_row_log_eq_map, Option.bind_eq_bind]
  cases load_north inboard nrows (nrows - 1) j (if j = 0 then nrows - 1 else j - 1) (j + 1)
      (if j ≥ nrows - 4 then 0 else j + 4) with
  | none => rfl
  | some k1 =>
    simp only [Option.some_bind]
    cases load_middle inboard nrows 0 j (if j = 0 then nrows - 1 else j - 1) (j + 1)
        (if j ≥ nrows - 4 then 0 else j + 4) k1 with
    | none => rfl
    | some k2 =>
      simp only [Option.some_bind]
      cases load_south inboard nrows 1 j (if j = 0 then nrows - 1 else j - 1) (j + 1)
          (if j ≥ nrows - 4 then 0 else j + 4) k2 with
      | none => rfl
      | some k3 =>
        simp only [Option.some_bind]
        cases store_row lookup outboard nrows 0 j (j + 1) k3.key_1 k3.key_2 k3.key_3
            k3.key_4 with
        | none => rfl
        | some out1 =>
          simp only [Option.map_some', Option.some_bind]
          rw [← row_loop_log_erase]
          cases row_loop_log lookup inboard nrows j (if j = 0 then nrows - 1 else j - 1)
              (j + 1) (if j ≥ nrows - 4 then 0 else j + 4) (nrows - 2) 1 k3 out1 with
          | none => rfl
          | some r =>
            obtain ⟨k4, out2, log⟩ := r
            simp only [Option.map_some', Option.some_bind]
            cases load_south inboard nrows 0 j (if j = 0 then nrows - 1 else j - 1) (j + 1)
                (if j ≥ nrows - 4 then 0 else j + 4)
                ⟨shl k4.key_1 3 &&& 511, shl k4.key_2 3 &&& 511, shl k4.key_3 3 &&& 511,
                  shl k4.key_4 3 &&& 511⟩ with
            | none => rfl
            | some k5 =>
              simp only [Option.some_bind]
              cases store_row lookup out2 nrows (1 + (nrows - 2)) j (j + 1) k5.key_1
                  k5.key_2 k5.key_3 k5.key_4 with
              | none => rfl
              | some out3 => rfl

theorem column_loop_log_erase (lookup inboard : List Nat) (nrows : Nat) :
    ∀ (cnt j : Nat) (out : List Nat),
      (column_loop_log lookup inboard nrows cnt j out).map Prod.fst
        = column_loop lookup inboard nrows cnt j out := by
  intro cnt
  induction cnt with
  | zero => intro j out; rfl
  | succ cnt ih =>
    intro j out
    simp only [column_loop_log, column_loop, Option.bind_eq_bind]
    rw [← column_group_log_erase]
    cases column_group_log lookup inboard out nrows j with
    | none => rfl
    | some r =>
      obtain ⟨out1, log⟩ := r
      simp only [Option.map_some', Option.some_bind]
      rw [← ih (j + 4) out1]
      cases column_loop_log lookup inboard nrows cnt (j + 4) out1 with
      | none => rfl
      | some r2 => rfl

theorem stripe_pass_log_erase (lookup inboard outboard : List Nat) (nrows cindex endCol : Nat) :
    (stripe_pass_log lookup inboard outboard nrows cindex endCol).map Prod.fst
      = stripe_pass lookup inboard outboard nrows cindex endCol :=
  column_loop_log_erase lookup inboard nrows _ _ _

theorem workers_generation_log_erase (lookup : List Nat) (nrows : Nat) (p q : BoardPtr) :
    ∀ (ds : List tdata) (m : Memory),
      (workers_generation_log lookup nrows p q ds m).map Prod.fst
        = workers_generation lookup nrows p q ds m := by
  intro ds
  induction ds with
  | nil => intro m; rfl
  | cons d ds ih =>
    intro m
    simp only [workers_generation_log, workers_generation, thread_life_generation,
      Option.bind_eq_bind]
    rw [← stripe_pass_log_erase]
    cases stripe_pass_log lookup (m.load p) (m.load q) nrows d.cindex d.colsToUse with
    | none => rfl
    | some r =>
      obtain ⟨out1, log⟩ := r
      simp only [Option.map_some', Option.some_bind, Option.pure_def]
      rw [← ih (m.store q out1)]
      cases workers_generation_log lookup nrows p q ds (m.store q out1) with
      | none => rfl
      | some r2 => rfl

theorem column_group_log_none {lookup b out : List Nat} {n j : Nat}
    (h : column_group lookup b out n j = none) :
    column_group_log lookup b out n j = none := by
  have e := column_group_log_erase lookup b out n j
  rw [h] at e
  exact Option.map_eq_none'.1 e

theorem stripe_pass_log_none {lookup b out : List Nat} {n start stop : Nat}
    (h : stripe_pass lookup b out n start stop = none) :
    stripe_pass_log lookup b out n start stop = none := by
  have e := stripe_pass_log_erase lookup b out n start stop
  rw [h] at e
  exact Option.map_eq_none'.1 e

theorem workers_generation_log_none {lookup : List Nat} {n : Nat} {p q : BoardPtr}
    {ds : List tdata} {m : Memory} (h : workers_generation lookup n p q ds m = none) :
    workers_generation_log lookup n p q ds m = none := by
  have e := workers_generation_log_erase lookup n p q ds m
  rw [h] at e
  exact Option.map_eq_none'.1 e

/-! ## Rows, keys, table indices and stored offsets of a pass -/

theorem offset_decode {n i k c : Nat} (hi : i < n) :
    k = i + n * c ↔ k % n = i ∧ k / n = c := by
  have hn : 0 < n := by omega
  constructor
  · intro h
    subst h
    rw [Nat.add_mul_mod_self_left, Nat.mod_eq_of_lt hi, Nat.add_mul_div_left _ _ hn,
      Nat.div_eq_of_lt hi, Nat.zero_add]
    exact ⟨rfl, rfl⟩
  · rintro ⟨h1, h2⟩
    rw [← h1, ← h2]
    exact (Nat.mod_add_div k n).symm

theorem count_store_row_offsets {n i j : Nat} (hi : i < n) (k : Nat) :
    (store_row_offsets n i j (j + 1)).count k
      = if k % n = i ∧ j ≤ k / n ∧ k / n < j + 4 then 1 else 0 := by
  have d0 := @offset_decode n i k j hi
  have d1 := @offset_decode n i k (j + 1) hi
  have d2 := @offset_decode n i k (j + 1 + 1) hi
  have d3 := @offset_decode n i k (j + 1 + 2) hi
  simp only [store_row_offsets, List.count_cons, List.count_nil, beq_iff_eq]
  by_cases e : k % n = i
  · by_cases c0 : k / n = j
    · have h0 : i + n * j = k := (d0.2 ⟨e, c0⟩).symm
      have h1 : ¬ (i + n * (j + 1) = k) := fun h => by have := (d1.1 h.symm).2; omega
      have h2 : ¬ (i + n * (j + 1 + 1) = k) := fun h => by have := (d2.1 h.symm).2; omega
      have h3 : ¬ (i + n * (j + 1 + 2) = k) := fun h => by have := (d3.1 h.symm).2; omega
      have hc : k % n = i ∧ j ≤ k / n ∧ k / n < j + 4 := ⟨e, by omega, by omega⟩
      simp [h0, h1, h2, h3, hc]
    by_cases c1 : k / n = j + 1
    · have h0 : ¬ (i + n * j = k) := fun h => by have := (d0.1 h.symm).2; omega
      have h1 : i + n * (j + 1) = k := (d1.2 ⟨e, c1⟩).symm
      have h2 : ¬ (i + n * (j + 1 + 1) = k) := fun h => by have := (d2.1 h.symm).2; omega
      have h3 : ¬ (i + n * (j + 1 + 2) = k) := fun h => by have := (d3.1 h.symm).2; omega
      have hc : k % n = i ∧ j ≤ k / n ∧ k / n < j + 4 := ⟨e, by omega, by omega⟩
      simp [h0, h1, h2, h3, hc]
    by_cases c2 : k / n = j + 1 + 1
    · have h0 : ¬ (i + n * j = k) := fun h => by have := (d0.1 h.symm).2; omega
      have h1 : ¬ (i + n * (j + 1) = k) := fun h => by have := (d1.1 h.symm).2; omega
      have h2 : i + n * (j + 1 + 1) = k := (d2.2 ⟨e, c2⟩).symm
      have h3 : ¬ (i + n * (j + 1 + 2) = k) := fun h => by have := (d3.1 h.symm).2; omega
      have hc : k % n = i ∧ j ≤ k / n ∧ k / n < j + 4 := ⟨e, by omega, by omega⟩
      simp [h0, h1, h2, h3, hc]
    by_cases c3 : k / n = j + 1 + 2
    · have h0 : ¬ (i + n * j = k) := fun h => by have := (d0.1 h.symm).2; omega
      have h1 : ¬ (i + n * (j + 1) = k) := fun h => by have := (d1.1 h.symm).2; omega
      have h2 : ¬ (i + n * (j + 1 + 1) = k) := fun h => by have := (d2.1 h.symm).2; omega
      have h3 : i + n * (j + 1 + 2) = k := (d3.2 ⟨e, c3⟩).symm
      have hc : k % n = i ∧ j ≤ k / n ∧ k / n < j + 4 := ⟨e, by omega, by omega⟩
      simp [h0, h1, h2, h3, hc]
    · have h0 : ¬ (i + n * j = k) := fun h => c0 (d0.1 h.symm).2
      have h1 : ¬ (i + n * (j + 1) = k) := fun h => c1 (d1.1 h.symm).2
      have h2 : ¬ (i + n * (j + 1 + 1) = k) := fun h => c2 (d2.1 h.symm).2
      have h3 : ¬ (i + n * (j + 1 + 2) = k) := fun h => c3 (d3.1 h.symm).2
      have hc : ¬ (k % n = i ∧ j ≤ k / n ∧ k / n < j + 4) := by omega
      simp [h0, h1, h2, h3, hc]
  · have h0 : ¬ (i + n * j = k) := fun h => e (d0.1 h.symm).1
    have h1 : ¬ (i + n * (j + 1) = k) := fun h => e (d1.1 h.symm).1
    have h2 : ¬ (i + n * (j + 1 + 1) = k) := fun h => e (d2.1 h.symm).1
    have h3 : ¬ (i + n * (j + 1 + 2) = k) := fun h => e (d3.1 h.symm).1
    simp [h0, h1, h2, h3, e]

theorem writes_of_append (l1 l2 : List RowEvent) :
    writes_of (l1 ++ l2) = writes_of l1 ++ writes_of l2 := by
  induction l1 with
  | nil => rfl
  | cons e es ih => simp [writes_of, ih]

theorem groupKeys_KeysAt {b : List Nat} {n : Nat} (hb : IsBinaryBoard n n b) (i j : Nat) :
    KeysAt b n i j (groupKeys b n i j) := by
  refine ⟨?_, ?_, ?_, ?_⟩ <;> exact Nat.mod_eq_of_lt (neighbourKey_lt hb _ _)

theorem row_loop_log_spec {lookup b : List Nat} {n j : Nat}
    (hN : n * n ≤ 2 ^ 31) (hl : lookup.length = 512)
    (hb : IsBinaryBoard n n b) (h : j + 4 ≤ n) :
    ∀ (cnt i : Nat) (k : Keys) (out : List Nat), 1 ≤ i → i + cnt + 1 = n →
      out.length = n * n → KeysAt b n (i - 1) j k →
      ∃ k1 out1 log, row_loop_log lookup b n j (ringPred n j) (j + 1) (ringSucc n (j + 3))
          cnt i k out = some (k1, out1, log)
        ∧ KeysAt b n (i + cnt - 1) j k1 ∧ out1.length = n * n ∧ log.length = cnt
        ∧ (∀ t, t < cnt → ∃ e, log[t]? = some e ∧ RowEventOk b n j (i + t) e
            ∧ e.index = ⟨e.keys.key_1 &&& 511, e.keys.key_2 &&& 511, e.keys.key_3 &&& 511,
                e.keys.key_4 &&& 511⟩)
        ∧ ∀ x, (writes_of log).count x
            = if (i ≤ x % n ∧ x % n < i + cnt) ∧ j ≤ x / n ∧ x / n < j + 4 then 1 else 0 := by
  intro cnt
  induction cnt with
  | zero =>
    intro i k out hi hin hout hk
    refine ⟨k, out, [], rfl, by simpa using hk, hout, rfl, ?_, ?_⟩
    · intro t ht; omega
    · intro x
      have : ¬ ((i ≤ x % n ∧ x % n < i + 0) ∧ j ≤ x / n ∧ x / n < j + 4) := by omega
      rw [if_neg this]
      rfl
  | succ cnt ih =>
    intro i k out hi hin hout hk
    have hi1 : i + 1 < n := by omega
    have hilt : i < n := by omega
    have ep : ringPred n i = i - 1 := by rw [ringPred_eq hilt]; split <;> omega
    have es : ringSucc n i = i + 1 := by rw [ringSucc_eq hilt]; split <;> omega
    have es1 : ringSucc n (i - 1) = i := by
      rw [ringSucc_eq (by omega)]; split <;> omega
    have roll : ∀ c x, x % 512 = neighbourKey b n (i - 1) c →
        add (shl x 3) (rowBits b n (i + 1) c) % 512 = neighbourKey b n i c := by
      intro c x hx
      rw [neighbourKey_eq] at hx
      rw [neighbourKey_eq, ep, es]
      rw [es1] at hx
      exact key_roll hx (rowBits_le hb _ _) (rowBits_le hb _ _) (rowBits_le hb _ _)
    obtain ⟨hk1, hk2, hk3, hk4⟩ := hk
    have r1 := roll j _ hk1
    have r2 := roll (j + 1) _ hk2
    have r3 := roll (j + 2) _ hk3
    have r4 := roll (j + 3) _ hk4
    obtain ⟨out2, hs, hlen2, _⟩ := store_row_eq hN (i := i) hl hb hout hilt h
    have hk' : KeysAt b n (i + 1 - 1) j
        ⟨add (shl k.key_1 3) (rowBits b n (i + 1) j),
          add (shl k.key_2 3) (rowBits b n (i + 1) (j + 1)),
          add (shl k.key_3 3) (rowBits b n (i + 1) (j + 2)),
          add (shl k.key_4 3) (rowBits b n (i + 1) (j + 3))⟩ := by
      simpa [KeysAt] using ⟨r1, r2, r3, r4⟩
    obtain ⟨k1, out1, log, hrun, hkeys1, hlen1, hloglen, hev, hcount⟩ :=
      ih (i + 1) _ out2 (by omega) (by omega) hlen2 hk'
    refine ⟨k1, out1,
      (⟨i, j,
        ⟨add (shl k.key_1 3) (rowBits b n (i + 1) j),
          add (shl k.key_2 3) (rowBits b n (i + 1) (j + 1)),
          add (shl k.key_3 3) (rowBits b n (i + 1) (j + 2)),
          add (shl k.key_4 3) (rowBits b n (i + 1) (j + 3))⟩,
        ⟨neighbourKey b n i j, neighbourKey b n i (j + 1), neighbourKey b n i (j + 2),
          neighbourKey b n i (j + 3)⟩, store_row_offsets n i j (j + 1)⟩ : RowEvent) :: log,
      ?_, ?_, hlen1, by simp [hloglen], ?_, ?_⟩
    · simp only [row_loop_log, store_row_log_eq_map, load_south_eq hN hb hi1 h,
        Option.bind_eq_bind, Option.some_bind, Option.map_some', land_511, r1, r2, r3, r4, hs,
        hrun, Option.pure_def]
    · have : i + 1 + cnt - 1 = i + (cnt + 1) - 1 := by omega
      rw [← this]
      exact hkeys1
    · intro t ht
      cases t with
      | zero =>
        refine ⟨_, List.getElem?_cons_zero, ⟨rfl, rfl, ?_, rfl, rfl⟩, ?_⟩
        · simpa using hk'
        · simp only [land_511, r1, r2, r3, r4]
      | succ t =>
        obtain ⟨e, he, hok, hidx⟩ := hev t (by omega)
        have : i + 1 + t = i + (t + 1) := by omega
        rw [this] at hok
        exact ⟨e, by simpa using he, hok, hidx⟩
    · intro x
      simp only [writes_of, List.count_append, hcount x, count_store_row_offsets hilt]
      by_cases hc : j ≤ x / n ∧ x / n < j + 4
      · by_cases e1 : x % n = i
        · have a1 : ¬ (i + 1 ≤ x % n ∧ x % n < i + 1 + cnt) := by omega
          have a2 : (i ≤ x % n ∧ x % n < i + (cnt + 1)) := by omega
          simp [hc, e1, a1, a2]
        · by_cases e2 : (i + 1 ≤ x % n ∧ x % n < i + 1 + cnt)
          · have a2 : (i ≤ x % n ∧ x % n < i + (cnt + 1)) := by omega
            simp [hc, e1, e2, a2]
          · have a2 : ¬ (i ≤ x % n ∧ x % n < i + (cnt + 1)) := by omega
            simp [hc, e1, e2, a2]
      · have a0 : ¬ (x % n = i ∧ j ≤ x / n ∧ x / n < j + 4) := fun h => hc h.2
        have a1 : ¬ ((i + 1 ≤ x % n ∧ x % n < i + 1 + cnt) ∧ j ≤ x / n ∧ x / n < j + 4) :=
          fun h => hc h.2
        have a2 : ¬ ((i ≤ x % n ∧ x % n < i + (cnt + 1)) ∧ j ≤ x / n ∧ x / n < j + 4) :=
          fun h => hc h.2
        rw [if_neg a0, if_neg a1, if_neg a2]

theorem writes_of_singleton (e : RowEvent) : writes_of [e] = e.writes := by
  simp [writes_of]

theorem column_group_log_spec {lookup b out : List Nat} {n j : Nat}
    (hN : n * n ≤ 2 ^ 31) (hl : lookup.length = 512) (hb : IsBinaryBoard n n b)
    (hout : out.length = n * n)
    (h : j + 4 ≤ n) :
    ∃ out1 log, column_group_log lookup b out n j = some (out1, log)
      ∧ out1.length = n * n ∧ log.length = n
      ∧ (∀ t, t < n → ∃ e, log[t]? = some e ∧ RowEventOk b n j t e
          ∧ ((t = 0 ∨ t = n - 1) → e.index = e.keys)
          ∧ ((0 < t ∧ t < n - 1) →
              e.index = ⟨e.keys.key_1 &&& 511, e.keys.key_2 &&& 511, e.keys.key_3 &&& 511,
                e.keys.key_4 &&& 511⟩))
      ∧ ∀ x, (writes_of log).count x = if j ≤ x / n ∧ x / n < j + 4 then 1 else 0 := by
  have hn : 4 ≤ n := by omega
  have ep0 : ringPred n 0 = n - 1 := by rw [ringPred_eq (by omega)]; rfl
  have es0 : ringSucc n 0 = 1 := by rw [ringSucc_eq (by omega)]; split <;> omega
  have epl : ringPred n (n - 1) = n - 2 := by rw [ringPred_eq (by omega)]; split <;> omega
  have esl : ringSucc n (n - 1) = 0 := by rw [ringSucc_eq (by omega)]; split <;> omega
  have esl2 : ringSucc n (n - 2) = n - 1 := by rw [ringSucc_eq (by omega)]; split <;> omega
  have key0 : ∀ c, add (add (64 * rowBits b n (n - 1) c) (8 * rowBits b n 0 c))
      (rowBits b n 1 c) = neighbourKey b n 0 c := by
    intro c
    rw [neighbourKey_eq, ep0, es0]
    have h1 := rowBits_le hb (n - 1) c
    have h2 := rowBits_le hb 0 c
    have h3 := rowBits_le hb 1 c
    simp only [add_eq]
    omega
  obtain ⟨out0, hs0, hlen0, _⟩ := store_row_eq hN (i := 0) hl hb hout (by omega) h
  have hk0 : KeysAt b n (1 - 1) j (groupKeys b n 0 j) := groupKeys_KeysAt hb 0 j
  obtain ⟨k1, out1, log, hrun, hkeys1, hlen1, hloglen, hev, hcount⟩ :=
    row_loop_log_spec hN hl hb h (n - 2) 1 _ out0 (le_refl 1) (by omega) hlen0 hk0
  have hlast : 1 + (n - 2) - 1 = n - 2 := by omega
  rw [hlast] at hkeys1
  have rollm : ∀ c x, x % 512 = neighbourKey b n (n - 2) c →
      add (shl x 3 &&& 511) (rowBits b n 0 c) = neighbourKey b n (n - 1) c := by
    intro c x hx
    rw [neighbourKey_eq] at hx
    rw [neighbourKey_eq, epl, esl]
    rw [esl2] at hx
    exact key_roll_masked hx (rowBits_le hb _ _) (rowBits_le hb _ _) (rowBits_le hb _ _)
  obtain ⟨hk1, hk2, hk3, hk4⟩ := hkeys1
  obtain ⟨out2, hs2, hlen2, _⟩ :=
    store_row_eq hN (i := n - 1) hl hb hlen1 (by omega) h
  have hi : 1 + (n - 2) = n - 1 := by omega
  refine ⟨out2,
    (⟨0, j, groupKeys b n 0 j, groupKeys b n 0 j, store_row_offsets n 0 j (j + 1)⟩ : RowEvent)
      :: log ++ [(⟨n - 1, j, groupKeys b n (n - 1) j, groupKeys b n (n - 1) j,
          store_row_offsets n (n - 1) j (j + 1)⟩ : RowEvent)], ?_, hlen2, ?_, ?_, ?_⟩
  · simp only [column_group_log, store_row_log_eq_map, jwest_eq h, jeastmost_eq_of_le h,
      load_north_eq hN hb (show n - 1 < n by omega) h, load_middle_eq hN hb h,
      load_south_eq hN hb (show 1 < n by omega) h, load_south_eq hN hb (show 0 < n by omega) h,
      Option.bind_eq_bind, Option.some_bind, Option.map_some', key0, hs0, hi,
      rollm _ _ hk1, rollm _ _ hk2, rollm _ _ hk3, rollm _ _ hk4]
    simp only [groupKeys] at hrun
    simp only [hrun, Option.some_bind, Option.map_some', rollm _ _ hk1, rollm _ _ hk2,
      rollm _ _ hk3, rollm _ _ hk4, hs2, Option.pure_def, groupKeys]
  · simp only [List.length_cons, List.length_append, hloglen, List.length_nil]
    omega
  · intro t ht
    have hlen' : ((⟨0, j, groupKeys b n 0 j, groupKeys b n 0 j,
        store_row_offsets n 0 j (j + 1)⟩ : RowEvent) :: log).length = n - 1 := by
      simp only [List.length_cons, hloglen]
      omega
    by_cases tl : t = n - 1
    · subst tl
      refine ⟨⟨n - 1, j, groupKeys b n (n - 1) j, groupKeys b n (n - 1) j,
        store_row_offsets n (n - 1) j (j + 1)⟩, ?_,
        ⟨rfl, rfl, groupKeys_KeysAt hb (n - 1) j, rfl, rfl⟩, fun _ => rfl, fun h => by omega⟩
      rw [List.getElem?_append_right (by omega), hlen']
      simp
    rw [List.getElem?_append_left (by omega)]
    by_cases t0 : t = 0
    · subst t0
      exact ⟨⟨0, j, groupKeys b n 0 j, groupKeys b n 0 j, store_row_offsets n 0 j (j + 1)⟩,
        List.getElem?_cons_zero, ⟨rfl, rfl, groupKeys_KeysAt hb 0 j, rfl, rfl⟩,
        fun _ => rfl, fun h => by omega⟩
    obtain ⟨s, rfl⟩ : ∃ s, t = s + 1 := ⟨t - 1, by omega⟩
    rw [List.getElem?_cons_succ]
    obtain ⟨e, he, hok, hidx⟩ := hev s (by omega)
    have e1 : 1 + s = s + 1 := by omega
    rw [e1] at hok
    exact ⟨e, he, hok, fun h => by omega, fun _ => hidx⟩
  · intro x
    have hxn : x % n < n := Nat.mod_lt _ (by omega)
    have hw : writes_of ((⟨0, j, groupKeys b n 0 j, groupKeys b n 0 j,
          store_row_offsets n 0 j (j + 1)⟩ : RowEvent)
        :: log ++ [(⟨n - 1, j, groupKeys b n (n - 1) j, groupKeys b n (n - 1) j,
          store_row_offsets n (n - 1) j (j + 1)⟩ : RowEvent)])
        = (store_row_offsets n 0 j (j + 1) ++ writes_of log)
          ++ store_row_offsets n (n - 1) j (j + 1) := by
      rw [writes_of_append, writes_of_singleton]
      rfl
    rw [hw]
    simp only [List.count_append, hcount x,
      count_store_row_offsets (show 0 < n by omega),
      count_store_row_offsets (show n - 1 < n by omega)]
    by_cases hc : j ≤ x / n ∧ x / n < j + 4
    · by_cases e0 : x % n = 0
      · have a0 : x % n = 0 ∧ j ≤ x / n ∧ x / n < j + 4 := ⟨e0, hc⟩
        have a1 : ¬ ((1 ≤ x % n ∧ x % n < 1 + (n - 2)) ∧ j ≤ x / n ∧ x / n < j + 4) := by
          omega
        have a2 : ¬ (x % n = n - 1 ∧ j ≤ x / n ∧ x / n < j + 4) := by omega
        rw [if_pos a0, if_neg a1, if_neg a2, if_pos hc]
      · by_cases el : x % n = n - 1
        · have a0 : ¬ (x % n = 0 ∧ j ≤ x / n ∧ x / n < j + 4) := fun h => e0 h.1
          have a1 : ¬ ((1 ≤ x % n ∧ x % n < 1 + (n - 2)) ∧ j ≤ x / n ∧ x / n < j + 4) := by
            omega
          have a2 : x % n = n - 1 ∧ j ≤ x / n ∧ x / n < j + 4 := ⟨el, hc⟩
          rw [if_neg a0, if_neg a1, if_pos a2, if_pos hc]
        · have a0 : ¬ (x % n = 0 ∧ j ≤ x / n ∧ x / n < j + 4) := fun h => e0 h.1
          have a1 : (1 ≤ x % n ∧ x % n < 1 + (n - 2)) ∧ j ≤ x / n ∧ x / n < j + 4 := by
            omega
          have a2 : ¬ (x % n = n - 1 ∧ j ≤ x / n ∧ x / n < j + 4) := fun h => el h.1
          rw [if_neg a0, if_pos a1, if_neg a2, if_pos hc]
    · have a0 : ¬ (x % n = 0 ∧ j ≤ x / n ∧ x / n < j + 4) := fun h => hc h.2
      have a1 : ¬ ((1 ≤ x % n ∧ x % n < 1 + (n - 2)) ∧ j ≤ x / n ∧ x / n < j + 4) :=
        fun h => hc h.2
      have a2 : ¬ (x % n = n - 1 ∧ j ≤ x / n ∧ x / n < j + 4) := fun h => hc h.2
      rw [if_neg a0, if_neg a1, if_neg a2, if_neg hc]

theorem column_group_log_mem {lookup b out : List Nat} {n j : Nat}
    (hN : n * n ≤ 2 ^ 31) (hl : lookup.length = 512) (hb : IsBinaryBoard n n b)
    (hout : out.length = n * n)
    (h : j + 4 ≤ n) :
    ∃ out1 log, column_group_log lookup b out n j = some (out1, log)
      ∧ out1.length = n * n
      ∧ (∀ e ∈ log, e.row < n ∧ RowEventOk b n j e.row e ∧ IndexAsCode n e)
      ∧ ∀ x, (writes_of log).count x = if j ≤ x / n ∧ x / n < j + 4 then 1 else 0 := by
  obtain ⟨out1, log, hrun, hlen, hloglen, hev, hcount⟩ := column_group_log_spec hN hl hb hout h
  refine ⟨out1, log, hrun, hlen, ?_, hcount⟩
  intro e he
  obtain ⟨t, ht⟩ := List.mem_iff_getElem?.1 he
  have htn : t < n := by
    by_contra hge
    have : log[t]? = none := List.getElem?_eq_none (by omega)
    rw [this] at ht
    cases ht
  obtain ⟨e1, he1, hok, hun, hma⟩ := hev t htn
  rw [ht] at he1
  cases he1
  have hrow : e.row = t := hok.1
  unfold IndexAsCode
  rw [hrow]
  exact ⟨htn, hok, hun, hma⟩

theorem column_loop_log_spec {lookup b : List Nat} {n : Nat}
    (hN : n * n ≤ 2 ^ 31) (hl : lookup.length = 512)
    (hb : IsBinaryBoard n n b) :
    ∀ (cnt j : Nat) (out : List Nat), j + 4 * cnt ≤ n → out.length = n * n →
      ∃ out1 log, column_loop_log lookup b n cnt j out = some (out1, log)
        ∧ out1.length = n * n
        ∧ (∀ e ∈ log, e.row < n ∧ (j ≤ e.col ∧ e.col < j + 4 * cnt ∧ (e.col - j) % 4 = 0)
            ∧ RowEventOk b n e.col e.row e ∧ IndexAsCode n e)
        ∧ ∀ x, (writes_of log).count x
            = if j ≤ x / n ∧ x / n < j + 4 * cnt then 1 else 0 := by
  intro cnt
  induction cnt with
  | zero =>
    intro j out _ hout
    refine ⟨out, [], rfl, hout, ?_, ?_⟩
    · intro e he; cases he
    · intro x
      have : ¬ (j ≤ x / n ∧ x / n < j + 4 * 0) := by omega
      rw [if_neg this]
      rfl
  | succ cnt ih =>
    intro j out hjn hout
    obtain ⟨out1, log1, hg, hlen1, hmem1, hcount1⟩ :=
      column_group_log_mem hN hl hb hout (show j + 4 ≤ n by omega)
    obtain ⟨out2, log2, hrun, hlen2, hmem2, hcount2⟩ := ih (j + 4) out1 (by omega) hlen1
    refine ⟨out2, log1 ++ log2, ?_, hlen2, ?_, ?_⟩
    · simp only [column_loop_log, hg, hrun, Option.bind_eq_bind, Option.some_bind,
        Option.pure_def]
    · intro e he
      rcases List.mem_append.1 he with h1 | h2
      · obtain ⟨hr, hok, hix⟩ := hmem1 e h1
        have hcol : e.col = j := hok.2.1
        rw [hcol]
        exact ⟨hr, ⟨le_refl j, by omega, by simp⟩, hok, hix⟩
      · obtain ⟨hr, ⟨c1, c2, c3⟩, hok⟩ := hmem2 e h2
        exact ⟨hr, ⟨by omega, by omega, by omega⟩, hok⟩
    · intro x
      rw [writes_of_append, List.count_append, hcount1 x, hcount2 x]
      by_cases e1 : j ≤ x / n ∧ x / n < j + 4
      · have a2 : ¬ (j + 4 ≤ x / n ∧ x / n < j + 4 + 4 * cnt) := by omega
        have a3 : j ≤ x / n ∧ x / n < j + 4 * (cnt + 1) := by omega
        rw [if_pos e1, if_neg a2, if_pos a3]
      · by_cases e2 : j + 4 ≤ x / n ∧ x / n < j + 4 + 4 * cnt
        · have a3 : j ≤ x / n ∧ x / n < j + 4 * (cnt + 1) := by omega
          rw [if_neg e1, if_pos e2, if_pos a3]
        · have a3 : ¬ (j ≤ x / n ∧ x / n < j + 4 * (cnt + 1)) := by omega
          rw [if_neg e1, if_neg e2, if_neg a3]

theorem stripe_pass_log_spec {lookup b out : List Nat} {n start stop : Nat}
    (hN : n * n ≤ 2 ^ 31) (hl : lookup.length = 512) (hb : IsBinaryBoard n n b)
    (hout : out.length = n * n)
    (hs : start % 4 = 0) (he : stop % 4 = 0) (hse : start ≤ stop) (hen : stop ≤ n) :
    ∃ out1 log, stripe_pass_log lookup b out n start stop = some (out1, log)
      ∧ stripe_pass lookup b out n start stop = some out1
      ∧ out1.length = n * n
      ∧ (∀ e ∈ log, e.row < n
          ∧ (start ≤ e.col ∧ e.col < stop ∧ (e.col - start) % 4 = 0)
          ∧ RowEventOk b n e.col e.row e ∧ IndexAsCode n e)
      ∧ ∀ x, (writes_of log).count x = if start ≤ x / n ∧ x / n < stop then 1 else 0 := by
  have hc : start + 4 * ((stop - start + 3) / 4) = stop := by omega
  obtain ⟨out1, log, hrun, hlen, hmem, hcount⟩ :=
    column_loop_log_spec hN hl hb ((stop - start + 3) / 4) start out (by omega) hout
  rw [hc] at hmem hcount
  refine ⟨out1, log, hrun, ?_, hlen, hmem, hcount⟩
  have := stripe_pass_log_erase lookup b out n start stop
  unfold stripe_pass_log at this
  rw [hrun] at this
  exact this.symm

theorem workers_generation_log_spec {lookup : List Nat} {n : Nat} {p q : BoardPtr}
    (hN : n * n ≤ 2 ^ 31) (hl : lookup.length = 512) (hpq : p ≠ q) :
    ∀ (ds : List tdata) (m : Memory), (∀ d ∈ ds, ValidStripe n d) →
      IsBinaryBoard n n (m.load p) → (m.load q).length = n * n →
      ∃ m1 log, workers_generation_log lookup n p q ds m = some (m1, log)
        ∧ workers_generation lookup n p q ds m = some m1
        ∧ (∀ e ∈ log, e.row < n
            ∧ (∃ d ∈ ds, d.cindex ≤ e.col ∧ e.col < d.colsToUse ∧ (e.col - d.cindex) % 4 = 0)
            ∧ RowEventOk (m.load p) n e.col e.row e ∧ IndexAsCode n e)
        ∧ ∀ x, (writes_of log).count x
            = ds.countP (fun d => decide (d.cindex ≤ x / n ∧ x / n < d.colsToUse)) := by
  intro ds
  induction ds with
  | nil =>
    intro m _ _ _
    refine ⟨m, [], rfl, rfl, ?_, ?_⟩
    · intro e he; cases he
    · intro x; rfl
  | cons d ds ih =>
    intro m hv hb hq
    obtain ⟨v1, v2, v3, v4⟩ := hv d (List.mem_cons_self d ds)
    obtain ⟨out1, log1, hrun1, _, hlen1, hmem1, hcount1⟩ :=
      stripe_pass_log_spec hN hl hb hq v1 v2 v3 v4
    have hb' : IsBinaryBoard n n ((m.store q out1).load p) := by
      rw [Memory.load_store_other m hpq]; exact hb
    have hq' : ((m.store q out1).load q).length = n * n := by
      rw [Memory.load_store_same]; exact hlen1
    obtain ⟨m2, log2, hrun2, _, hmem2, hcount2⟩ :=
      ih (m.store q out1) (fun e he => hv e (List.mem_cons_of_mem d he)) hb' hq'
    rw [Memory.load_store_other m hpq] at hmem2
    have hrun : workers_generation_log lookup n p q (d :: ds) m = some (m2, log1 ++ log2) := by
      simp only [workers_generation_log, hrun1, hrun2, Option.bind_eq_bind,
        Option.some_bind, Option.pure_def]
    refine ⟨m2, log1 ++ log2, hrun, ?_, ?_, ?_⟩
    · have := workers_generation_log_erase lookup n p q (d :: ds) m
      rw [hrun] at this
      exact this.symm
    · intro e he
      rcases List.mem_append.1 he with h1 | h2
      · obtain ⟨hr, hc, hok⟩ := hmem1 e h1
        exact ⟨hr, ⟨d, List.mem_cons_self d ds, hc⟩, hok⟩
      · obtain ⟨hr, ⟨d2, hd2, hc⟩, hok⟩ := hmem2 e h2
        exact ⟨hr, ⟨d2, List.mem_cons_of_mem d hd2, hc⟩, hok⟩
    · intro x
      rw [writes_of_append, List.count_append, hcount1 x, hcount2 x, List.countP_cons]
      by_cases e1 : d.cindex ≤ x / n ∧ x / n < d.colsToUse
      · simp [e1]
        omega
      · simp [e1]

/-! ## Key layout and rolling update -/

theorem KeysAt_nth {b : List Nat} {n i j : Nat} {k : Keys} (hk : KeysAt b n i j k)
    {m : Nat} (hm : m < 4) : k.nth m % 512 = neighbourKey b n i (j + m) := by
  obtain ⟨h1, h2, h3, h4⟩ := hk
  have : m = 0 ∨ m = 1 ∨ m = 2 ∨ m = 3 := by omega
  rcases this with rfl | rfl | rfl | rfl
  · exact h1
  · exact h2
  · exact h3
  · exact h4

theorem groupKeys_nth (b : List Nat) (n i j : Nat) {m : Nat} (hm : m < 4) :
    (groupKeys b n i j).nth m = neighbourKey b n i (j + m) := by
  have : m = 0 ∨ m = 1 ∨ m = 2 ∨ m = 3 := by omega
  rcases this with rfl | rfl | rfl | rfl <;> rfl

set_option maxRecDepth 100000 in
theorem headerBoard_binary : IsBinaryBoard 4 4 headerBoard :=
  ⟨rfl, by decide⟩

/-- Refutes C12 as stated: 65536 is a multiple of 4, 0 a group start and the board of
zeros binary, but the worker has no table index for the group at column 0: before any
lookup it reads the west column 65535 in row 65535, at an offset beyond INT_MAX. -/
theorem C12_counterexample :
    65536 % 4 = 0 ∧ 0 % 4 = 0 ∧ 0 + 4 ≤ 65536
      ∧ IsBinaryBoard 65536 65536 (List.replicate (65536 * 65536) 0)
      ∧ 2 ^ 31 - 1 < 65535 + 65536 * 65535
      ∧ column_group_log build_lookup (List.replicate (65536 * 65536) 0)
          (List.replicate (65536 * 65536) 0) 65536 0 = none
      ∧ column_group build_lookup (List.replicate (65536 * 65536) 0)
          (List.replicate (65536 * 65536) 0) 65536 0 = none :=
  ⟨by norm_num, by norm_num, by norm_num, zeros_binary 65536, by norm_num,
    column_group_log_none (column_group_overflow_west _ _ _ (by norm_num)),
    column_group_overflow_west _ _ _ (by norm_num)⟩

/-- C12 amended: for a square binary board of side n with n*n <= 2^31 (every offset below
n*n is an int) and a column group starting at j with
j + 4 <= n, the worker uses, for every row i below n and every m below 4, as table index
of cell (i, j+m) the value 256*B(i-1,c-1) + 128*B(i-1,c) + 64*B(i-1,c+1) + 32*B(i,c-1)
+ 16*B(i,c) + 8*B(i,c+1) + 4*B(i+1,c-1) + 2*B(i+1,c) + B(i+1,c+1), c = j+m, indices
modulo n; the index is the key itself in rows 0 and n-1 and the key masked with 511 in
the rows between. -/
theorem C12_neighbour_key_layout (b out : List Nat) (n j : Nat) (hj : j + 4 ≤ n)
    (hN : n * n ≤ 2 ^ 31) (hb : IsBinaryBoard n n b) (hout : out.length = n * n) :
    ∃ out1 log, column_group_log build_lookup b out n j = some (out1, log)
      ∧ column_group build_lookup b out n j = some out1
      ∧ log.length = n
      ∧ ∀ i, i < n → ∃ e, log[i]? = some e ∧ e.row = i ∧ IndexAsCode n e
          ∧ ∀ m, m < 4 → e.index.nth m
              = 256 * cellAt b n (ringPred n i) (ringPred n (j + m))
                + 128 * cellAt b n (ringPred n i) (j + m)
                + 64 * cellAt b n (ringPred n i) (ringSucc n (j + m))
                + 32 * cellAt b n i (ringPred n (j + m)) + 16 * cellAt b n i (j + m)
                + 8 * cellAt b n i (ringSucc n (j + m))
                + 4 * cellAt b n (ringSucc n i) (ringPred n (j + m))
                + 2 * cellAt b n (ringSucc n i) (j + m)
                + cellAt b n (ringSucc n i) (ringSucc n (j + m)) := by
  obtain ⟨out1, log, hrun, _, hloglen, hev, _⟩ :=
    column_group_log_spec hN build_lookup_length hb hout hj
  refine ⟨out1, log, hrun, ?_, hloglen, ?_⟩
  · have := column_group_log_erase build_lookup b out n j
    rw [hrun] at this
    exact this.symm
  · intro i hi
    obtain ⟨e, he, hok, hun, hma⟩ := hev i hi
    have hrow : e.row = i := hok.1
    refine ⟨e, he, hrow, ?_, ?_⟩
    · unfold IndexAsCode
      rw [hrow]
      exact ⟨hun, hma⟩
    · intro m hm
      rw [hok.2.2.2.1, groupKeys_nth b n i j hm]
      rfl

theorem C12_neighbour_key_layout_witness :
    (0 + 4 ≤ 4 ∧ 4 * 4 ≤ 2 ^ 31 ∧ IsBinaryBoard 4 4 headerBoard)
      ∧ ∃ out1 log e, column_group_log build_lookup headerBoard (List.replicate (4 * 4) 0) 4 0
          = some (out1, log)
        ∧ log[1]? = some e ∧ e.index.nth 1 = 70 ∧ build_lookup[70]? = some 1 := by
  obtain ⟨out1, log, hrun, _, _, hev⟩ := C12_neighbour_key_layout headerBoard
    (List.replicate (4 * 4) 0) 4 0 (by decide) (by norm_num) headerBoard_binary
    (List.length_replicate _ _)
  obtain ⟨e, he, _, _, hkey⟩ := hev 1 (by decide)
  refine ⟨⟨by decide, by norm_num, headerBoard_binary⟩, out1, log, e, hrun, he, ?_, ?_⟩
  · rw [hkey 1 (by decide)]
    decide
  · rw [build_lookup_get 70 (by decide)]
    decide

/-- Refutes C13 as stated: on the binary 65536 x 65536 board of ones the last column
group, at column 65532, has no key after any row: its first read, row 65535 of column
65532, is at offset 65535 + 65536*65532, beyond INT_MAX. -/
theorem C13_counterexample :
    65532 + 4 ≤ 65536 ∧ IsBinaryBoard 65536 65536 (List.replicate (65536 * 65536) 1)
      ∧ 2 ^ 31 - 1 < 65535 + 65536 * 65532
      ∧ BOARD (List.replicate (65536 * 65536) 1) 65536 65535 65532 = none
      ∧ column_group_log build_lookup (List.replicate (65536 * 65536) 1)
          (List.replicate (65536 * 65536) 0) 65536 65532 = none :=
  ⟨by norm_num, ones_binary 65536, by norm_num, BOARD_overflow _ (by norm_num),
    column_group_log_none (column_group_overflow _ _ _ (by norm_num))⟩

/-- C13 amended: for a square binary board of side n with n*n <= 2^31 (every offset below
n*n is an int) and a column group starting at j with
j + 4 <= n, for every row i with 1 <= i <= n-1 and each of the four keys, the key after
row i, modulo 512, is ((the key after row i-1, modulo 512) * 8) modulo 512 plus
4*W + 2*C + E, where W, C, E are the cells of row (i+1) mod n at the west, centre and
east columns of the key; the keys are 32-bit values that the loop shifts unmasked. -/
theorem C13_row_rolling_update (b out : List Nat) (n j : Nat) (hj : j + 4 ≤ n)
    (hN : n * n ≤ 2 ^ 31) (hb : IsBinaryBoard n n b) (hout : out.length = n * n) :
    ∃ out1 log, column_group_log build_lookup b out n j = some (out1, log)
      ∧ ∀ i, 1 ≤ i → i < n → ∃ e0 e1, log[i - 1]? = some e0 ∧ log[i]? = some e1
          ∧ e0.row = i - 1 ∧ e1.row = i
          ∧ ∀ m, m < 4 → e1.keys.nth m % 512
              = (e0.keys.nth m % 512 * 8) % 512
                + 4 * cellAt b n (ringSucc n i) (ringPred n (j + m))
                + 2 * cellAt b n (ringSucc n i) (j + m)
                + cellAt b n (ringSucc n i) (ringSucc n (j + m)) := by
  obtain ⟨out1, log, hrun, _, _, hev, _⟩ :=
    column_group_log_spec hN build_lookup_length hb hout hj
  refine ⟨out1, log, hrun, ?_⟩
  intro i hi1 hin
  obtain ⟨e0, he0, hok0, _⟩ := hev (i - 1) (by omega)
  obtain ⟨e1, he1, hok1, _⟩ := hev i hin
  refine ⟨e0, e1, he0, he1, hok0.1, hok1.1, ?_⟩
  intro m hm
  have k0 := KeysAt_nth hok0.2.2.1 hm
  have k1 := KeysAt_nth hok1.2.2.1 hm
  rw [k0, k1, neighbourKey_eq, neighbourKey_eq]
  have ep : ringPred n i = i - 1 := by rw [ringPred_eq hin]; split <;> omega
  have es1 : ringSucc n (i - 1) = i := by rw [ringSucc_eq (by omega)]; split <;> omega
  rw [ep, es1]
  have b1 := rowBits_le hb (ringPred n (i - 1)) (j + m)
  have b2 := rowBits_le hb (i - 1) (j + m)
  have b3 := rowBits_le hb i (j + m)
  have c1 := cellAt_le_one hb (ringSucc n i) (ringPred n (j + m))
  have c2 := cellAt_le_one hb (ringSucc n i) (j + m)
  have c3 := cellAt_le_one hb (ringSucc n i) (ringSucc n (j + m))
  have e4 : rowBits b n (ringSucc n i) (j + m)
      = 4 * cellAt b n (ringSucc n i) (ringPred n (j + m))
        + 2 * cellAt b n (ringSucc n i) (j + m)
        + cellAt b n (ringSucc n i) (ringSucc n (j + m)) := rfl
  rw [e4]
  omega

set_option maxRecDepth 1000000 in
theorem ones12_keys :
    (column_group_log build_lookup (List.replicate (12 * 12) 1) (List.replicate (12 * 12) 0)
        12 0).map (fun r => r.2.map (fun e => e.keys.key_1))
      = some [511, 4095, 32767, 262143, 2097151, 16777215, 134217727, 1073741823,
          4294967295, 4294967295, 4294967295, 511] := by
  decide

theorem C13_row_rolling_update_witness :
    (0 + 4 ≤ 12 ∧ 12 * 12 ≤ 2 ^ 31 ∧ IsBinaryBoard 12 12 (List.replicate (12 * 12) 1))
      ∧ ∃ out1 log e0 e1, column_group_log build_lookup (List.replicate (12 * 12) 1)
          (List.replicate (12 * 12) 0) 12 0 = some (out1, log)
        ∧ log[7]? = some e0 ∧ log[8]? = some e1
        ∧ e0.keys.key_1 = 1073741823 ∧ e1.keys.key_1 = 4294967295
        ∧ 2 ^ 32 ≤ e0.keys.key_1 * 8 + 7
        ∧ e1.keys.key_1 % 512 = (e0.keys.key_1 % 512 * 8) % 512 + 7 := by
  obtain ⟨out1, log, hrun, hev⟩ := C13_row_rolling_update (List.replicate (12 * 12) 1)
    (List.replicate (12 * 12) 0) 12 0 (by decide) (by norm_num) (ones_binary 12)
    (List.length_replicate _ _)
  obtain ⟨e0, e1, he0, he1, _, _, _⟩ := hev 8 (by decide) (by decide)
  have hk := ones12_keys
  rw [hrun] at hk
  simp only [Option.map_some', Option.some.injEq] at hk
  have h7 : (log.map (fun e => e.keys.key_1))[7]? = some e0.keys.key_1 := by
    rw [List.getElem?_map]
    have : log[7]? = some e0 := he0
    rw [this]
    rfl
  have h8 : (log.map (fun e => e.keys.key_1))[8]? = some e1.keys.key_1 := by
    rw [List.getElem?_map, he1]
    rfl
  rw [hk] at h7 h8
  have v7 : e0.keys.key_1 = 1073741823 := by
    simp at h7
    exact h7.symm
  have v8 : e1.keys.key_1 = 4294967295 := by
    simp at h8
    exact h8.symm
  refine ⟨⟨by decide, by norm_num, ones_binary 12⟩, out1, log, e0, e1, hrun, he0, he1, v7,
    v8, ?_, ?_⟩
  · rw [v7]; decide
  · rw [v7, v8]

/-! ## Write frame -/

theorem BOARD_set_frame {b b1 : List Nat} {n i j v : Nat}
    (h : BOARD_set b n i j v = some b1) :
    b1.length = b.length ∧ ∀ x, x ≠ i + n * j → b1[x]? = b[x]? := by
  unfold BOARD_set board_offset at h
  by_cases h31 : i + n * j < 2 ^ 31
  · rw [if_pos h31] at h
    simp only [Option.bind_eq_bind, Option.some_bind] at h
    split at h
    · simp only [Option.some.injEq] at h
      subst h
      refine ⟨List.length_set _ _ _, ?_⟩
      intro x hx
      rw [List.getElem?_set]
      rw [if_neg (fun e => hx e.symm)]
    · cases h
  · rw [if_neg h31] at h
    cases h

theorem store_row_frame {lookup out out1 : List Nat} {n i j jeast x1 x2 x3 x4 : Nat}
    (h : store_row lookup out n i j jeast x1 x2 x3 x4 = some out1) :
    out1.length = out.length
      ∧ ∀ x, x ∉ store_row_offsets n i j jeast → out1[x]? = out[x]? := by
  simp only [store_row, Option.bind_eq_bind, Option.bind_eq_some] at h
  obtain ⟨v1, _, o1, h1, v2, _, o2, h2, v3, _, o3, h3, v4, _, h4⟩ := h
  obtain ⟨l1, f1⟩ := BOARD_set_frame h1
  obtain ⟨l2, f2⟩ := BOARD_set_frame h2
  obtain ⟨l3, f3⟩ := BOARD_set_frame h3
  obtain ⟨l4, f4⟩ := BOARD_set_frame h4
  refine ⟨by rw [l4, l3, l2, l1], ?_⟩
  intro x hx
  simp only [store_row_offsets, List.mem_cons, List.mem_singleton, List.not_mem_nil,
    or_false, not_or] at hx
  obtain ⟨n1, n2, n3, n4⟩ := hx
  rw [f4 x n4, f3 x n3, f2 x n2, f1 x n1]

theorem store_row_offsets_col {n i j x : Nat} (hi : i < n)
    (hx : x ∈ store_row_offsets n i j (j + 1)) : j ≤ x / n ∧ x / n < j + 4 := by
  have hc := count_store_row_offsets (j := j) hi x
  have hpos : 0 < (store_row_offsets n i j (j + 1)).count x := List.count_pos_iff.2 hx
  by_contra hne
  have : ¬ (x % n = i ∧ j ≤ x / n ∧ x / n < j + 4) := fun h => hne h.2
  rw [if_neg this] at hc
  omega

theorem row_loop_frame {lookup inboard : List Nat} {n j jwest jeastmost : Nat} :
    ∀ (cnt i : Nat) (k : Keys) (out : List Nat) (k1 : Keys) (out1 : List Nat),
      i + cnt ≤ n →
      row_loop lookup inboard n j jwest (j + 1) jeastmost cnt i k out = some (k1, out1) →
      out1.length = out.length
        ∧ ∀ x, ¬ (j ≤ x / n ∧ x / n < j + 4) → out1[x]? = out[x]? := by
  intro cnt
  induction cnt with
  | zero =>
    intro i k out k1 out1 _ h
    simp only [row_loop, Option.some.injEq, Prod.mk.injEq] at h
    obtain ⟨_, rfl⟩ := h
    exact ⟨rfl, fun _ _ => rfl⟩
  | succ cnt ih =>
    intro i k out k1 out1 hin h
    simp only [row_loop, Option.bind_eq_bind, Option.bind_eq_some] at h
    obtain ⟨k2, _, out2, hs, hrest⟩ := h
    obtain ⟨l1, f1⟩ := store_row_frame hs
    obtain ⟨l2, f2⟩ := ih (i + 1) k2 out2 k1 out1 (by omega) hrest
    refine ⟨by rw [l2, l1], ?_⟩
    intro x hx
    rw [f2 x hx]
    exact f1 x (fun hmem => hx (store_row_offsets_col (show i < n by omega) hmem))

theorem column_group_frame {lookup inboard out out1 : List Nat} {n j : Nat} (hj : j + 4 ≤ n)
    (h : column_group lookup inboard out n j = some out1) :
    out1.length = out.length
      ∧ ∀ x, ¬ (j ≤ x / n ∧ x / n < j + 4) → out1[x]? = out[x]? := by
  simp only [column_group, Option.bind_eq_bind, Option.bind_eq_some] at h
  obtain ⟨k1, _, k2, _, k3, _, o1, hs1, r, hloop, k4, _, hs2⟩ := h
  obtain ⟨k5, o2⟩ := r
  obtain ⟨l1, f1⟩ := store_row_frame hs1
  obtain ⟨l2, f2⟩ := row_loop_frame (n - 2) 1 k3 o1 k5 o2 (by omega) hloop
  obtain ⟨l3, f3⟩ := store_row_frame hs2
  refine ⟨by rw [l3, l2, l1], ?_⟩
  intro x hx
  rw [f3 x (fun hmem => hx (store_row_offsets_col (show 1 + (n - 2) < n by omega) hmem)),
    f2 x hx]
  exact f1 x (fun hmem => hx (store_row_offsets_col (show 0 < n by omega) hmem))

theorem column_loop_frame {lookup inboard : List Nat} {n : Nat} :
    ∀ (cnt j : Nat) (out out1 : List Nat), j + 4 * cnt ≤ n →
      column_loop lookup inboard n cnt j out = some out1 →
      out1.length = out.length
        ∧ ∀ x, ¬ (j ≤ x / n ∧ x / n < j + 4 * cnt) → out1[x]? = out[x]? := by
  intro cnt
  induction cnt with
  | zero =>
    intro j out out1 _ h
    simp only [column_loop, Option.some.injEq] at h
    subst h
    exact ⟨rfl, fun _ _ => rfl⟩
  | succ cnt ih =>
    intro j out out1 hjn h
    simp only [column_loop, Option.bind_eq_bind, Option.bind_eq_some] at h
    obtain ⟨o1, hg, hrest⟩ := h
    obtain ⟨l1, f1⟩ := column_group_frame (show j + 4 ≤ n by omega) hg
    obtain ⟨l2, f2⟩ := ih (j + 4) o1 out1 (by omega) hrest
    refine ⟨by rw [l2, l1], ?_⟩
    intro x hx
    rw [f2 x (by omega), f1 x (by omega)]

theorem stripe_pass_frame {lookup inboard out out1 : List Nat} {n start stop : Nat}
    (hs : start % 4 = 0) (he : stop % 4 = 0) (hse : start ≤ stop) (hen : stop ≤ n)
    (h : stripe_pass lookup inboard out n start stop = some out1) :
    out1.length = out.length
      ∧ ∀ r c, r < n → ¬ (start ≤ c ∧ c < stop) → out1[r + n * c]? = out[r + n * c]? := by
  have hc : start + 4 * ((stop - start + 3) / 4) = stop := by omega
  obtain ⟨l1, f1⟩ := column_loop_frame ((stop - start + 3) / 4) start out out1 (by omega) h
  rw [hc] at f1
  refine ⟨l1, ?_⟩
  intro r c hr hcol
  apply f1
  have hd := (offset_decode (k := r + n * c) (c := c) hr).1 rfl
  rw [hd.2]
  exact hcol

/-- Refutes C15 as stated: for n = 65536 and the stripe [32768, 49152), bounds multiples
of 4, the pass does not confine itself to cells of the stripe: the offset of its first
store, row 0 of column 32768, is 0 + 65536*32768 = 2^31, beyond INT_MAX, so the `int`
offset of the source overflows and neither the store nor the pass has a result. -/
theorem C15_counterexample :
    32768 % 4 = 0 ∧ 49152 % 4 = 0 ∧ 32768 ≤ 49152 ∧ 49152 ≤ 65536
      ∧ IsBinaryBoard 65536 65536 (List.replicate (65536 * 65536) 0)
      ∧ 2 ^ 31 - 1 < 0 + 65536 * 32768
      ∧ BOARD_set (List.replicate (65536 * 65536) 0) 65536 0 32768 1 = none
      ∧ thread_life_generation build_lookup 65536 BoardPtr.inb BoardPtr.outb
          ⟨List.replicate (65536 * 65536) 0, List.replicate (65536 * 65536) 0⟩
          ⟨32768, 49152⟩ = none := by
  refine ⟨by norm_num, by norm_num, by norm_num, by norm_num, zeros_binary 65536,
    by norm_num, BOARD_set_overflow _ _ (by norm_num), ?_⟩
  have h : stripe_pass build_lookup (List.replicate (65536 * 65536) 0)
      (List.replicate (65536 * 65536) 0) 65536 32768 49152 = none :=
    stripe_pass_first_none (by norm_num) (column_group_overflow _ _ _ (by norm_num))
  simp only [thread_life_generation, Memory.load, h, Option.bind_eq_bind, Option.none_bind]

/-- C15 amended: for a board of side n and a stripe [cindex, colsToUse) with both bounds
multiples of 4 and cindex <= colsToUse <= n, whatever the buffers and the table hold, when
one generation pass of a worker over the stripe returns, the current buffer is unchanged
and the next buffer has the same length and the same cell in every column outside the
stripe; when n*n <= 2^31 (every offset below n*n is an int), on a binary current buffer
and a next buffer of n*n cells the pass does return. -/
theorem C15_worker_write_frame (lookup : List Nat) (n : Nat) (m : Memory) (d : tdata)
    (hs : d.cindex % 4 = 0) (he : d.colsToUse % 4 = 0) (hse : d.cindex ≤ d.colsToUse)
    (hen : d.colsToUse ≤ n) :
    (∀ m1, thread_life_generation lookup n BoardPtr.inb BoardPtr.outb m d = some m1 →
        m1.inboard = m.inboard ∧ m1.outboard.length = m.outboard.length
        ∧ ∀ r c, r < n → ¬ (d.cindex ≤ c ∧ c < d.colsToUse) →
            m1.outboard[r + n * c]? = m.outboard[r + n * c]?)
      ∧ (n * n ≤ 2 ^ 31 → lookup.length = 512 → IsBinaryBoard n n m.inboard →
          m.outboard.length = n * n →
          ∃ m1, thread_life_generation lookup n BoardPtr.inb BoardPtr.outb m d = some m1) := by
  constructor
  · intro m1 h
    simp only [thread_life_generation, Option.bind_eq_bind, Option.bind_eq_some,
      Option.pure_def, Option.some.injEq] at h
    obtain ⟨out1, hrun, rfl⟩ := h
    obtain ⟨l1, f1⟩ := stripe_pass_frame hs he hse hen hrun
    exact ⟨rfl, l1, f1⟩
  · intro hN hl hb hout
    obtain ⟨out1, hrun, _⟩ := stripe_pass_spec_of_le hN hl hb hout hs he hse hen
    refine ⟨m.store BoardPtr.outb out1, ?_⟩
    simp only [thread_life_generation, Option.bind_eq_bind, Option.pure_def]
    have : stripe_pass lookup (m.load BoardPtr.inb) (m.load BoardPtr.outb) n d.cindex
        d.colsToUse = some out1 := hrun
    rw [this]
    rfl

theorem C15_worker_write_frame_witness :
    ((4 : Nat) % 4 = 0 ∧ (8 : Nat) % 4 = 0 ∧ (4 : Nat) ≤ 8 ∧ (8 : Nat) ≤ 9)
      ∧ ∃ m1, thread_life_generation build_lookup 9 BoardPtr.inb BoardPtr.outb
          ⟨List.replicate (9 * 9) 1, List.replicate (9 * 9) 7⟩ ⟨4, 8⟩ = some m1
        ∧ m1.inboard = List.replicate (9 * 9) 1
        ∧ m1.outboard[2 + 9 * 8]? = (List.replicate (9 * 9) 7)[2 + 9 * 8]? := by
  have h := C15_worker_write_frame build_lookup 9
    ⟨List.replicate (9 * 9) 1, List.replicate (9 * 9) 7⟩ ⟨4, 8⟩ (by decide) (by decide)
    (by decide) (by decide)
  obtain ⟨m1, hrun⟩ :=
    h.2 (by norm_num) build_lookup_length (ones_binary 9) (List.length_replicate _ _)
  obtain ⟨h1, _, h3⟩ := h.1 m1 hrun
  exact ⟨⟨by decide, by decide, by decide, by decide⟩, m1, hrun, h1,
    h3 2 8 (by decide) (by decide)⟩

/-! ## The ncols argument and negative generation counts -/

theorem tmod_two_ne_zero_iff (x : Int) : x.tmod 2 ≠ 0 ↔ x % 2 = 1 := by
  rw [Ne, ← Int.dvd_iff_tmod_eq_zero]
  omega

theorem tmod_two_of_neg_odd {x : Int} (hneg : x < 0) (hodd : x % 2 = 1) :
    x.tmod 2 = -1 := by
  obtain ⟨k, rfl⟩ : ∃ k : Nat, x = Int.negSucc k := by
    cases x with
    | ofNat a => exact absurd hneg (by simp)
    | negSucc k => exact ⟨k, rfl⟩
  have hk : (k + 1) % 2 = 1 := by
    have : (Int.negSucc k) = -((k : Int) + 1) := rfl
    rw [this] at hodd
    omega
  simp only [Int.tmod]
  rw [hk]
  rfl

/-- C18: for nrows >= 32 the outcome of game_of_life (returned pointer and contents of
both buffers) is the same for any two values of ncols, in particular the same as for
ncols = nrows; on a binary nrows x nrows inboard with nrows a multiple of 16 and
nrows*nrows <= 2^31 (every offset below nrows*nrows is an int) the call returns the board
after gens_max steps of the nrows x nrows torus. -/
theorem C18_ncols_ignored (seq : Memory → Int → Int → Int → Outcome) (m : Memory)
    (nrows gens_max ncols1 ncols2 : Int) (h32 : 32 ≤ nrows) :
    game_of_life seq m nrows ncols1 gens_max = game_of_life seq m nrows ncols2 gens_max
      ∧ game_of_life seq m nrows ncols1 gens_max = game_of_life seq m nrows nrows gens_max
      ∧ (nrows.toNat % 16 = 0 → nrows.toNat * nrows.toNat ≤ 2 ^ 31 → 0 ≤ gens_max →
          IsBinaryBoard nrows.toNat nrows.toNat m.inboard →
          m.outboard.length = nrows.toNat * nrows.toNat →
          ∃ p m1, game_of_life seq m nrows ncols1 gens_max = some (p, m1)
            ∧ m1.load p = conwayGens nrows.toNat nrows.toNat gens_max.toNat m.inboard) := by
  refine ⟨?_, ?_, ?_⟩
  · rw [game_of_life_large seq m nrows ncols1 gens_max h32,
      game_of_life_large seq m nrows ncols2 gens_max h32]
  · rw [game_of_life_large seq m nrows ncols1 gens_max h32,
      game_of_life_large seq m nrows nrows gens_max h32]
  · intro h16 hN hg hb hout
    obtain ⟨n, rfl⟩ : ∃ n : Nat, nrows = n := ⟨nrows.toNat, by omega⟩
    obtain ⟨g, rfl⟩ : ∃ g : Nat, gens_max = g := ⟨gens_max.toNat, by omega⟩
    simp only [Int.toNat_natCast] at h16 hN hb hout ⊢
    have hrun := game_of_life_parallel seq m n g ncols1 (by omega) h16 hN hb hout
    exact ⟨_, _, hrun,
      (sequential_loop_spec n n g BoardPtr.inb BoardPtr.outb m (by decide)).2⟩

theorem C18_ncols_ignored_witness :
    (32 : Int) ≤ 32
      ∧ game_of_life sequential_game_of_life
          ⟨List.replicate (32 * 32) 0, List.replicate (32 * 32) 0⟩ 32 5 7
        = game_of_life sequential_game_of_life
          ⟨List.replicate (32 * 32) 0, List.replicate (32 * 32) 0⟩ 32 1000 7
      ∧ ∃ p m1, game_of_life sequential_game_of_life
          ⟨List.replicate (32 * 32) 0, List.replicate (32 * 32) 0⟩ 32 5 7 = some (p, m1)
        ∧ m1.load p = conwayGens 32 32 7 (List.replicate (32 * 32) 0) := by
  have h := C18_ncols_ignored sequential_game_of_life
    ⟨List.replicate (32 * 32) 0, List.replicate (32 * 32) 0⟩ 32 7 5 1000 (by decide)
  exact ⟨by decide, h.1,
    h.2.2 (by decide) (by decide) (by decide) (zeros_binary 32)
      (List.length_replicate _ _)⟩

/-- C19: for nrows >= 32 and gens_max < 0 the workers run no generation (their local
pointers and both buffers are as at the start), and game_of_life returns the outboard
pointer when gens_max is odd, where the C remainder gens_max % 2 is -1, and the inboard
pointer when gens_max is even; so for negative odd gens_max the returned pointer is not
the workers' inboard pointer, the buffer that holds the unchanged input. -/
theorem C19_negative_generations (seq : Memory → Int → Int → Int → Outcome) (m : Memory)
    (nrows ncols gens_max : Int) (h32 : 32 ≤ nrows) (hneg : gens_max < 0) :
    thread_life build_lookup nrows.toNat (TDATA nrows.toNat) gens_max.toNat
        BoardPtr.inb BoardPtr.outb m = some (BoardPtr.inb, BoardPtr.outb, m)
      ∧ (gens_max % 2 = 1 → gens_max.tmod 2 = -1
          ∧ game_of_life seq m nrows ncols gens_max = some (BoardPtr.outb, m))
      ∧ (gens_max % 2 = 0 →
          game_of_life seq m nrows ncols gens_max = some (BoardPtr.inb, m)) := by
  have hz : gens_max.toNat = 0 := by omega
  have hrun : thread_life build_lookup nrows.toNat (TDATA nrows.toNat) gens_max.toNat
      BoardPtr.inb BoardPtr.outb m = some (BoardPtr.inb, BoardPtr.outb, m) := by
    rw [hz]
    rfl
  refine ⟨hrun, ?_, ?_⟩
  · intro hodd
    refine ⟨tmod_two_of_neg_odd hneg hodd, ?_⟩
    rw [game_of_life_large seq m nrows ncols gens_max h32, hrun, Option.some_bind,
      if_pos ((tmod_two_ne_zero_iff gens_max).2 hodd)]
  · intro heven
    have : ¬ (gens_max.tmod 2 ≠ 0) := by
      rw [tmod_two_ne_zero_iff]
      omega
    rw [game_of_life_large seq m nrows ncols gens_max h32, hrun, Option.some_bind,
      if_neg this]

theorem C19_negative_generations_witness :
    ((32 : Int) ≤ 32 ∧ (-3 : Int) < 0 ∧ (-3 : Int) % 2 = 1)
      ∧ thread_life build_lookup 32 (TDATA 32) 0 BoardPtr.inb BoardPtr.outb ⟨[1, 0], [5]⟩
        = some (BoardPtr.inb, BoardPtr.outb, ⟨[1, 0], [5]⟩)
      ∧ game_of_life sequential_game_of_life ⟨[1, 0], [5]⟩ 32 32 (-3)
        = some (BoardPtr.outb, ⟨[1, 0], [5]⟩) := by
  have h := C19_negative_generations sequential_game_of_life ⟨[1, 0], [5]⟩ 32 32 (-3)
    (by decide) (by decide)
  exact ⟨⟨by decide, by decide, by decide⟩, h.1, (h.2.1 (by decide)).2⟩

/-! ## Memory safety, stripe partition, binary cells -/

theorem pow_two_mod_16_of_ge {n e : Nat} (hpow : n = 2 ^ e) (h16 : 16 ≤ n) : n % 16 = 0 := by
  have he : 4 ≤ e := by
    by_contra hlt
    have : e ≤ 3 := by omega
    have := Nat.pow_le_pow_right (show 0 < 2 by decide) this
    omega
  obtain ⟨k, rfl⟩ : ∃ k, e = k + 4 := ⟨e - 4, by omega⟩
  have e4 : 2 ^ (k + 4) = 2 ^ k * 16 := by rw [pow_add]; norm_num
  rw [hpow, e4]
  omega

theorem TDATA_countP {n : Nat} (h16 : n % 16 = 0) (c : Nat) :
    (TDATA n).countP (fun d => decide (d.cindex ≤ c ∧ c < d.colsToUse))
      = if c < n then 1 else 0 := by
  rw [TDATA_eq]
  simp only [List.countP_cons, List.countP_nil, decide_eq_true_eq]
  by_cases h1 : c < n / 4
  · have a1 : 0 * (n / 4) ≤ c ∧ c < (0 + 1) * (n / 4) := by omega
    have a2 : ¬ (1 * (n / 4) ≤ c ∧ c < (1 + 1) * (n / 4)) := by omega
    have a3 : ¬ (2 * (n / 4) ≤ c ∧ c < (2 + 1) * (n / 4)) := by omega
    have a4 : ¬ (3 * (n / 4) ≤ c ∧ c < (3 + 1) * (n / 4)) := by omega
    have a5 : c < n := by omega
    rw [if_pos a1, if_neg a2, if_neg a3, if_neg a4, if_pos a5]
  by_cases h2 : c < 2 * (n / 4)
  · have a1 : ¬ (0 * (n / 4) ≤ c ∧ c < (0 + 1) * (n / 4)) := by omega
    have a2 : 1 * (n / 4) ≤ c ∧ c < (1 + 1) * (n / 4) := by omega
    have a3 : ¬ (2 * (n / 4) ≤ c ∧ c < (2 + 1) * (n / 4)) := by omega
    have a4 : ¬ (3 * (n / 4) ≤ c ∧ c < (3 + 1) * (n / 4)) := by omega
    have a5 : c < n := by omega
    rw [if_neg a1, if_pos a2, if_neg a3, if_neg a4, if_pos a5]
  by_cases h3 : c < 3 * (n / 4)
  · have a1 : ¬ (0 * (n / 4) ≤ c ∧ c < (0 + 1) * (n / 4)) := by omega
    have a2 : ¬ (1 * (n / 4) ≤ c ∧ c < (1 + 1) * (n / 4)) := by omega
    have a3 : 2 * (n / 4) ≤ c ∧ c < (2 + 1) * (n / 4) := by omega
    have a4 : ¬ (3 * (n / 4) ≤ c ∧ c < (3 + 1) * (n / 4)) := by omega
    have a5 : c < n := by omega
    rw [if_neg a1, if_neg a2, if_pos a3, if_neg a4, if_pos a5]
  by_cases h4 : c < n
  · have a1 : ¬ (0 * (n / 4) ≤ c ∧ c < (0 + 1) * (n / 4)) := by omega
    have a2 : ¬ (1 * (n / 4) ≤ c ∧ c < (1 + 1) * (n / 4)) := by omega
    have a3 : ¬ (2 * (n / 4) ≤ c ∧ c < (2 + 1) * (n / 4)) := by omega
    have a4 : 3 * (n / 4) ≤ c ∧ c < (3 + 1) * (n / 4) := by omega
    rw [if_neg a1, if_neg a2, if_neg a3, if_pos a4, if_pos h4]
  · have a1 : ¬ (0 * (n / 4) ≤ c ∧ c < (0 + 1) * (n / 4)) := by omega
    have a2 : ¬ (1 * (n / 4) ≤ c ∧ c < (1 + 1) * (n / 4)) := by omega
    have a3 : ¬ (2 * (n / 4) ≤ c ∧ c < (2 + 1) * (n / 4)) := by omega
    have a4 : ¬ (3 * (n / 4) ≤ c ∧ c < (3 + 1) * (n / 4)) := by omega
    rw [if_neg a1, if_neg a2, if_neg a3, if_neg a4, if_neg h4]

theorem TDATA_cut {n : Nat} (h16 : n % 16 = 0) : StripeCut n 0 (TDATA n) := by
  rw [TDATA_eq]
  refine ⟨?_, ?_, ?_, ?_, ?_, ?_, ?_, ?_, ?_, ?_, ?_, ?_, ?_⟩ <;>
    first
      | rfl
      | (dsimp only; omega)
      | (show (3 + 1) * (n / 4) = n; omega)

theorem div_lt_iff_lt_sq {n x : Nat} (hn : 0 < n) : x / n < n ↔ x < n * n := by
  rw [Nat.div_lt_iff_lt_mul hn]

set_option maxRecDepth 1000000 in
theorem small_board_out_of_range :
    TDATA 8 = [⟨0, 2⟩, ⟨2, 4⟩, ⟨4, 6⟩, ⟨6, 8⟩]
      ∧ BOARD (List.replicate (8 * 8) 0) 8 7 (6 + 1 + 1) = none
      ∧ workers_generation build_lookup 8 BoardPtr.inb BoardPtr.outb (TDATA 8)
          ⟨List.replicate (8 * 8) 0, List.replicate (8 * 8) 0⟩ = none := by
  decide

/-- Refutes C14 as stated, at both ends.  On the binary 8 x 8 board of zeros the four
stripes [0,2), [2,4), [4,6), [6,8) do not stay inside the buffers: the group starting at
column 6 reads column 8, offset 7 + 8*8.  On the binary 65536 x 65536 board of zeros,
65536 = 2^16, the group at column 0 reads offset 65535 + 65536*65535, which is below n*n
but beyond INT_MAX, so the `int` offset of the source overflows. -/
theorem C14_counterexample :
    (8 = 2 ^ 3 ∧ TDATA 8 = [⟨0, 2⟩, ⟨2, 4⟩, ⟨4, 6⟩, ⟨6, 8⟩]
      ∧ BOARD (List.replicate (8 * 8) 0) 8 7 (6 + 1 + 1) = none
      ∧ workers_generation build_lookup 8 BoardPtr.inb BoardPtr.outb (TDATA 8)
          ⟨List.replicate (8 * 8) 0, List.replicate (8 * 8) 0⟩ = none)
      ∧ (65536 = 2 ^ 16 ∧ 8 ≤ 65536
        ∧ IsBinaryBoard 65536 65536 (List.replicate (65536 * 65536) 0)
        ∧ 65535 + 65536 * 65535 < 65536 * 65536
        ∧ 2 ^ 31 - 1 < 65535 + 65536 * 65535
        ∧ BOARD (List.replicate (65536 * 65536) 0) 65536 65535 65535 = none
        ∧ workers_generation build_lookup 65536 BoardPtr.inb BoardPtr.outb (TDATA 65536)
            ⟨List.replicate (65536 * 65536) 0, List.replicate (65536 * 65536) 0⟩ = none) :=
  ⟨⟨by norm_num, small_board_out_of_range⟩,
    by norm_num, by norm_num, zeros_binary 65536, by norm_num, by norm_num,
    BOARD_overflow _ (by norm_num),
    workers_generation_overflow _ _ _ _ (by norm_num) (by norm_num)⟩

/-- C14 amended: for a square binary board whose side n is a power of two with n >= 16
and n*n <= 2^31 (every offset below n*n is an int, that is n <= 32768), processing the
four stripes [i*(n/4), (i+1)*(n/4)) stays inside the buffers: the generation returns,
every offset stored lies below n*n and is an int, every column index a group uses
(west, j .. j+3, eastmost) and every row index lies below n; the same for any number of
generations. -/
theorem C14_memory_safety (m : Memory) (n e : Nat) (hpow : n = 2 ^ e) (h16 : 16 ≤ n)
    (hN : n * n ≤ 2 ^ 31) (hb : IsBinaryBoard n n m.inboard)
    (hout : m.outboard.length = n * n) :
    (∃ m1 log, workers_generation_log build_lookup n BoardPtr.inb BoardPtr.outb (TDATA n) m
          = some (m1, log)
        ∧ workers_generation build_lookup n BoardPtr.inb BoardPtr.outb (TDATA n) m = some m1
        ∧ (∀ x ∈ writes_of log, x < n * n ∧ x < 2 ^ 31)
        ∧ ∀ ev ∈ log, ev.row < n ∧ ev.col + 3 < n
            ∧ (if ev.col = 0 then n - 1 else ev.col - 1) < n
            ∧ (if ev.col ≥ n - 4 then 0 else ev.col + 4) < n)
      ∧ ∀ g, ∃ r, thread_life build_lookup n (TDATA n) g BoardPtr.inb BoardPtr.outb m
          = some r := by
  have hmod := pow_two_mod_16_of_ge hpow h16
  have hcov := TDATA_covers hmod
  constructor
  · obtain ⟨m1, log, hrun, hrun', hmem, hcount⟩ :=
      workers_generation_log_spec hN (n := n) build_lookup_length
        (show BoardPtr.inb ≠ BoardPtr.outb by decide) (TDATA n) m hcov.1 hb hout
    refine ⟨m1, log, hrun, hrun', ?_, ?_⟩
    · intro x hx
      have hpos : 0 < (writes_of log).count x := List.count_pos_iff.2 hx
      rw [hcount x, TDATA_countP hmod] at hpos
      by_cases hlt : x / n < n
      · have hx2 : x < n * n := (div_lt_iff_lt_sq (by omega)).1 hlt
        exact ⟨hx2, by omega⟩
      · rw [if_neg hlt] at hpos
        omega
    · intro ev hev
      obtain ⟨hr, ⟨d, hd, c1, c2, c3⟩, _⟩ := hmem ev hev
      obtain ⟨v1, v2, v3, v4⟩ := hcov.1 d hd
      have hc : ev.col + 4 ≤ n := by omega
      refine ⟨hr, by omega, ?_, ?_⟩
      · split <;> omega
      · split <;> omega
  · intro g
    exact ⟨_, thread_life_covers hN (by omega) hcov g m hb hout⟩

theorem C14_memory_safety_witness :
    (16 = 2 ^ 4 ∧ 16 ≤ 16 ∧ 16 * 16 ≤ 2 ^ 31
        ∧ IsBinaryBoard 16 16 (List.replicate (16 * 16) 1))
      ∧ (∃ m1, workers_generation build_lookup 16 BoardPtr.inb BoardPtr.outb (TDATA 16)
          ⟨List.replicate (16 * 16) 1, List.replicate (16 * 16) 0⟩ = some m1)
      ∧ ∃ r, thread_life build_lookup 16 (TDATA 16) 3 BoardPtr.inb BoardPtr.outb
          ⟨List.replicate (16 * 16) 1, List.replicate (16 * 16) 0⟩ = some r := by
  have h := C14_memory_safety ⟨List.replicate (16 * 16) 1, List.replicate (16 * 16) 0⟩ 16 4
    (by decide) (by decide) (by norm_num) (ones_binary 16) (List.length_replicate _ _)
  obtain ⟨m1, _, _, hrun, _⟩ := h.1
  exact ⟨⟨by decide, by decide, by norm_num, ones_binary 16⟩, ⟨m1, hrun⟩, h.2 3⟩

/-- Refutes C16 as stated: 65536 = 2^16 is a power of two, at least 32, and the board of
ones is binary, but one generation of the four workers does not write every cell of the
next buffer: the first group of the first stripe reads the west column 65535 in row
65535, at an offset beyond INT_MAX, and the generation has no result. -/
theorem C16_counterexample :
    65536 = 2 ^ 16 ∧ 32 ≤ 65536 ∧ 65536 % 16 = 0
      ∧ IsBinaryBoard 65536 65536 (List.replicate (65536 * 65536) 1)
      ∧ 2 ^ 31 - 1 < 65535 + 65536 * 65535
      ∧ workers_generation_log build_lookup 65536 BoardPtr.inb BoardPtr.outb (TDATA 65536)
          ⟨List.replicate (65536 * 65536) 1, List.replicate (65536 * 65536) 0⟩ = none
      ∧ workers_generation build_lookup 65536 BoardPtr.inb BoardPtr.outb (TDATA 65536)
          ⟨List.replicate (65536 * 65536) 1, List.replicate (65536 * 65536) 0⟩ = none :=
  ⟨by norm_num, by norm_num, by norm_num, ones_binary 65536, by norm_num,
    workers_generation_log_none
      (workers_generation_overflow _ _ _ _ (by norm_num) (by norm_num)),
    workers_generation_overflow _ _ _ _ (by norm_num) (by norm_num)⟩

/-- C16 amended: for n a multiple of 16 the four stripes of TDATA are [i*(n/4), (i+1)*(n/4)),
contiguous from 0 to n, each of width n/4, a multiple of 4; every column index lies in
exactly one stripe if it is below n and in none otherwise; and when n*n <= 2^31 (every
offset below n*n is an int), on a binary board one generation of the four workers visits
groups that start at multiples of 4 inside the board and stores every offset below n*n
exactly once and no other offset. -/
theorem C16_stripe_partition (m : Memory) (n : Nat) (h16 : n % 16 = 0)
    (hb : IsBinaryBoard n n m.inboard) (hout : m.outboard.length = n * n) :
    TDATA n = [⟨0, n / 4⟩, ⟨n / 4, 2 * (n / 4)⟩, ⟨2 * (n / 4), 3 * (n / 4)⟩, ⟨3 * (n / 4), n⟩]
      ∧ (n / 4) % 4 = 0
      ∧ StripeCut n 0 (TDATA n)
      ∧ (∀ d ∈ TDATA n, d.colsToUse - d.cindex = n / 4)
      ∧ (∀ c, (TDATA n).countP (fun d => decide (d.cindex ≤ c ∧ c < d.colsToUse))
          = if c < n then 1 else 0)
      ∧ (n * n ≤ 2 ^ 31 →
        ∃ m1 log, workers_generation_log build_lookup n BoardPtr.inb BoardPtr.outb (TDATA n) m
            = some (m1, log)
          ∧ workers_generation build_lookup n BoardPtr.inb BoardPtr.outb (TDATA n) m = some m1
          ∧ (∀ ev ∈ log, ev.col % 4 = 0 ∧ ev.col + 4 ≤ n ∧ ev.row < n
              ∧ ev.writes = store_row_offsets n ev.row ev.col (ev.col + 1))
          ∧ ∀ x, (writes_of log).count x = if x < n * n then 1 else 0) := by
  have hcov := TDATA_covers h16
  refine ⟨?_, by omega, TDATA_cut h16, ?_, TDATA_countP h16, ?_⟩
  · rw [TDATA_eq]
    have e0 : 0 * (n / 4) = 0 := by omega
    have e1 : (0 + 1) * (n / 4) = n / 4 := by omega
    have e3 : (3 + 1) * (n / 4) = n := by omega
    have e4 : (1 + 1) * (n / 4) = 2 * (n / 4) := by omega
    have e5 : (2 + 1) * (n / 4) = 3 * (n / 4) := by omega
    rw [e0, e1, e3, e4, e5]
  · intro d hd
    rw [TDATA_eq] at hd
    simp only [List.mem_cons, List.mem_singleton, List.not_mem_nil, or_false] at hd
    rcases hd with rfl | rfl | rfl | rfl <;> dsimp only <;> omega
  · intro hN
    obtain ⟨m1, log, hrun, hrun', hmem, hcount⟩ :=
      workers_generation_log_spec hN (n := n) build_lookup_length
        (show BoardPtr.inb ≠ BoardPtr.outb by decide) (TDATA n) m hcov.1 hb hout
    refine ⟨m1, log, hrun, hrun', ?_, ?_⟩
    · intro ev hev
      obtain ⟨hr, ⟨d, hd, c1, c2, c3⟩, hok, _⟩ := hmem ev hev
      obtain ⟨v1, v2, v3, v4⟩ := hcov.1 d hd
      exact ⟨by omega, by omega, hr, hok.2.2.2.2⟩
    · intro x
      rw [hcount x, TDATA_countP h16]
      rcases Nat.eq_zero_or_pos n with rfl | hn
      · simp
      · by_cases hlt : x / n < n
        · rw [if_pos hlt, if_pos ((div_lt_iff_lt_sq hn).1 hlt)]
        · rw [if_neg hlt, if_neg (fun h => hlt ((div_lt_iff_lt_sq hn).2 h))]

theorem C16_stripe_partition_witness :
    (32 % 16 = 0 ∧ 32 * 32 ≤ 2 ^ 31 ∧ IsBinaryBoard 32 32 (List.replicate (32 * 32) 1))
      ∧ TDATA 32 = [⟨0, 8⟩, ⟨8, 16⟩, ⟨16, 24⟩, ⟨24, 32⟩]
      ∧ ∃ m1 log, workers_generation_log build_lookup 32 BoardPtr.inb BoardPtr.outb (TDATA 32)
            ⟨List.replicate (32 * 32) 1, List.replicate (32 * 32) 0⟩ = some (m1, log)
          ∧ (writes_of log).count 1023 = 1 ∧ (writes_of log).count 1024 = 0 := by
  have h := C16_stripe_partition ⟨List.replicate (32 * 32) 1, List.replicate (32 * 32) 0⟩ 32
    (by decide) (ones_binary 32) (List.length_replicate _ _)
  obtain ⟨m1, log, hrun, _, _, hcount⟩ := h.2.2.2.2.2 (by norm_num)
  exact ⟨⟨by decide, by norm_num, ones_binary 32⟩, h.1, m1, log, hrun, by rw [hcount 1023]; decide,
    by rw [hcount 1024]; decide⟩

theorem build_lookup_binary : ∀ x ∈ build_lookup, x = 0 ∨ x = 1 := by
  intro x hx
  simp only [build_lookup, List.mem_map] at hx
  obtain ⟨k, _, rfl⟩ := hx
  unfold lookup_entry alivep
  split
  · exact Or.inr rfl
  · exact Or.inl rfl

/-- Refutes C17 as stated: on the binary 65536 x 65536 board of ones the pass over the
stripe [0, 16) uses no table index and writes no cell, and the four workers do not reach
a second generation: the first group reads the west column 65535 in row 65535, at an
offset beyond INT_MAX, so the `int` offset of the source overflows. -/
theorem C17_counterexample :
    0 % 4 = 0 ∧ 16 % 4 = 0 ∧ 0 ≤ 16 ∧ 16 ≤ 65536 ∧ 65536 % 16 = 0
      ∧ IsBinaryBoard 65536 65536 (List.replicate (65536 * 65536) 1)
      ∧ 2 ^ 31 - 1 < 65535 + 65536 * 65535
      ∧ stripe_pass_log build_lookup (List.replicate (65536 * 65536) 1)
          (List.replicate (65536 * 65536) 1) 65536 0 16 = none
      ∧ thread_life build_lookup 65536 (TDATA 65536) 2 BoardPtr.inb BoardPtr.outb
          ⟨List.replicate (65536 * 65536) 1, List.replicate (65536 * 65536) 1⟩ = none :=
  ⟨by norm_num, by norm_num, by norm_num, by norm_num, by norm_num, ones_binary 65536,
    by norm_num,
    stripe_pass_log_none
      (stripe_pass_first_none (by norm_num) (column_group_overflow_west _ _ _ (by norm_num))),
    thread_life_first_none (by norm_num)
      (workers_generation_overflow _ _ _ _ (by norm_num) (by norm_num))⟩

/-- C17 amended: every table entry is 0 or 1; on a binary current buffer of side n with
n*n <= 2^31 (every offset below n*n is an int), in a generation pass
over a stripe with bounds multiples of 4 inside the board every table index used is below
512, the index being the key itself in rows 0 and n-1 and the masked key in between, and
every cell stored in the stripe is 0 or 1; hence with the four stripes of a board whose
side is a multiple of 16 the buffer read by every generation is binary. -/
theorem C17_binary_invariant (cur next : List Nat) (n start stop : Nat)
    (hs : start % 4 = 0) (he : stop % 4 = 0) (hse : start ≤ stop) (hen : stop ≤ n)
    (hb : IsBinaryBoard n n cur) (hnext : next.length = n * n) :
    (∀ x ∈ build_lookup, x = 0 ∨ x = 1)
      ∧ (n * n ≤ 2 ^ 31 → (∃ next1 log, stripe_pass_log build_lookup cur next n start stop = some (next1, log)
          ∧ stripe_pass build_lookup cur next n start stop = some next1
          ∧ (∀ ev ∈ log, IndexAsCode n ev ∧ ∀ k, k < 4 → ev.index.nth k < 512)
          ∧ ∀ r c, r < n → start ≤ c → c < stop →
              next1[r + n * c]? = some 0 ∨ next1[r + n * c]? = some 1)
        ∧ (n % 16 = 0 → ∀ g, ∃ p q m1,
          thread_life build_lookup n (TDATA n) g BoardPtr.inb BoardPtr.outb ⟨cur, next⟩
            = some (p, q, m1)
          ∧ IsBinaryBoard n n (m1.load p))) := by
  refine ⟨build_lookup_binary, ?_⟩
  intro hN
  refine ⟨?_, ?_⟩
  · obtain ⟨next1, log, hrun, hrun', hlen, hmem, _⟩ :=
      stripe_pass_log_spec hN build_lookup_length hb hnext hs he hse hen
    obtain ⟨next2, hrun2, _, hcell⟩ :=
      stripe_pass_spec_of_le hN build_lookup_length hb hnext hs he hse hen
    rw [hrun'] at hrun2
    cases hrun2
    refine ⟨next1, log, hrun, hrun', ?_, ?_⟩
    · intro ev hev
      obtain ⟨_, _, hok, hix⟩ := hmem ev hev
      refine ⟨hix, ?_⟩
      intro k hk
      rw [hok.2.2.2.1, groupKeys_nth _ _ _ _ hk]
      exact neighbourKey_lt hb _ _
    · intro r c hr hc1 hc2
      have hoff : r + n * c < next1.length := by
        rw [hlen]; exact offset_lt hr (by omega)
      have hval := hcell r c hr
      rw [if_pos ⟨hc1, hc2⟩, lookup_key_conway hb] at hval
      unfold cellAt at hval
      rw [List.getD_eq_getElem?_getD, List.getElem?_eq_getElem hoff, Option.getD_some] at hval
      rw [List.getElem?_eq_getElem hoff, hval]
      rcases conwayCell_le_one cur n n r c with h0 | h1
      · exact Or.inl (by rw [h0])
      · exact Or.inr (by rw [h1])
  · intro h16 g
    have hrun := thread_life_covers hN (show n % 4 = 0 by omega) (TDATA_covers h16) g
      ⟨cur, next⟩ hb hnext
    refine ⟨_, _, _, hrun, ?_⟩
    rw [(sequential_loop_spec n n g BoardPtr.inb BoardPtr.outb ⟨cur, next⟩ (by decide)).2]
    cases g with
    | zero => exact hb
    | succ g =>
      simp only [conwayGens, Function.iterate_succ_apply']
      exact conwayStep_binary n n _

theorem C17_binary_invariant_witness :
    ((0 : Nat) % 4 = 0 ∧ (16 : Nat) % 4 = 0 ∧ (16 : Nat) ≤ 16 ∧ 16 * 16 ≤ 2 ^ 31
        ∧ IsBinaryBoard 16 16 (List.replicate (16 * 16) 1))
      ∧ (∃ next1 log, stripe_pass_log build_lookup (List.replicate (16 * 16) 1)
            (List.replicate (16 * 16) 9) 16 0 16 = some (next1, log)
          ∧ (∀ ev ∈ log, ∀ k, k < 4 → ev.index.nth k < 512)
          ∧ (next1[5 + 16 * 3]? = some 0 ∨ next1[5 + 16 * 3]? = some 1))
      ∧ ∃ p q m1, thread_life build_lookup 16 (TDATA 16) 4 BoardPtr.inb BoardPtr.outb
            ⟨List.replicate (16 * 16) 1, List.replicate (16 * 16) 9⟩ = some (p, q, m1)
          ∧ IsBinaryBoard 16 16 (m1.load p) := by
  have h := C17_binary_invariant (List.replicate (16 * 16) 1) (List.replicate (16 * 16) 9)
    16 0 16 (by decide) (by decide) (by decide) (by decide) (ones_binary 16)
    (List.length_replicate _ _)
  obtain ⟨⟨next1, log, hrun, _, hidx, hcell⟩, hgen⟩ := h.2 (by norm_num)
  exact ⟨⟨by decide, by decide, by decide, by norm_num, ones_binary 16⟩,
    ⟨next1, log, hrun, fun ev hev => (hidx ev hev).2,
      hcell 5 3 (by decide) (by decide) (by decide)⟩,
    hgen (by decide) 4⟩

end Life
